import Mathlib

/-!
# Verification development for four parts of the storage and execution core

Shallow embeddings of four source files:

* `pkg/sql/compile2/scope.go` (namespace `Compile2`): the DDL entry points
  (`CreateDatabase`, `DropDatabase`, `CreateTable`, `DropTable`) together with
  `planDefsToExeDefs` and `planColsToExeCols`; `MergeRun`, with the goroutines
  and the pipeline abstracted as oracles; `ParallelRun`, whose instruction-list
  rewrite is modelled on Go slices with explicit run-time faults;
* `pkg/vm/engine/aoe/storage/db/replay.go` (namespace `Replay`): the catalog
  of checkpoint and data files and its cleanup policies;
* `pkg/sql/colexec/aggregation/sum/float.go` (namespace `SumAgg`);
* `pkg/vm/engine/aoe/storage/buffer/node/iface/types.go` (namespace `Iface`).

Go values that can be `nil` are `Option`s, a Go panic is an `Except.error`,
and calls to the engine interface are recorded in a trace.  All definitions
come first, the theorems follow.
-/

namespace Compile2

/-! ## Go run-time faults and slice primitives -/

/-- Run-time faults that abort a Go function by panicking. -/
inductive Fault where
  | indexOutOfRange
  | sliceBounds
  | typeAssertion
deriving DecidableEq, Repr

/-- Go `xs[i]` as a read: panics unless `0 ≤ i < len(xs)`. -/
def index {α : Type} (xs : List α) (i : Int) : Except Fault α :=
  if i < 0 then .error .indexOutOfRange
  else
    match xs[i.toNat]? with
    | some x => .ok x
    | none => .error .indexOutOfRange

/-- Go `xs[i] = v`: panics unless `i < len(xs)`. -/
def setIndex {α : Type} (xs : List α) (i : Nat) (v : α) : Except Fault (List α) :=
  if i < xs.length then .ok (xs.set i v) else .error .indexOutOfRange

/-- Go `xs[lo:]`: panics unless `lo ≤ len(xs)`. -/
def sliceFrom {α : Type} (xs : List α) (lo : Nat) : Except Fault (List α) :=
  if lo ≤ xs.length then .ok (xs.drop lo) else .error .sliceBounds

/-- Go `xs[:hi]`: panics unless `0 ≤ hi ≤ len(xs)`.  (The capacity of every
slice re-sliced in this file is never needed beyond its length.) -/
def sliceTo {α : Type} (xs : List α) (hi : Int) : Except Fault (List α) :=
  if 0 ≤ hi ∧ hi ≤ (xs.length : Int) then .ok (xs.take hi.toNat) else .error .sliceBounds

/-! ## Instructions -/

/-- Modelled from the spec: the opcode set of `vm.Instruction.Op` (the constants
`overload.*` and `vm.Connector` are declared outside `scope.go`); codes that
the scope runtime never inspects are collected under `other`. -/
inductive OpCode where
  | Top | Order | Limit | Offset | Group
  | Join | Left | Complement
  | Merge | MergeTop | MergeOrder | MergeLimit | MergeOffset | MergeGroup
  | Connector | Output
  | other (code : Nat)
deriving DecidableEq, Repr

/-- Modelled from the spec: an ordering expression of `Top` / `Order`
(expression handle and direction); the type is declared in `colexec2`. -/
structure Field where
  E : Nat
  Typ : Nat
deriving DecidableEq, Repr

/-- Modelled from the spec: the inbox `process.WaitRegister`, a bounded channel
paired with a cancellation context.  `addr` is the identity of the
allocation, `Ctx` the context, `Ch` the channel capacity. -/
structure WaitRegister where
  addr : Nat
  Ctx : Nat
  Ch : Nat
deriving DecidableEq, Repr

/-- Modelled from the spec: the tagged variant `vm.Instruction.Arg`, one case
per concrete argument type (declared in the operator packages), each with the
fields that `scope.go` reads or writes. -/
inductive Argument where
  | top (Fs : List Field) (Limit : Int)
  | order (Fs : List Field)
  | limit (Limit : Nat)
  | offset (Offset : Nat)
  | group (Aggs : List Nat) (Exprs : List Nat)
  | mergeTop (Fs : List Field) (Limit : Int)
  | mergeOrder (Fs : List Field)
  | mergeLimit (Limit : Nat)
  | mergeOffset (Offset : Nat)
  | mergeGroup (NeedEval : Bool)
  | merge
  | connector (Mmu : Nat) (Reg : WaitRegister)
  | other (payload : Nat)
deriving DecidableEq, Repr

/-- Modelled from the spec: the record `vm.Instruction`, an opcode with its
argument. -/
structure Instruction where
  Op : OpCode
  Arg : Argument
deriving DecidableEq, Repr

/-! ## The plan messages read by the DDL entry points

The generated message code of `pkg/pb/plan` is declared outside `scope.go`
and is modelled from the spec's description of the plan descriptors.
Messages carry the fields that `scope.go` reads; a message pointer that can
be `nil` is an `Option`, a `oneof` is an inductive type, and every getter
`GetX` is nil-safe: it yields the zero value on a `nil` receiver and on a
`oneof` that holds another case. -/

namespace plan

/-- Modelled from the spec: the enum `plan.CompressType`. -/
inductive CompressType where
  | None | Lz4
deriving DecidableEq, Repr

/-- Modelled from the spec: the message `plan.Type`. -/
structure Type_ where
  Id : Int
  Width : Int
  Precision : Int
  Scale : Int
  Size : Int
deriving DecidableEq, Repr

/-- Modelled from the spec: the message `plan.DefaultExpr`; `Value` is a handle on the constant. -/
structure DefaultExpr where
  Exist : Bool
  Value : Option Nat
  IsNull : Bool
deriving DecidableEq, Repr

/-- Modelled from the spec: the message `plan.ColDef`. -/
structure ColDef where
  Name : String
  Alg : CompressType
  Typ : Option Type_
  Default : Option DefaultExpr
  Primary : Bool
deriving DecidableEq, Repr

/-- Modelled from the spec: the message `plan.Property`. -/
structure Property where
  Key : String
  Value : String
deriving DecidableEq, Repr

/-- Modelled from the spec: the message `plan.PrimaryKeyDef`. -/
structure PrimaryKeyDef where
  Names : List String
deriving DecidableEq, Repr

/-- Modelled from the spec: the message `plan.IndexDef`. -/
structure IndexDef where
  ColNames : List String
  Name : String
deriving DecidableEq, Repr

/-- Modelled from the spec: the message `plan.PropertiesDef`. -/
structure PropertiesDef where
  Properties : List Property
deriving DecidableEq, Repr

/-- Modelled from the spec: the `oneof def` of `plan.TableDef_DefType`, as returned by `GetDef()`;
`unset` is the `nil` interface. -/
inductive DefType where
  | Pk (v : Option PrimaryKeyDef)
  | Idx (v : Option IndexDef)
  | Properties (v : Option PropertiesDef)
  | unset
deriving DecidableEq, Repr

/-- Modelled from the spec: the message `plan.TableDef`. -/
structure TableDef where
  Name : String
  Cols : List ColDef
  Defs : List DefType
deriving DecidableEq, Repr

/-- Modelled from the spec: the message `plan.CreateDatabase`. -/
structure CreateDatabase where
  Database : String
deriving DecidableEq, Repr

/-- Modelled from the spec: the message `plan.DropDatabase`. -/
structure DropDatabase where
  Database : String
deriving DecidableEq, Repr

/-- Modelled from the spec: the message `plan.CreateTable`. -/
structure CreateTable where
  Database : String
  TableDef : Option TableDef
deriving DecidableEq, Repr

/-- Modelled from the spec: the message `plan.DropTable`. -/
structure DropTable where
  Database : String
  Table : String
deriving DecidableEq, Repr

/-- Modelled from the spec: the `oneof definition` of `plan.DataDefinition`; the cases that
`scope.go` never reads are collected under `other`. -/
inductive DataDefinition where
  | CreateDatabase (v : CreateDatabase)
  | DropDatabase (v : DropDatabase)
  | CreateTable (v : CreateTable)
  | DropTable (v : DropTable)
  | other (tag : Nat)
deriving DecidableEq, Repr

/-- Modelled from the spec: the `oneof plan` of `plan.Plan`; the non-DDL cases are under `other`. -/
inductive Plan where
  | Ddl (v : DataDefinition)
  | other (tag : Nat)
deriving DecidableEq, Repr

/-- Modelled from the spec: getter `(*Plan).GetDdl`. -/
def Plan.GetDdl : Option Plan → Option DataDefinition
  | some (.Ddl v) => some v
  | _ => none

/-- Modelled from the spec: getter `(*DataDefinition).GetCreateDatabase`. -/
def DataDefinition.GetCreateDatabase : Option DataDefinition → Option plan.CreateDatabase
  | some (.CreateDatabase v) => some v
  | _ => none

/-- Modelled from the spec: getter `(*DataDefinition).GetDropDatabase`. -/
def DataDefinition.GetDropDatabase : Option DataDefinition → Option plan.DropDatabase
  | some (.DropDatabase v) => some v
  | _ => none

/-- Modelled from the spec: getter `(*DataDefinition).GetCreateTable`. -/
def DataDefinition.GetCreateTable : Option DataDefinition → Option plan.CreateTable
  | some (.CreateTable v) => some v
  | _ => none

/-- Modelled from the spec: getter `(*DataDefinition).GetDropTable`. -/
def DataDefinition.GetDropTable : Option DataDefinition → Option plan.DropTable
  | some (.DropTable v) => some v
  | _ => none

/-- Modelled from the spec: getter `(*CreateDatabase).GetDatabase`. -/
def CreateDatabase.GetDatabase : Option CreateDatabase → String
  | some v => v.Database
  | none => ""

/-- Modelled from the spec: getter `(*DropDatabase).GetDatabase`. -/
def DropDatabase.GetDatabase : Option DropDatabase → String
  | some v => v.Database
  | none => ""

/-- Modelled from the spec: getter `(*CreateTable).GetDatabase`. -/
def CreateTable.GetDatabase : Option CreateTable → String
  | some v => v.Database
  | none => ""

/-- Modelled from the spec: getter `(*CreateTable).GetTableDef`. -/
def CreateTable.GetTableDef : Option CreateTable → Option plan.TableDef
  | some v => v.TableDef
  | none => none

/-- Modelled from the spec: getter `(*DropTable).GetDatabase`. -/
def DropTable.GetDatabase : Option DropTable → String
  | some v => v.Database
  | none => ""

/-- Modelled from the spec: getter `(*DropTable).GetTable`. -/
def DropTable.GetTable : Option DropTable → String
  | some v => v.Table
  | none => ""

/-- Modelled from the spec: getter `(*TableDef).GetName`. -/
def TableDef.GetName : Option TableDef → String
  | some v => v.Name
  | none => ""

/-- Modelled from the spec: getter `(*TableDef).GetCols`. -/
def TableDef.GetCols : Option TableDef → List ColDef
  | some v => v.Cols
  | none => []

/-- Modelled from the spec: getter `(*TableDef).GetDefs`. -/
def TableDef.GetDefs : Option TableDef → List DefType
  | some v => v.Defs
  | none => []

/-- Modelled from the spec: getter `(*PrimaryKeyDef).GetNames`. -/
def PrimaryKeyDef.GetNames : Option PrimaryKeyDef → List String
  | some v => v.Names
  | none => []

/-- Modelled from the spec: getter `(*IndexDef).GetColNames`. -/
def IndexDef.GetColNames : Option IndexDef → List String
  | some v => v.ColNames
  | none => []

/-- Modelled from the spec: getter `(*IndexDef).GetName`. -/
def IndexDef.GetName : Option IndexDef → String
  | some v => v.Name
  | none => ""

/-- Modelled from the spec: getter `(*PropertiesDef).GetProperties`. -/
def PropertiesDef.GetProperties : Option PropertiesDef → List Property
  | some v => v.Properties
  | none => []

/-- Modelled from the spec: getters of `plan.Type` on a possibly `nil` receiver. -/
def Type_.GetId : Option Type_ → Int
  | some v => v.Id
  | none => 0

/-- Modelled from the spec: getter `(*Type).GetWidth`. -/
def Type_.GetWidth : Option Type_ → Int
  | some v => v.Width
  | none => 0

/-- Modelled from the spec: getter `(*Type).GetPrecision`. -/
def Type_.GetPrecision : Option Type_ → Int
  | some v => v.Precision
  | none => 0

/-- Modelled from the spec: getter `(*Type).GetScale`. -/
def Type_.GetScale : Option Type_ → Int
  | some v => v.Scale
  | none => 0

/-- Modelled from the spec: getter `(*Type).GetSize`. -/
def Type_.GetSize : Option Type_ → Int
  | some v => v.Size
  | none => 0

/-- Modelled from the spec: getter `(*DefaultExpr).GetExist`. -/
def DefaultExpr.GetExist : Option DefaultExpr → Bool
  | some v => v.Exist
  | none => false

/-- Modelled from the spec: getter `(*DefaultExpr).GetValue`. -/
def DefaultExpr.GetValue : Option DefaultExpr → Option Nat
  | some v => v.Value
  | none => none

/-- Modelled from the spec: getter `(*DefaultExpr).GetIsNull`. -/
def DefaultExpr.GetIsNull : Option DefaultExpr → Bool
  | some v => v.IsNull
  | none => false

end plan

/-! ## Scopes -/

/-- Modelled from the spec: the execution mode of a scope, one of `Normal`,
`Merge`, `Remote`, `Parallel` (the constants are declared next to `Scope`). -/
inductive MagicKind where
  | Normal | Merge | Remote | Parallel
deriving DecidableEq, Repr

/-- Modelled from the spec: the snapshot token `engine.Snapshot`, a byte slice;
`none` is `nil`. -/
abbrev Snapshot := Option (List Nat)

/-- A Go `error` value; `none : Option GoError` is the `nil` error. -/
abbrev GoError := String

/-- Modelled from the spec: the data source of a scope (`Source`, declared next
to `Scope`); `R` is the reader handle. -/
structure Source where
  SchemaName : String
  RelationName : String
  Attributes : List String
  R : Option Nat
deriving DecidableEq, Repr

/-- Modelled from the spec: the per-scope process context `process.Process`,
with the fields that `scope.go` touches.  `Gm` stands for `Mp.Gm`, `Cancel`
for the cancel function of the context, `MergeReceivers` for
`Reg.MergeReceivers`. -/
structure Process where
  Id : String
  Lim : Nat
  UnixTime : Int
  Snapshot : Snapshot
  Gm : Nat
  Cancel : Option Nat
  MergeReceivers : List WaitRegister
deriving DecidableEq, Repr

/-- Modelled from the spec: the execution unit `Scope` (its declaration is in
another file of the package); `NodeInfo` stands for `NodeInfo.Data`. -/
structure Scope where
  Magic : MagicKind
  Plan : Option plan.Plan
  DataSource : Source
  Instructions : List Instruction
  PreScopes : List Scope
  NodeInfo : List Nat
  Proc : Process
deriving Repr

/-- Append one instruction to a scope: `sc.Instructions = append(sc.Instructions, ins)`. -/
def Scope.appendInstruction (ins : Instruction) (sc : Scope) : Scope :=
  { sc with Instructions := sc.Instructions ++ [ins] }

/-! ## ParallelRun: the rewrite -/

/-- The sibling built in one iteration of lines 254-269, reading from `r`:
a `Normal` scope on the parent's relation with a fresh process that takes
over `Id`, `Lim`, `UnixTime` and `Snapshot`, and no instructions yet. -/
def newSibling (s : Scope) (r : Nat) : Scope :=
  { Magic := .Normal
    Plan := none
    NodeInfo := []
    DataSource :=
      { R := some r
        SchemaName := s.DataSource.SchemaName
        RelationName := s.DataSource.RelationName
        Attributes := s.DataSource.Attributes }
    Instructions := []
    PreScopes := []
    Proc :=
      { Id := s.Proc.Id
        Lim := s.Proc.Lim
        UnixTime := s.Proc.UnixTime
        Snapshot := s.Proc.Snapshot
        Gm := s.Proc.Gm
        Cancel := none
        MergeReceivers := [] } }

/-- Lines 253-269: build the siblings `i`, `i+1`, ... for `n` more shards,
sibling `j` reading from `rds[j]`. -/
def newSiblings (s : Scope) (rds : List Nat) : Nat → Nat → Except Fault (List Scope)
  | _, 0 => .ok []
  | i, n + 1 => do
    let r ← index rds (i : Int)
    let rest ← newSiblings s rds (i + 1) n
    pure (newSibling s r :: rest)

/-- Loop state of the rewrite: the flag `flg`, the parent's
`s.Instructions` and the sibling scopes `ss`. -/
structure RewriteState where
  flg : Bool
  Instructions : List Instruction
  ss : List Scope
deriving Repr

/-- The common body of the five split cases, after the type assertion:
`s.Instructions = append(s.Instructions[:1], s.Instructions[i+1:]...)`,
`s.Instructions[0] = m`, and `sib` appended to every sibling. -/
def splitAt (st : RewriteState) (i : Nat) (m sib : Instruction) : Except Fault RewriteState := do
  let head ← sliceTo st.Instructions 1
  let tail ← sliceFrom st.Instructions (i + 1)
  let ins ← setIndex (head ++ tail) 0 m
  pure { flg := true, Instructions := ins, ss := st.ss.map (Scope.appendInstruction sib) }

/-- One iteration of the `switch in.Op` at index `i`. -/
def rewriteStep (dupInstruction : Instruction → Instruction) (st : RewriteState) (i : Nat)
    (ins : Instruction) : Except Fault RewriteState :=
  match ins.Op with
  | .Top =>
    match ins.Arg with
    | .top fs lim => splitAt st i ⟨.MergeTop, .mergeTop fs lim⟩ ⟨.Top, .top fs lim⟩
    | _ => .error .typeAssertion
  | .Order =>
    match ins.Arg with
    | .order fs => splitAt st i ⟨.MergeOrder, .mergeOrder fs⟩ ⟨.Order, .order fs⟩
    | _ => .error .typeAssertion
  | .Limit =>
    match ins.Arg with
    | .limit lim => splitAt st i ⟨.MergeLimit, .mergeLimit lim⟩ ⟨.Limit, .limit lim⟩
    | _ => .error .typeAssertion
  | .Group =>
    match ins.Arg with
    | .group aggs exprs => splitAt st i ⟨.MergeGroup, .mergeGroup false⟩ ⟨.Group, .group aggs exprs⟩
    | _ => .error .typeAssertion
  | .Offset =>
    match ins.Arg with
    | .offset off => splitAt st i ⟨.MergeOffset, .mergeOffset off⟩ ⟨.Offset, .offset off⟩
    | _ => .error .typeAssertion
  | _ =>
    .ok { st with ss := st.ss.map (Scope.appendInstruction (dupInstruction ins)) }

/-- The loop `for i, in := range s.Instructions`, entered at index `i` with
the instructions `rest` still to visit; it breaks as soon as `flg` is set. -/
def rewriteLoop (dupInstruction : Instruction → Instruction) :
    Nat → List Instruction → RewriteState → Except Fault RewriteState
  | _, [], st => .ok st
  | i, ins :: rest, st =>
    if st.flg then .ok st
    else do
      let st1 ← rewriteStep dupInstruction st i ins
      rewriteLoop dupInstruction (i + 1) rest st1

/-- In the `!flg` branch: `ss[i].Instructions = ss[i].Instructions[:len-1]`
for every sibling, in order. -/
def dropSinks : List Scope → Except Fault (List Scope)
  | [] => .ok []
  | sc :: rest => do
    let ins ← sliceTo sc.Instructions ((sc.Instructions.length : Int) - 1)
    let rest1 ← dropSinks rest
    pure ({ sc with Instructions := ins } :: rest1)

/-- The `if !flg` block that follows the loop. -/
def finishRewrite (st : RewriteState) : Except Fault RewriteState :=
  if st.flg then .ok st
  else do
    let ss ← dropSinks st.ss
    let i0 ← setIndex st.Instructions 0 ⟨.Merge, .merge⟩
    let last ← index i0 ((i0.length : Int) - 1)
    let i1 ← setIndex i0 1 last
    let i2 ← sliceTo i1 2
    pure { st with Instructions := i2, ss := ss }

/-- The receivers `s.Proc.Reg.MergeReceivers`: one fresh register per sibling,
all on the context `ctx`, each with a channel of capacity 1.  The allocation
identity of the register made in iteration `i` is `i`. -/
def newReceivers (ctx : Nat) (n : Nat) : List WaitRegister :=
  (List.range n).map (fun i => { addr := i, Ctx := ctx, Ch := 1 })

/-- The final loop: sibling `i` gets `Connector{Mmu, Reg: MergeReceivers[i]}`. -/
def connect (mmu : Nat) (regs : List WaitRegister) : Nat → List Scope → Except Fault (List Scope)
  | _, [] => .ok []
  | i, sc :: rest => do
    let reg ← index regs (i : Int)
    let rest1 ← connect mmu regs (i + 1) rest
    pure (sc.appendInstruction ⟨.Connector, .connector mmu reg⟩ :: rest1)

/-- Lines 253-413 of `ParallelRun`: everything between the reader
acquisition and the final `MergeRun`.  `rds` are the readers returned by
`NewReader`, `mcpu` the shard count, `ctx` the fresh cancellation context. -/
def parallelRewrite (dupInstruction : Instruction → Instruction) (rds : List Nat) (mcpu : Nat)
    (ctx : Nat) (s : Scope) : Except Fault Scope := do
  let ss ← newSiblings s rds 0 mcpu
  let st ← rewriteLoop dupInstruction 0 s.Instructions
    { flg := false, Instructions := s.Instructions, ss := ss }
  let st ← finishRewrite st
  let regs := newReceivers ctx st.ss.length
  let ss ← connect s.Proc.Gm regs 0 st.ss
  pure { s with
    Magic := .Merge
    Instructions := st.Instructions
    PreScopes := ss
    Proc := { s.Proc with Cancel := some ctx, MergeReceivers := regs } }

/-! ## The engine interface and the DDL entry points -/

namespace compress

/-- Modelled from the spec: the compression algorithm tag `compress.T` with its two constants. -/
inductive T where
  | None | Lz4
deriving DecidableEq, Repr

end compress

namespace types

/-- Modelled from the spec: the record `types.Type`; `Oid` holds the result of the conversion
`types.T(id)`. -/
structure Type_ where
  Oid : Nat
  Width : Int
  Precision : Int
  Scale : Int
  Size : Int
deriving DecidableEq, Repr

end types

namespace engine

/-- Modelled from the spec: the record `engine.DefaultExpr`. -/
structure DefaultExpr where
  Exist : Bool
  Value : Option Nat
  IsNull : Bool
deriving DecidableEq, Repr

/-- Modelled from the spec: the record `engine.Attribute`. -/
structure Attribute where
  Name : String
  Alg : compress.T
  Typ : types.Type_
  Default : DefaultExpr
  Primary : Bool
deriving DecidableEq, Repr

/-- Modelled from the spec: the record `engine.Property`. -/
structure Property where
  Key : String
  Value : String
deriving DecidableEq, Repr

/-- Modelled from the spec: the implementations of the interface `engine.TableDef` that `scope.go`
builds. -/
inductive TableDef where
  | AttributeDef (Attr : Attribute)
  | PrimaryIndexDef (Names : List String)
  | IndexTableDef (ColNames : List String) (Name : String)
  | PropertiesDef (Properties : List Property)
deriving DecidableEq, Repr

/-- Modelled from the spec: the interface `engine.Relation`, reduced to `NewReader(n, expr, data,
snapshot)`, which yields reader handles. -/
structure Relation where
  NewReader : Nat → List Nat → Snapshot → List Nat

/-- Modelled from the spec: the interface `engine.Database`: for each method,
the value it returns. -/
structure Database where
  Create : Nat → String → List (Option TableDef) → Snapshot → Option GoError
  Delete : Nat → String → Snapshot → Option GoError
  Relation : String → Snapshot → Except GoError Relation

/-- Modelled from the spec: the interface `engine.Engine`: for each method,
the value it returns. -/
structure Engine where
  Create : Nat → String → Int → Snapshot → Option GoError
  Delete : Nat → String → Snapshot → Option GoError
  Database : String → Snapshot → Except GoError Database

end engine

/-- A call made by a DDL entry point on the engine or on a database handle,
with its arguments in source order. -/
inductive Call where
  | engineCreate (ts : Nat) (name : String) (typ : Int) (snapshot : Snapshot)
  | engineDelete (ts : Nat) (name : String) (snapshot : Snapshot)
  | engineDatabase (name : String) (snapshot : Snapshot)
  | dbCreate (ts : Nat) (name : String) (defs : List (Option engine.TableDef))
      (snapshot : Snapshot)
  | dbDelete (ts : Nat) (name : String) (snapshot : Snapshot)
deriving DecidableEq, Repr

/-- What a DDL entry point does: the error it returns and the calls it made,
oldest first. -/
structure Effect where
  err : Option GoError
  calls : List Call
deriving DecidableEq, Repr

/-- The entry point `Scope.CreateDatabase`. -/
def CreateDatabase (s : Scope) (ts : Nat) (snapshot : Snapshot) (e : engine.Engine) : Effect :=
  let dbName := plan.CreateDatabase.GetDatabase
    (plan.DataDefinition.GetCreateDatabase (plan.Plan.GetDdl s.Plan))
  ⟨e.Create ts dbName 0 snapshot, [.engineCreate ts dbName 0 snapshot]⟩

/-- The entry point `Scope.DropDatabase`. -/
def DropDatabase (s : Scope) (ts : Nat) (snapshot : Snapshot) (e : engine.Engine) : Effect :=
  let dbName := plan.CreateDatabase.GetDatabase
    (plan.DataDefinition.GetCreateDatabase (plan.Plan.GetDdl s.Plan))
  ⟨e.Delete ts dbName snapshot, [.engineDelete ts dbName snapshot]⟩

/-- The function `planDefsToExeDefs`; an entry whose `oneof` is unset stays
the `nil` interface. -/
def planDefsToExeDefs (planDefs : List plan.DefType) : List (Option engine.TableDef) :=
  planDefs.map fun d =>
    match d with
    | .Pk pk => some (.PrimaryIndexDef (plan.PrimaryKeyDef.GetNames pk))
    | .Idx idx =>
      some (.IndexTableDef (plan.IndexDef.GetColNames idx) (plan.IndexDef.GetName idx))
    | .Properties ps =>
      some (.PropertiesDef ((plan.PropertiesDef.GetProperties ps).map
        fun p => { Key := p.Key, Value := p.Value }))
    | .unset => none

/-- The function `planColsToExeCols`; `toT` is the conversion `types.T(id)`
to the type tag declared in `pkg/container/types`. -/
def planColsToExeCols (toT : Int → Nat) (planCols : List plan.ColDef) :
    List (Option engine.TableDef) :=
  planCols.map fun col =>
    let alg : compress.T :=
      match col.Alg with
      | .None => .None
      | .Lz4 => .Lz4
    let colTyp := col.Typ
    some (.AttributeDef
      { Name := col.Name
        Alg := alg
        Typ :=
          { Oid := toT (plan.Type_.GetId colTyp)
            Width := plan.Type_.GetWidth colTyp
            Precision := plan.Type_.GetPrecision colTyp
            Scale := plan.Type_.GetScale colTyp
            Size := plan.Type_.GetSize colTyp }
        Default :=
          { Exist := plan.DefaultExpr.GetExist col.Default
            Value := plan.DefaultExpr.GetValue col.Default
            IsNull := plan.DefaultExpr.GetIsNull col.Default }
        Primary := col.Primary })

/-- The entry point `Scope.CreateTable`. -/
def CreateTable (toT : Int → Nat) (s : Scope) (ts : Nat) (snapshot : Snapshot)
    (e : engine.Engine) (dbName : String) : Effect :=
  let qry := plan.DataDefinition.GetCreateTable (plan.Plan.GetDdl s.Plan)
  let planCols := plan.TableDef.GetCols (plan.CreateTable.GetTableDef qry)
  let exeCols := planColsToExeCols toT planCols
  let planDefs := plan.TableDef.GetDefs (plan.CreateTable.GetTableDef qry)
  let exeDefs := planDefsToExeDefs planDefs
  let dbName := if plan.CreateTable.GetDatabase qry ≠ "" then plan.CreateTable.GetDatabase qry
    else dbName
  match e.Database dbName none with
  | .error err => ⟨some err, [.engineDatabase dbName none]⟩
  | .ok dbSource =>
    let name := plan.TableDef.GetName (plan.CreateTable.GetTableDef qry)
    ⟨dbSource.Create ts name (exeCols ++ exeDefs) snapshot,
      [.engineDatabase dbName none, .dbCreate ts name (exeCols ++ exeDefs) snapshot]⟩

/-- The entry point `Scope.DropTable`. -/
def DropTable (s : Scope) (ts : Nat) (snapshot : Snapshot) (e : engine.Engine) : Effect :=
  let qry := plan.DataDefinition.GetDropTable (plan.Plan.GetDdl s.Plan)
  let dbName := plan.DropTable.GetDatabase qry
  match e.Database dbName none with
  | .error err => ⟨some err, [.engineDatabase dbName none]⟩
  | .ok dbSource =>
    let tblName := plan.DropTable.GetTable qry
    ⟨dbSource.Delete ts tblName snapshot,
      [.engineDatabase dbName none, .dbDelete ts tblName snapshot]⟩

/-! ## MergeRun and ParallelRun -/

/-- How a call of a scope runner ends: it returns an error value (`none` is
`nil`), it panics, or it waits forever on the completion channel. -/
inductive Outcome where
  | returned (err : Option GoError)
  | panicked (f : Fault)
  | blocked
deriving DecidableEq, Repr

/-- What `MergeRun` cannot see of the goroutines it starts: the terminal
error of each kind of runner on a child scope, and `order`, the order in
which the workers complete (worker `i` runs `PreScopes[i]`). -/
structure Workers where
  Run : Scope → Option GoError
  MergeRun : Scope → Option GoError
  RemoteRun : Scope → Option GoError
  ParallelRun : Scope → Option GoError
  order : List Nat

/-- The `switch s.PreScopes[i].Magic`: the value that the worker started for
the child `cs` sends on `errChan`. -/
def Workers.spawn (w : Workers) (cs : Scope) : Option GoError :=
  match cs.Magic with
  | .Normal => w.Run cs
  | .Merge => w.MergeRun cs
  | .Remote => w.RemoteRun cs
  | .Parallel => w.ParallelRun cs

/-- The contents of `errChan` in the order of arrival. -/
def Workers.errChan (w : Workers) (s : Scope) : List (Option GoError) :=
  w.order.filterMap fun i => (s.PreScopes[i]?).map w.spawn

/-- The loop `for i := 0; i < len(s.PreScopes); i++` of `MergeRun`, with `n`
receives still to do on the channel contents `ch`. -/
def drain : Nat → List (Option GoError) → Outcome
  | 0, _ => .returned none
  | _ + 1, [] => .blocked
  | n + 1, err :: ch =>
    match err with
    | some e => .returned (some e)
    | none => drain n ch

/-- The runner `Scope.MergeRun`; `runMerge s` is the error returned by the
merge pipeline `pipeline2.NewMerge(s.Instructions, s.Reg).RunMerge(s.Proc)`. -/
def MergeRun (w : Workers) (runMerge : Scope → Option GoError) (s : Scope) : Outcome :=
  match runMerge s with
  | some err => .returned (some err)
  | none => drain s.PreScopes.length (w.errChan s)

/-- The surroundings of `ParallelRun`: the value of `Scope.NumCPU`, which
returns `runtime.NumCPU()`, the number of logical CPUs usable by the process
and so at least 1; the helper `dupInstruction` (declared elsewhere in the
package), the context made by `context.WithCancel`, the workers and the merge
pipeline. -/
structure Runtime where
  NumCPU : Nat
  NumCPU_pos : 0 < NumCPU
  dupInstruction : Instruction → Instruction
  ctx : Nat
  workers : Workers
  runMerge : Scope → Option GoError

/-- The runner `Scope.ParallelRun`. -/
def ParallelRun (rt : Runtime) (e : engine.Engine) (s : Scope) : Outcome :=
  let mcpu := rt.NumCPU
  let snap := s.Proc.Snapshot
  match e.Database s.DataSource.SchemaName snap with
  | .error err => .returned (some err)
  | .ok db =>
    match db.Relation s.DataSource.RelationName snap with
    | .error err => .returned (some err)
    | .ok rel =>
      let rds := rel.NewReader mcpu s.NodeInfo snap
      match parallelRewrite rt.dupInstruction rds mcpu rt.ctx s with
      | .error f => .panicked f
      | .ok s1 => MergeRun rt.workers rt.runMerge s1

/-- The runner `Scope.RemoteRun`. -/
def RemoteRun (rt : Runtime) (e : engine.Engine) (s : Scope) : Outcome :=
  ParallelRun rt e s

/-! ## Reading the rewrite: split opcodes and the merge table -/

/-- The opcodes that are order-sensitive across shards. -/
def isSplitOp : OpCode → Bool
  | .Top | .Order | .Limit | .Offset | .Group => true
  | _ => false

/-- The rewrite table of the parallel rewrite: the merge operator that takes
the place of a split instruction whose argument has the type its opcode
announces; `none` for every other instruction. -/
def mergeForm (ins : Instruction) : Option Instruction :=
  match ins.Op, ins.Arg with
  | .Top, .top fs lim => some ⟨.MergeTop, .mergeTop fs lim⟩
  | .Order, .order fs => some ⟨.MergeOrder, .mergeOrder fs⟩
  | .Limit, .limit lim => some ⟨.MergeLimit, .mergeLimit lim⟩
  | .Offset, .offset off => some ⟨.MergeOffset, .mergeOffset off⟩
  | .Group, .group _ _ => some ⟨.MergeGroup, .mergeGroup false⟩
  | _, _ => none

/-- Append a block of instructions to a scope. -/
def Scope.appendAll (xs : List Instruction) (sc : Scope) : Scope :=
  { sc with Instructions := sc.Instructions ++ xs }

/-- Closed form of the final wiring loop: sibling number `i + j` receives the
connector to the register allocated in iteration `i + j`. -/
def wire (mmu ctx : Nat) : Nat → List Scope → List Scope
  | _, [] => []
  | i, sc :: rest =>
    sc.appendInstruction ⟨.Connector, .connector mmu ⟨i, ctx, 1⟩⟩ :: wire mmu ctx (i + 1) rest

/-- The scope that `ParallelRun` hands to `MergeRun`: the parent with the
instructions `ins`, the siblings `ss` wired to fresh receivers. -/
def rewritten (s : Scope) (ctx : Nat) (ins : List Instruction) (ss : List Scope) : Scope :=
  { s with
    Magic := .Merge
    Instructions := ins
    PreScopes := wire s.Proc.Gm ctx 0 ss
    Proc := { s.Proc with Cancel := some ctx, MergeReceivers := newReceivers ctx ss.length } }


/-! ## Sample scopes -/

/-- A projection-like instruction that the scope runtime does not inspect. -/
def exProjection : Instruction := ⟨.other 1, .other 0⟩

/-- The instruction `Top(a desc, 3)`. -/
def exTop : Instruction := ⟨.Top, .top [⟨1, 1⟩] 3⟩

/-- The sink. -/
def exOutput : Instruction := ⟨.Output, .other 9⟩

/-- A scope over relation `db.t` whose pipeline is projection, `Top`, sink. -/
def exScope : Scope :=
  { Magic := .Parallel
    Plan := none
    DataSource := ⟨"db", "t", ["a"], none⟩
    Instructions := [exProjection, exTop, exOutput]
    PreScopes := []
    NodeInfo := []
    Proc := ⟨"q", 0, 0, none, 7, none, []⟩ }

/-- The same scope with a pipeline that has no split opcode. -/
def exPlainScope : Scope :=
  { exScope with Instructions := [exProjection, exOutput] }

/-- The same scope with a pipeline that consists of the sink alone. -/
def exSinkScope : Scope :=
  { exScope with Instructions := [exOutput] }

/-- The result of the rewrite of `exScope` on the two readers 10 and 11 with
context 5. -/
def exRewritten : Scope :=
  rewritten exScope 5 [⟨.MergeTop, .mergeTop [⟨1, 1⟩] 3⟩, exOutput]
    [Scope.appendAll [exProjection, exTop] (newSibling exScope 10),
     Scope.appendAll [exProjection, exTop] (newSibling exScope 11)]

/-- A relation whose `NewReader(n, ...)` yields the readers 10, ..., 10+n-1. -/
def exRelation : engine.Relation :=
  ⟨fun n _ _ => (List.range n).map (· + 10)⟩

/-- A database handle on which every call succeeds. -/
def exDatabase : engine.Database :=
  ⟨fun _ _ _ _ => none, fun _ _ _ => none, fun _ _ => .ok exRelation⟩

/-- An engine on which every call succeeds. -/
def exEngine : engine.Engine :=
  ⟨fun _ _ _ _ => none, fun _ _ _ => none, fun _ _ => .ok exDatabase⟩

/-- Workers that all succeed. -/
def exWorkers : Workers :=
  ⟨fun _ => none, fun _ => none, fun _ => none, fun _ => none, []⟩

/-- A runtime that reports two CPUs, whose workers all succeed, the one for
child 1 first, and whose merge pipeline succeeds. -/
def exRuntime : Runtime :=
  ⟨2, by decide, id, 5, ⟨fun _ => none, fun _ => none, fun _ => none, fun _ => none, [1, 0]⟩,
    fun _ => none⟩

/-- The first error in arrival order, `none` when every entry is `nil`. -/
def firstError (ch : List (Option GoError)) : Option GoError :=
  ch.findSome? id

/-- Two workers: the one for child 0 fails with `e0`, the one for child 1
with `e1`, and child 1 completes first. -/
def exFailingWorkers : Workers :=
  ⟨fun cs => if cs.DataSource.R = some 10 then some "e0" else some "e1",
    fun _ => none, fun _ => none, fun _ => none, [1, 0]⟩

/-- A scope that carries the plan `DROP DATABASE db1`. -/
def exDropDatabaseScope : Scope :=
  { exScope with Plan := some (.Ddl (.DropDatabase ⟨"db1"⟩)) }

/-- The column `a int32 primary key`, compressed with Lz4. -/
def exCol : plan.ColDef :=
  ⟨"a", .Lz4, some ⟨22, 32, 0, 0, 4⟩, some ⟨true, some 3, false⟩, true⟩

/-- The table `t(a)` with a primary index, a secondary index and properties. -/
def exTableDef : plan.TableDef :=
  ⟨"t", [exCol],
    [.Pk (some ⟨["a"]⟩), .Idx (some ⟨["a"], "idx"⟩), .Properties (some ⟨[⟨"k", "v"⟩]⟩)]⟩

/-- The plan `CREATE TABLE t (...)` without a database name of its own. -/
def exCreateTable : plan.CreateTable :=
  ⟨"", some exTableDef⟩

/-- A scope that carries `exCreateTable`. -/
def exCreateTableScope : Scope :=
  { exScope with Plan := some (.Ddl (.CreateTable exCreateTable)) }

/-- A merge pipeline that succeeds on every scope. -/
def exRunMergeOk : Scope → Option GoError :=
  fun _ => none

/-- A scope that carries the plan `DROP TABLE db.t`. -/
def exDropTableScope : Scope :=
  { exScope with Plan := some (.Ddl (.DropTable ⟨"db", "t"⟩)) }

/-- The opcodes of the merge forms that the rewrite puts in the parent. -/
def isMergeOp : OpCode → Bool
  | .MergeTop | .MergeOrder | .MergeLimit | .MergeOffset | .MergeGroup => true
  | _ => false

/-- The instruction `Limit(2)`. -/
def exLimit : Instruction := ⟨.Limit, .limit 2⟩

/-- A scope whose pipeline has a merge-form instruction behind the split
point: `Top`, `MergeLimit`, sink. -/
def exMergeBehindScope : Scope :=
  { exScope with Instructions := [exTop, ⟨.MergeLimit, .mergeLimit 1⟩, exOutput] }

/-- A scope whose pipeline has two split opcodes: projection, `Top`, `Limit`,
sink. -/
def exTwoSplitScope : Scope :=
  { exScope with Instructions := [exProjection, exTop, exLimit, exOutput] }

/-- A scope with an empty pipeline. -/
def exEmptyScope : Scope :=
  { exScope with Instructions := [] }

end Compile2

/-!
# The storage replay handle

A shallow embedding of `pkg/vm/engine/aoe/storage/db/replay.go`.  A singly
linked list (`*tableFile` / `*infoFile` with `next` pointers) is a Lean list
whose head is the first node and `[]` is the `nil` pointer; a Go map is an
association list; a `nil` map or slice is the empty one.  The calls of
`os.Remove` are recorded instead of performed.
-/

namespace Replay

/-- The panics that the replay code can raise. -/
inductive Panic where
  | logicError
  | parse (msg : String)
  | nilDereference
deriving DecidableEq, Repr

/-- A Go map as an association list with at most one pair per key. -/
abbrev GoMap (κ ν : Type) := List (κ × ν)

/-- Map read `m[k]` with the comma-ok result. -/
def mapGet {κ ν : Type} [DecidableEq κ] : GoMap κ ν → κ → Option ν
  | [], _ => none
  | (k1, v) :: rest, k => if k1 = k then some v else mapGet rest k

/-- Map write `m[k] = v`. -/
def mapSet {κ ν : Type} [DecidableEq κ] : GoMap κ ν → κ → ν → GoMap κ ν
  | [], k, v => [(k, v)]
  | (k1, v1) :: rest, k, v => if k1 = k then (k, v) :: rest else (k1, v1) :: mapSet rest k v

/-- Modelled from the spec: the structured id `common.ID` of a data file,
`(table_id, segment_id[, block_id])`. -/
structure ID where
  TableID : Nat
  SegmentID : Nat
  BlockID : Nat
deriving DecidableEq, Repr

/-- Modelled from the spec: the method `ID.AsSegmentID`, the id of the segment
that holds a block. -/
def ID.AsSegmentID (id : ID) : ID :=
  { TableID := id.TableID, SegmentID := id.SegmentID, BlockID := 0 }

/-- A node of a table checkpoint list (`tableFile` without its `next`). -/
structure tableFile where
  name : String
  version : Nat
  id : Nat
deriving DecidableEq, Repr

/-- A node of the info checkpoint list (`infoFile` without its `next`). -/
structure infoFile where
  name : String
  version : Nat
deriving DecidableEq, Repr

/-- The record `sortedSegmentFile`. -/
structure sortedSegmentFile where
  name : String
  id : ID
deriving DecidableEq, Repr

/-- The record `unsortedSegmentFile`. -/
structure unsortedSegmentFile where
  id : ID
  names : List String
  blkids : List ID
deriving DecidableEq, Repr

/-- The constructor `newUnsortedSegmentFile`. -/
def newUnsortedSegmentFile (id : ID) : unsortedSegmentFile :=
  { id := id, names := [], blkids := [] }

/-- The method `unsortedSegmentFile.addBlock`. -/
def unsortedSegmentFile.addBlock (usf : unsortedSegmentFile) (bid : ID) (name : String) :
    unsortedSegmentFile :=
  { usf with names := usf.names ++ [name], blkids := usf.blkids ++ [bid] }

/-- The method `sortedSegmentFile.clean`: the names passed to `os.Remove`. -/
def sortedSegmentFile.clean (sf : sortedSegmentFile) : List String :=
  [sf.name]

/-- The method `unsortedSegmentFile.clean`: the names passed to `os.Remove`. -/
def unsortedSegmentFile.clean (usf : unsortedSegmentFile) : List String :=
  usf.names

/-- The record `tableDataFiles`. -/
structure tableDataFiles where
  sortedfiles : GoMap ID sortedSegmentFile
  unsortedfiles : GoMap ID unsortedSegmentFile
deriving DecidableEq, Repr

/-- The loop `for _, file := range files { file.clean() }` over a map of
segment files, `clean` being the method of the value type. -/
def cleanEach {ν : Type} (clean : ν → List String) : GoMap ID ν → List String
  | [] => []
  | (_, file) :: rest => clean file ++ cleanEach clean rest

/-- The method `tableDataFiles.clean`: the names passed to `os.Remove`. -/
def tableDataFiles.clean (tdf : tableDataFiles) : List String :=
  cleanEach sortedSegmentFile.clean tdf.sortedfiles ++
    cleanEach unsortedSegmentFile.clean tdf.unsortedfiles

/-- The record `metaHandle` (the field `tablesToClean` is never used).  The
bitmap `mask` is the list of its members; `cleanables` holds the
`tableDataFiles` registered by `addCleanable`. -/
structure metaHandle where
  infos : List infoFile
  tables : GoMap Nat (List tableFile)
  others : List String
  workDir : String
  metaDir : String
  dataDir : String
  mask : List Nat
  cleanables : List tableDataFiles
  files : GoMap Nat tableDataFiles
deriving DecidableEq, Repr

/-- The method `addCleanable`. -/
def addCleanable (h : metaHandle) (f : tableDataFiles) : metaHandle :=
  { h with cleanables := h.cleanables ++ [f] }

/-- The loop of `addTable` on the chain that starts at `curr`: the chain with
`f` linked in, or the panic on an equal version. -/
def insertTable (f : tableFile) : List tableFile → Except Panic (List tableFile)
  | [] => .ok [f]
  | curr :: next =>
    if curr.version < f.version then .ok (f :: curr :: next)
    else if curr.version > f.version then
      match insertTable f next with
      | .ok chain => .ok (curr :: chain)
      | .error p => .error p
    else .error .logicError

/-- The method `addTable`. -/
def addTable (h : metaHandle) (f : tableFile) : Except Panic metaHandle :=
  match mapGet h.tables f.id with
  | none => .ok { h with tables := mapSet h.tables f.id [f] }
  | some [] => .ok { h with tables := mapSet h.tables f.id [f] }
  | some (head :: next) =>
    match insertTable f (head :: next) with
    | .ok chain => .ok { h with tables := mapSet h.tables f.id chain }
    | .error p => .error p

/-- The loop of `addInfo` on the chain that starts at `curr`. -/
def insertInfo (f : infoFile) : List infoFile → Except Panic (List infoFile)
  | [] => .ok [f]
  | curr :: next =>
    if curr.version > f.version then
      match insertInfo f next with
      | .ok chain => .ok (curr :: chain)
      | .error p => .error p
    else if curr.version < f.version then .ok (f :: curr :: next)
    else .error .logicError

/-- The method `addInfo`. -/
def addInfo (h : metaHandle) (f : infoFile) : Except Panic metaHandle :=
  match insertInfo f h.infos with
  | .ok chain => .ok { h with infos := chain }
  | .error p => .error p

/-- The tables entry read by `addBlock` / `addSegment`: the entry of the
table, or a fresh one with two empty maps. -/
def tableEntry (h : metaHandle) (tid : Nat) : tableDataFiles :=
  match mapGet h.files tid with
  | some tbl => tbl
  | none => { sortedfiles := [], unsortedfiles := [] }

/-- The method `addBlock`. -/
def addBlock (h : metaHandle) (id : ID) (name : String) : metaHandle :=
  let tbl := tableEntry h id.TableID
  let segId := id.AsSegmentID
  let file :=
    match mapGet tbl.unsortedfiles segId with
    | some file => file
    | none => newUnsortedSegmentFile segId
  { h with
    files := mapSet h.files id.TableID
      { tbl with unsortedfiles := mapSet tbl.unsortedfiles segId (file.addBlock id name) } }

/-- The method `addSegment`. -/
def addSegment (h : metaHandle) (id : ID) (name : String) : Except Panic metaHandle :=
  let tbl := tableEntry h id.TableID
  match mapGet tbl.sortedfiles id with
  | some _ => .error .logicError
  | none =>
    .ok { h with
      files := mapSet h.files id.TableID
        { tbl with sortedfiles := mapSet tbl.sortedfiles id { id := id, name := name } } }

/-- The file-name parsers that `replay.go` imports: `e.ParseTableMetaName`,
`md.ParseTableCkpFile`, `e.ParseInfoMetaName`, `e.ParseBlockfileName`,
`common.ParseBlockFileName`, `e.ParseSegmentfileName` and
`common.ParseSegmentFileName`.  A `(value, ok)` result is an `Option`, a
`(value, err)` result an `Except`. -/
structure Parsers where
  ParseTableMetaName : String → Option String
  ParseTableCkpFile : String → Except String (Nat × Nat)
  ParseInfoMetaName : String → Option Int
  ParseBlockfileName : String → Option String
  ParseBlockFileName : String → Except String ID
  ParseSegmentfileName : String → Option String
  ParseSegmentFileName : String → Except String ID

/-- The call `path.Join(dir, fname)` for a clean directory and a plain file
name. -/
def pathJoin (dir fname : String) : String :=
  dir ++ "/" ++ fname

/-- The conversion `uint64(v)`. -/
def toUint64 (v : Int) : Nat :=
  (v % 18446744073709551616).toNat

/-- The method `addDataFile`. -/
def addDataFile (P : Parsers) (h : metaHandle) (fname : String) : Except Panic metaHandle :=
  match P.ParseBlockfileName fname with
  | some name =>
    match P.ParseBlockFileName name with
    | .error err => .error (.parse err)
    | .ok id => .ok (addBlock h id fname)
  | none =>
    match P.ParseSegmentfileName fname with
    | some name =>
      match P.ParseSegmentFileName name with
      | .error err => .error (.parse err)
      | .ok id => addSegment h id fname
    | none => .ok { h with others := h.others ++ [pathJoin h.dataDir fname] }

/-- The method `addMetaFile`. -/
def addMetaFile (P : Parsers) (h : metaHandle) (fname : String) : Except Panic metaHandle :=
  match P.ParseTableMetaName fname with
  | some name =>
    match P.ParseTableCkpFile name with
    | .error err => .error (.parse err)
    | .ok (tid, version) =>
      addTable h { name := pathJoin h.metaDir fname, version := version, id := tid }
  | none =>
    match P.ParseInfoMetaName fname with
    | some version =>
      addInfo h { name := pathJoin h.metaDir fname, version := toUint64 version }
    | none => .ok { h with others := h.others ++ [pathJoin h.metaDir fname] }

/-- A Go loop `for _, x := range xs { h.step(x) }` whose body may panic. -/
def forEach {α : Type} (step : metaHandle → α → Except Panic metaHandle) :
    List α → metaHandle → Except Panic metaHandle
  | [], h => .ok h
  | x :: xs, h =>
    match step h x with
    | .ok h1 => forEach step xs h1
    | .error p => .error p

/-- What the constructor reads from the file system: whether `W/meta`
existed, and the listings of `W/meta` and `W/data`. -/
structure Disk where
  metaExists : Bool
  metaFiles : List String
  dataFiles : List String
deriving Repr

/-- The handle that `NewMetaHandle` starts from, both directories set. -/
def emptyHandle (workDir : String) : metaHandle :=
  { infos := []
    tables := []
    others := []
    workDir := workDir
    metaDir := pathJoin workDir "meta"
    dataDir := pathJoin workDir "data"
    mask := []
    cleanables := []
    files := [] }

/-- The constructor `NewMetaHandle`, for a file system on which `Stat`,
`MkdirAll` and `ReadDir` succeed; `e.MakeMetaDir` and `e.MakeDataDir` are
`W/meta` and `W/data`. -/
def NewMetaHandle (P : Parsers) (workDir : String) (disk : Disk) : Except Panic metaHandle :=
  let fs := emptyHandle workDir
  if disk.metaExists = false then .ok fs
  else
    match forEach (addMetaFile P) disk.metaFiles fs with
    | .error p => .error p
    | .ok fs1 => forEach (addDataFile P) disk.dataFiles fs1

/-- What a cleanup call did: the handle it leaves, the names given to
`cleanupFile` in order, the cleanables whose `clean` ran, and the panic that
ended it, if any. -/
structure Outcome where
  h : metaHandle
  removed : List String
  cleaned : List tableDataFiles
  panic : Option Panic
deriving DecidableEq, Repr

/-- The body of the first loop of `Cleanup` for one map entry: the names
removed for the table `tid` with chain `head`. -/
def cleanupTable (mask : List Nat) (tid : Nat) : List tableFile → Except Panic (List String)
  | [] => .error .nilDereference
  | head :: next =>
    .ok ((if tid ∈ mask then [] else [head.name]) ++ next.map fun f => f.name)

/-- The first loop of `Cleanup`, `for tid, head := range h.tables`: the names
removed and the panic that stopped the loop, if any. -/
def cleanupTables (mask : List Nat) : GoMap Nat (List tableFile) → List String × Option Panic
  | [] => ([], none)
  | (tid, head) :: rest =>
    match cleanupTable mask tid head with
    | .error p => ([], some p)
    | .ok names => (names ++ (cleanupTables mask rest).1, (cleanupTables mask rest).2)

/-- The second block of `Cleanup`: the names of every info checkpoint behind
the head. -/
def cleanupInfos : List infoFile → List String
  | [] => []
  | _ :: next => next.map fun f => f.name

/-- The method `Cleanup`. -/
def Cleanup (h : metaHandle) : Outcome :=
  match cleanupTables h.mask h.tables with
  | (names, some p) => { h := h, removed := names, cleaned := [], panic := some p }
  | (names, none) =>
    { h := { h with tables := [], infos := [], cleanables := [], files := [] }
      removed := names ++ cleanupInfos h.infos ++ h.others
      cleaned := h.cleanables
      panic := none }

/-- The inner loop of `CleanupWithCtx` on a table chain, entered at `depth`. -/
def cleanupTableFrom (maxVer : Int) : Nat → List tableFile → List String
  | _, [] => []
  | depth, f :: next =>
    (if (depth : Int) ≥ maxVer then [f.name] else []) ++ cleanupTableFrom maxVer (depth + 1) next

/-- The inner loop of `CleanupWithCtx` on the info chain, entered at `depth`. -/
def cleanupInfoFrom (maxVer : Int) : Nat → List infoFile → List String
  | _, [] => []
  | depth, f :: next =>
    (if (depth : Int) ≥ maxVer then [f.name] else []) ++ cleanupInfoFrom maxVer (depth + 1) next

/-- The first loop of `CleanupWithCtx`, `for _, head := range h.tables`. -/
def cleanupTablesFrom (maxVer : Int) : GoMap Nat (List tableFile) → List String
  | [] => []
  | (_, head) :: rest => cleanupTableFrom maxVer 0 head ++ cleanupTablesFrom maxVer rest

/-- The method `CleanupWithCtx`. -/
def CleanupWithCtx (h : metaHandle) (maxVer : Int) : Outcome :=
  if maxVer ≤ 1 then { h := h, removed := [], cleaned := [], panic := some .logicError }
  else
    { h := h
      removed := cleanupTablesFrom maxVer h.tables ++ cleanupInfoFrom maxVer 0 h.infos
      cleaned := []
      panic := none }


/-! ## Reading the replay handle -/

/-- The checkpoint chain of table `tid`, `[]` when the map has no entry. -/
def chain (h : metaHandle) (tid : Nat) : List tableFile :=
  (mapGet h.tables tid).getD []

/-- Strictly descending by version. -/
def Descending (l : List tableFile) : Prop :=
  l.Pairwise fun a b => a.version > b.version

/-- Strictly descending by version, for the info chain. -/
def DescendingInfo (l : List infoFile) : Prop :=
  l.Pairwise fun a b => a.version > b.version

/-- A checkpoint file found by the scan of the meta directory. -/
inductive MetaFile where
  | table (f : tableFile)
  | info (f : infoFile)
deriving DecidableEq, Repr

/-- Insert one checkpoint file through `addTable` or `addInfo`. -/
def addFile (h : metaHandle) : MetaFile → Except Panic metaHandle
  | .table f => addTable h f
  | .info f => addInfo h f

/-- Insert a sequence of checkpoint files in the given order. -/
def addFiles (fs : List MetaFile) (h : metaHandle) : Except Panic metaHandle :=
  forEach addFile fs h

/-- The key of a checkpoint file: `(table_id, version)` or `version`. -/
def MetaFile.key : MetaFile → Sum (Nat × Nat) Nat
  | .table f => .inl (f.id, f.version)
  | .info f => .inr f.version

/-- The table checkpoint files of table `tid` in a sequence. -/
def tableFilesOf (tid : Nat) : List MetaFile → List tableFile
  | [] => []
  | .table f :: rest => if f.id = tid then f :: tableFilesOf tid rest else tableFilesOf tid rest
  | .info _ :: rest => tableFilesOf tid rest

/-- The info checkpoint files in a sequence. -/
def infoFilesOf : List MetaFile → List infoFile
  | [] => []
  | .table _ :: rest => infoFilesOf rest
  | .info f :: rest => f :: infoFilesOf rest

/-- The invariant of the version lists: every table chain is strictly
descending and holds files of its own table only, and the info chain is
strictly descending. -/
def Inv (h : metaHandle) : Prop :=
  (∀ tid, Descending (chain h tid) ∧ ∀ g ∈ chain h tid, g.id = tid) ∧ DescendingInfo h.infos

/-- Every chain stored in the table map has a first node. -/
def ChainsNonNil (h : metaHandle) : Prop :=
  ∀ p ∈ h.tables, p.2 ≠ []

/-- The names of all files that the handle indexes as checkpoints or keeps
in `others`. -/
def allNames (h : metaHandle) : List String :=
  (h.tables.map fun p => p.2.map fun f => f.name).flatten ++
    (h.infos.map fun f => f.name) ++ h.others

/-- Sample parsers: a table checkpoint is named `tbl-<id>-v<version>`
(also with the suffix `.bak`), an info checkpoint `info-v<version>`, a block
file `<table>_<segment>_<block>.blk`, a segment file `<table>_<segment>.seg`. -/
def exParsers : Parsers where
  ParseTableMetaName := fun s =>
    if s ∈ ["tbl-1-v1", "tbl-1-v2", "tbl-1-v3", "tbl-1-v2.bak", "tbl-x"] then some s else none
  ParseTableCkpFile := fun s =>
    match s with
    | "tbl-1-v1" => .ok (1, 1)
    | "tbl-1-v2" => .ok (1, 2)
    | "tbl-1-v3" => .ok (1, 3)
    | "tbl-1-v2.bak" => .ok (1, 2)
    | _ => .error "invalid table checkpoint name"
  ParseInfoMetaName := fun s =>
    match s with
    | "info-v1" => some 1
    | "info-v2" => some 2
    | _ => none
  ParseBlockfileName := fun s =>
    match s with
    | "1_2_3.blk" => some "1_2_3"
    | "1_2_4.blk" => some "1_2_4"
    | "bad.blk" => some "bad"
    | _ => none
  ParseBlockFileName := fun s =>
    match s with
    | "1_2_3" => .ok ⟨1, 2, 3⟩
    | "1_2_4" => .ok ⟨1, 2, 4⟩
    | _ => .error "invalid block file name"
  ParseSegmentfileName := fun s =>
    match s with
    | "1_2.seg" => some "1_2"
    | _ => none
  ParseSegmentFileName := fun s =>
    match s with
    | "1_2" => .ok ⟨1, 2, 0⟩
    | _ => .error "invalid segment file name"

/-- The three checkpoints of table 1, in scan order 3, 1, 2. -/
def exTableFiles : List MetaFile :=
  [.table ⟨"W/meta/tbl-1-v3", 3, 1⟩, .table ⟨"W/meta/tbl-1-v1", 1, 1⟩,
   .table ⟨"W/meta/tbl-1-v2", 2, 1⟩]

/-- The two info checkpoints, in scan order 2, 1. -/
def exInfoFiles : List MetaFile :=
  [.info ⟨"W/meta/info-v2", 2⟩, .info ⟨"W/meta/info-v1", 1⟩]

/-- The handle after the replay of `tbl-1-v3, tbl-1-v1, tbl-1-v2, info-v2,
info-v1`. -/
def exHandle : metaHandle :=
  { emptyHandle "W" with
    infos := [⟨"W/meta/info-v2", 2⟩, ⟨"W/meta/info-v1", 1⟩]
    tables := [(1, [⟨"W/meta/tbl-1-v3", 3, 1⟩, ⟨"W/meta/tbl-1-v2", 2, 1⟩,
      ⟨"W/meta/tbl-1-v1", 1, 1⟩])] }

/-- The replayed handle with table 1 kept and one unclassified file. -/
def exKeptHandle : metaHandle :=
  { exHandle with mask := [1], others := ["W/meta/junk"] }

/-- The meta directory of the replay scenario. -/
def exDisk : Disk :=
  ⟨true, ["tbl-1-v3", "tbl-1-v1", "tbl-1-v2", "info-v2", "info-v1"], []⟩

end Replay

/-! ## Reconciling a table with its data files -/

namespace Replay

/-- Modelled from the spec: the data state of a segment in the catalog, of
which `correctTable` only asks whether it is `SORTED`. -/
inductive DataState where
  | SORTED
  | other (code : Nat)
deriving DecidableEq, Repr

/-- Modelled from the spec: a segment descriptor `md.Segment`, with its id, the
id of its table and its data state. -/
structure Segment where
  ID : Nat
  TableID : Nat
  DataState : DataState
deriving DecidableEq, Repr

/-- Modelled from the spec: the method `Segment.AsCommonID`, the structured id
`(table_id, segment_id)` of the segment. -/
def Segment.AsCommonID (seg : Segment) : Replay.ID :=
  { TableID := seg.TableID, SegmentID := seg.ID, BlockID := 0 }

/-- Modelled from the spec: a table descriptor `md.Table`; `deleted` is the
value of `meta.IsDeleted(md.NowMicro())`. -/
structure Table where
  ID : Nat
  Segments : List Segment
  deleted : Bool
deriving DecidableEq, Repr

/-- The loop `for i := len(meta.Segments) - 1; i >= 0; i--` of `correctTable`
with `n = i + 1` iterations to go: the segments afterwards and the indices on
which `TrySorted` was called, in call order.  `trySorted` is the effect of the
method `Segment.TrySorted` on the segment. -/
def correctLoop (trySorted : Segment → Segment) (tablesFiles : tableDataFiles) :
    Nat → List Segment → List Segment × List Nat
  | 0, segs => (segs, [])
  | i + 1, segs =>
    match segs[i]? with
    | none => (segs, [])
    | some segment =>
      if segment.DataState = .SORTED then (segs, [])
      else
        match mapGet tablesFiles.sortedfiles segment.AsCommonID with
        | some _ =>
          ((correctLoop trySorted tablesFiles i (segs.set i (trySorted segment))).1,
            i :: (correctLoop trySorted tablesFiles i (segs.set i (trySorted segment))).2)
        | none => correctLoop trySorted tablesFiles i segs

/-- What `correctTable` did: the handle and the table descriptor afterwards,
and the indices of the segments on which `TrySorted` was called. -/
structure Corrected where
  h : metaHandle
  meta : Table
  promoted : List Nat
deriving DecidableEq, Repr

/-- The method `correctTable`. -/
def correctTable (trySorted : Segment → Segment) (h : metaHandle) (meta : Table) : Corrected :=
  match mapGet h.files meta.ID with
  | none => { h := h, meta := meta, promoted := [] }
  | some tablesFiles =>
    if meta.deleted then { h := addCleanable h tablesFiles, meta := meta, promoted := [] }
    else
      { h := h
        meta := { meta with
          Segments := (correctLoop trySorted tablesFiles meta.Segments.length meta.Segments).1 }
        promoted := (correctLoop trySorted tablesFiles meta.Segments.length meta.Segments).2 }

/-- A sample effect of `TrySorted`: the segment becomes `SORTED`. -/
def exTrySorted (seg : Segment) : Segment :=
  { seg with DataState := .SORTED }

/-- The data files of table 1: sorted-segment files for the segments 1, 2
and 4, blocks for segment 3. -/
def exTableDataFiles : tableDataFiles :=
  { sortedfiles :=
      [(⟨1, 1, 0⟩, ⟨"1_1.seg", ⟨1, 1, 0⟩⟩), (⟨1, 2, 0⟩, ⟨"1_2.seg", ⟨1, 2, 0⟩⟩),
       (⟨1, 4, 0⟩, ⟨"1_4.seg", ⟨1, 4, 0⟩⟩)]
    unsortedfiles := [(⟨1, 3, 0⟩, ⟨⟨1, 3, 0⟩, ["1_3_0.blk"], [⟨1, 3, 0⟩]⟩)] }

/-- A handle that indexes `exTableDataFiles` for table 1. -/
def exFilesHandle : metaHandle :=
  { exHandle with files := [(1, exTableDataFiles)] }

/-- Table 1 with the segments 0 .. 4: segment 1 is unsorted but older than
the `SORTED` segment 2; the segments 3 and 4 are newer and unsorted. -/
def exTable : Table :=
  { ID := 1
    Segments := [⟨0, 1, .SORTED⟩, ⟨1, 1, .other 0⟩, ⟨2, 1, .SORTED⟩, ⟨3, 1, .other 0⟩,
      ⟨4, 1, .other 0⟩]
    deleted := false }

end Replay

/-!
# The float sum aggregator

A shallow embedding of `pkg/sql/colexec/aggregation/sum/float.go`.  The
floating-point values and the vectorised sum kernels are parameters; the
counter `cnt` is a 64-bit signed integer.
-/

namespace SumAgg

/-- The panic of a failed type assertion `vec.Col.([]float32)`. -/
inductive Panic where
  | typeAssertion
deriving DecidableEq, Repr

/-- Modelled from the spec: the type tag `types.T` of a vector, with the two
float tags that `Fill` distinguishes. -/
inductive T where
  | T_float32
  | T_float64
  | other (code : Nat)
deriving DecidableEq, Repr

/-- Modelled from the spec: the null bitmap `nulls.Nulls` of a column, the set
of its null rows. -/
structure Nulls where
  Np : Finset Nat

/-- Modelled from the spec: the method `Nulls.Length`, the number of null rows. -/
def Nulls.Length (n : Nulls) : Int :=
  n.Np.card

/-- Modelled from the spec: the method `Nulls.FilterCount`, the number of
selected rows that are null. -/
def Nulls.FilterCount (n : Nulls) (sels : List Nat) : Int :=
  (sels.filter fun i => i ∈ n.Np).length

/-- Modelled from the spec: the payload `vec.Col` of a vector, a slice of
32-bit floats, a slice of 64-bit floats, or anything else. -/
inductive Column (F32 F : Type) where
  | float32 (xs : List F32)
  | float64 (xs : List F)
  | other

/-- Modelled from the spec: the column vector `vector.Vector`; `Length` is the
value of `vec.Length()`. -/
structure Vector (F32 F : Type) where
  Oid : T
  Col : Column F32 F
  Length : Nat
  Nsp : Nulls

/-- The floating-point operations that `Fill` uses: the kernels of
`pkg/vectorize/sum`, the conversion `float64(x)`, the addition `+` and the
constant `0` of `float64`. -/
structure Kernels (F32 F : Type) where
  Float32Sum : List F32 → F32
  Float32SumSels : List F32 → List Nat → F32
  Float64Sum : List F → F
  Float64SumSels : List F → List Nat → F
  toFloat64 : F32 → F
  add : F → F → F
  zero : F

/-- The conversion to `int64` of an integer, with wrap-around. -/
def wrapInt64 (z : Int) : Int :=
  (z + 9223372036854775808) % 18446744073709551616 - 9223372036854775808

/-- The record `floatSum`. -/
structure floatSum (F : Type) where
  typ : T
  cnt : Int
  sum : F

/-- The constructor `NewFloat`. -/
def NewFloat {F32 F : Type} (K : Kernels F32 F) (typ : T) : floatSum F :=
  { typ := typ, cnt := 0, sum := K.zero }

/-- The method `Reset`. -/
def floatSum.Reset {F32 F : Type} (K : Kernels F32 F) (a : floatSum F) : floatSum F :=
  { a with cnt := 0, sum := K.zero }

/-- The method `Type`. -/
def floatSum.Type {F : Type} (a : floatSum F) : T :=
  a.typ

/-- The method `Dup`. -/
def floatSum.Dup {F32 F : Type} (K : Kernels F32 F) (a : floatSum F) : floatSum F :=
  { typ := a.typ, cnt := 0, sum := K.zero }

/-- The `switch vec.Typ.Oid` of the selection branch: the new value of
`a.sum`. -/
def sumSels {F32 F : Type} (K : Kernels F32 F) (acc : F) (sels : List Nat)
    (vec : Vector F32 F) : Except Panic F :=
  match vec.Oid with
  | .T_float32 =>
    match vec.Col with
    | .float32 xs => .ok (K.add acc (K.toFloat64 (K.Float32SumSels xs sels)))
    | _ => .error .typeAssertion
  | .T_float64 =>
    match vec.Col with
    | .float64 xs => .ok (K.add acc (K.Float64SumSels xs sels))
    | _ => .error .typeAssertion
  | .other _ => .ok acc

/-- The `switch vec.Typ.Oid` of the dense branch: the new value of `a.sum`. -/
def sumDense {F32 F : Type} (K : Kernels F32 F) (acc : F) (vec : Vector F32 F) :
    Except Panic F :=
  match vec.Oid with
  | .T_float32 =>
    match vec.Col with
    | .float32 xs => .ok (K.add acc (K.toFloat64 (K.Float32Sum xs)))
    | _ => .error .typeAssertion
  | .T_float64 =>
    match vec.Col with
    | .float64 xs => .ok (K.add acc (K.Float64Sum xs))
    | _ => .error .typeAssertion
  | .other _ => .ok acc

/-- The method `Fill`; the selection `sels` lists row numbers.  The returned
`error` is always `nil` and is left out. -/
def floatSum.Fill {F32 F : Type} (K : Kernels F32 F) (a : floatSum F) (sels : List Nat)
    (vec : Vector F32 F) : Except Panic (floatSum F) :=
  let n : Int := sels.length
  if n > 0 then
    match sumSels K a.sum sels vec with
    | .error p => .error p
    | .ok s => .ok { a with sum := s, cnt := wrapInt64 (a.cnt + wrapInt64 (n - vec.Nsp.FilterCount sels)) }
  else
    match sumDense K a.sum vec with
    | .error p => .error p
    | .ok s => .ok { a with sum := s, cnt := wrapInt64 (a.cnt + wrapInt64 (vec.Length - vec.Nsp.Length)) }

/-- The method `Eval`; `none` is the `nil` interface. -/
def floatSum.Eval {F : Type} (a : floatSum F) : Option F :=
  if a.cnt = 0 then none else some a.sum

/-- A sequence of `Fill` calls on one aggregator. -/
def fillAll {F32 F : Type} (K : Kernels F32 F) :
    floatSum F → List (List Nat × Vector F32 F) → Except Panic (floatSum F)
  | a, [] => .ok a
  | a, (sels, vec) :: rest =>
    match a.Fill K sels vec with
    | .error p => .error p
    | .ok a1 => fillAll K a1 rest

/-- The non-null rows that one `Fill` counts: the selected rows that are not
null when the selection is non-empty, the vector length minus its null count
when it is empty. -/
def countedRows {F32 F : Type} (sels : List Nat) (vec : Vector F32 F) : Int :=
  if sels ≠ [] then ((sels.filter fun i => i ∉ vec.Nsp.Np).length : Int)
  else (vec.Length : Int) - (vec.Nsp.Np.card : Int)

/-- The total number of non-null rows filled by a sequence of `Fill` calls. -/
def totalRows {F32 F : Type} (fills : List (List Nat × Vector F32 F)) : Int :=
  (fills.map fun p => countedRows p.1 p.2).sum

/-- What one `Fill` adds to the sum: the kernel's sum over the selection or
over the dense vector, `none` when the vector is not a float vector. -/
def contribution {F32 F : Type} (K : Kernels F32 F) (sels : List Nat) (vec : Vector F32 F) :
    Option F :=
  match vec.Oid, vec.Col with
  | .T_float32, .float32 xs =>
    some (K.toFloat64 (if sels ≠ [] then K.Float32SumSels xs sels else K.Float32Sum xs))
  | .T_float64, .float64 xs =>
    some (if sels ≠ [] then K.Float64SumSels xs sels else K.Float64Sum xs)
  | _, _ => none

/-- The sum accumulated from `acc` by a sequence of `Fill` calls. -/
def accumulated {F32 F : Type} (K : Kernels F32 F) (acc : F)
    (fills : List (List Nat × Vector F32 F)) : F :=
  fills.foldl (fun s p =>
    match contribution K p.1 p.2 with
    | some x => K.add s x
    | none => s) acc

/-- Sample kernels on integers standing for floats. -/
def exKernels : Kernels Int Int where
  Float32Sum := fun xs => xs.sum
  Float32SumSels := fun xs sels => (sels.map fun i => xs.getD i 0).sum
  Float64Sum := fun xs => xs.sum
  Float64SumSels := fun xs sels => (sels.map fun i => xs.getD i 0).sum
  toFloat64 := fun x => x
  add := fun x y => x + y
  zero := 0

/-- A vector of three 64-bit floats whose row 1 is null. -/
def exVector : Vector Int Int :=
  { Oid := .T_float64, Col := .float64 [5, 0, 7], Length := 3, Nsp := ⟨{1}⟩ }

/-- A vector of one row, which is null. -/
def exNullVector : Vector Int Int :=
  { Oid := .T_float64, Col := .float64 [0], Length := 1, Nsp := ⟨{0}⟩ }

/-- The payload of a vector has the type that its tag announces, so that the
type assertion of `Fill` succeeds on it. -/
def Vector.typed {F32 F : Type} (vec : Vector F32 F) : Bool :=
  match vec.Oid, vec.Col with
  | .T_float32, .float32 _ => true
  | .T_float64, .float64 _ => true
  | .other _, _ => true
  | _, _ => false

/-- A dense vector of 2^32 rows of 64-bit floats, none of them null. -/
def exBigVector : Vector Int Int :=
  { Oid := .T_float64, Col := .float64 (List.replicate 4294967296 1), Length := 4294967296,
    Nsp := ⟨∅⟩ }

/-- A run of 2^32 dense `Fill` calls on `exBigVector`: 2^64 non-null rows. -/
def exWrapFills : List (List Nat × Vector Int Int) :=
  List.replicate 4294967296 ([], exBigVector)

/-- Two `Fill` calls on `exVector`: a dense one, then rows 0 and 1. -/
def exFills : List (List Nat × Vector Int Int) :=
  [([], exVector), ([0, 1], exVector)]

end SumAgg

/-!
# The state word of a buffer node

A shallow embedding of the state constants and the atomic accessors of
`pkg/vm/engine/aoe/storage/buffer/node/iface/types.go`.  The memory cell
behind `addr *NodeState` is passed in and, where it may change, returned.
-/

namespace Iface

/-- The type `NodeState = uint32`. -/
abbrev NodeState := Nat

/-- The constant `NODE_UNLOAD`. -/
def NODE_UNLOAD : NodeState := 0

/-- The constant `NODE_LOADING`. -/
def NODE_LOADING : NodeState := 1

/-- The constant `NODE_ROOLBACK`. -/
def NODE_ROOLBACK : NodeState := 2

/-- The constant `NODE_COMMIT`. -/
def NODE_COMMIT : NodeState := 3

/-- The constant `NODE_UNLOADING`. -/
def NODE_UNLOADING : NodeState := 4

/-- The constant `NODE_LOADED`. -/
def NODE_LOADED : NodeState := 5

/-- The function `AtomicLoadState`. -/
def AtomicLoadState (cell : NodeState) : NodeState :=
  cell

/-- The function `AtomicStoreState`: the new content of the cell. -/
def AtomicStoreState (_cell : NodeState) (val : NodeState) : NodeState :=
  val

/-- The function `AtomicCASState`, one atomic step of
`atomic.CompareAndSwapUint32`: the returned flag and the new content of the
cell. -/
def AtomicCASState (cell : NodeState) (old val : NodeState) : Bool × NodeState :=
  if cell = old then (true, val) else (false, cell)

/-- Modelled from the spec: the method `PrepareLoad` of a node handle (only the
interface `INodeHandle` is in this file), which returns true iff it
compare-and-swaps the state from UNLOAD to LOADING. -/
def PrepareLoad (cell : NodeState) : Bool × NodeState :=
  AtomicCASState cell NODE_UNLOAD NODE_LOADING

end Iface

namespace Compile2

/-! ## Lemmas on the slice primitives -/

theorem index_ofNat {α : Type} (xs : List α) (i : Nat) (x : α) (h : xs[i]? = some x) :
    index xs (i : Int) = .ok x := by
  have h0 : ¬ ((i : Int) < 0) := by omega
  simp [index, h0, h]

theorem splitAt_ok (st : RewriteState) (i : Nat) (m sib : Instruction)
    (h : i < st.Instructions.length) :
    splitAt st i m sib = .ok
      { flg := true
        Instructions := m :: st.Instructions.drop (i + 1)
        ss := st.ss.map (Scope.appendInstruction sib) } := by
  rcases st with ⟨flg, ins, ss⟩
  cases ins with
  | nil => simp at h
  | cons x xs =>
    simp only [List.length_cons] at h
    have h1 : i + 1 ≤ xs.length + 1 := by omega
    simp [splitAt, sliceTo, sliceFrom, setIndex, h1, bind, Except.bind, pure, Except.pure]

theorem rewriteStep_split (dup : Instruction → Instruction) (st : RewriteState) (i : Nat)
    (ins m : Instruction) (hm : mergeForm ins = some m) (h : i < st.Instructions.length) :
    rewriteStep dup st i ins = .ok
      { flg := true
        Instructions := m :: st.Instructions.drop (i + 1)
        ss := st.ss.map (Scope.appendInstruction ins) } := by
  rcases ins with ⟨op, arg⟩
  cases op <;> cases arg <;> simp [mergeForm] at hm <;>
    subst hm <;> simp [rewriteStep, splitAt_ok _ _ _ _ h]

theorem rewriteStep_default (dup : Instruction → Instruction) (st : RewriteState) (i : Nat)
    (ins : Instruction) (h : isSplitOp ins.Op = false) :
    rewriteStep dup st i ins =
      .ok { st with ss := st.ss.map (Scope.appendInstruction (dup ins)) } := by
  rcases ins with ⟨op, arg⟩
  cases op <;> simp [isSplitOp] at h <;> simp [rewriteStep]

/-! ## Lemmas on the loops of the rewrite -/

theorem appendAll_appendInstruction (x : Instruction) (xs : List Instruction) (sc : Scope) :
    Scope.appendAll xs (Scope.appendInstruction x sc) = Scope.appendAll (x :: xs) sc := by
  simp [Scope.appendAll, Scope.appendInstruction]

theorem appendInstruction_appendAll (x : Instruction) (xs : List Instruction) (sc : Scope) :
    Scope.appendInstruction x (Scope.appendAll xs sc) = Scope.appendAll (xs ++ [x]) sc := by
  simp [Scope.appendAll, Scope.appendInstruction]

theorem appendAll_nil (sc : Scope) : Scope.appendAll [] sc = sc := by
  cases sc; simp [Scope.appendAll]

theorem rewriteLoop_cons (dup : Instruction → Instruction) (i : Nat) (ins : Instruction)
    (rest : List Instruction) (st : RewriteState) (h : st.flg = false) :
    rewriteLoop dup i (ins :: rest) st =
      (rewriteStep dup st i ins).bind (rewriteLoop dup (i + 1) rest) := by
  simp [rewriteLoop, h, bind]

theorem rewriteLoop_flg (dup : Instruction → Instruction) (i : Nat) (rest : List Instruction)
    (st : RewriteState) (h : st.flg = true) : rewriteLoop dup i rest st = .ok st := by
  cases rest <;> simp [rewriteLoop, h]

/-- The loop over a run of instructions without a split opcode hands a
duplicate of each of them to every sibling and leaves the parent alone. -/
theorem rewriteLoop_default (dup : Instruction → Instruction) (front : List Instruction)
    (hfront : ∀ J ∈ front, isSplitOp J.Op = false) :
    ∀ (i : Nat) (rest : List Instruction) (st : RewriteState), st.flg = false →
      rewriteLoop dup i (front ++ rest) st =
        rewriteLoop dup (i + front.length) rest
          { st with ss := st.ss.map (Scope.appendAll (front.map dup)) } := by
  induction front with
  | nil =>
    intro i rest st _
    have : (fun sc => Scope.appendAll [] sc) = id := by
      funext sc; simp [appendAll_nil]
    simp [this]
  | cons J front ih =>
    intro i rest st hflg
    have hJ : isSplitOp J.Op = false := hfront J (by simp)
    have hrest : ∀ K ∈ front, isSplitOp K.Op = false := fun K hK => hfront K (by simp [hK])
    rw [List.cons_append, rewriteLoop_cons dup i J _ st hflg, rewriteStep_default dup st i J hJ]
    simp only [Except.bind]
    rw [ih hrest (i + 1) rest
      { st with ss := st.ss.map (Scope.appendInstruction (dup J)) } hflg]
    have hmap : (st.ss.map (Scope.appendInstruction (dup J))).map
        (Scope.appendAll (front.map dup)) = st.ss.map (Scope.appendAll ((J :: front).map dup)) := by
      simp [List.map_map, Function.comp_def, appendAll_appendInstruction]
    simp only [hmap, List.length_cons]
    congr 1
    omega

/-- The loop on a pipeline whose first split instruction is `ins`. -/
theorem rewriteLoop_split (dup : Instruction → Instruction) (front back : List Instruction)
    (ins m : Instruction) (ss : List Scope)
    (hfront : ∀ J ∈ front, isSplitOp J.Op = false) (hm : mergeForm ins = some m) :
    rewriteLoop dup 0 (front ++ ins :: back)
        { flg := false, Instructions := front ++ ins :: back, ss := ss } =
      .ok { flg := true
            Instructions := m :: back
            ss := ss.map (Scope.appendAll (front.map dup ++ [ins])) } := by
  rw [rewriteLoop_default dup front hfront 0 (ins :: back) _ rfl]
  have hlen : 0 + front.length < (front ++ ins :: back).length := by simp
  rw [rewriteLoop_cons dup _ ins back _ rfl, rewriteStep_split dup _ _ ins m hm hlen]
  simp only [Except.bind]
  rw [rewriteLoop_flg _ _ _ _ rfl]
  simp [List.map_map, Function.comp_def, appendInstruction_appendAll]

/-- The loop on a pipeline without any split opcode. -/
theorem rewriteLoop_noSplit (dup : Instruction → Instruction) (ins : List Instruction)
    (ss : List Scope) (hins : ∀ J ∈ ins, isSplitOp J.Op = false) :
    rewriteLoop dup 0 ins { flg := false, Instructions := ins, ss := ss } =
      .ok { flg := false
            Instructions := ins
            ss := ss.map (Scope.appendAll (ins.map dup)) } := by
  have h := rewriteLoop_default dup ins hins 0 [] { flg := false, Instructions := ins, ss := ss } rfl
  simp only [List.append_nil] at h
  rw [h]
  simp [rewriteLoop]

theorem newSiblings_ok (s : Scope) (rds : List Nat) :
    ∀ (n i : Nat), i + n ≤ rds.length →
      ∃ ss, newSiblings s rds i n = .ok ss ∧ ss.length = n ∧
        ∀ sc ∈ ss, sc.Instructions = [] := by
  intro n
  induction n with
  | zero => intro i _; exact ⟨[], rfl, rfl, by simp⟩
  | succ n ih =>
    intro i hi
    obtain ⟨ss, hss, hlen, hnil⟩ := ih (i + 1) (by omega)
    have hlt : i < rds.length := by omega
    have hget : rds[i]? = some rds[i] := by simp [hlt]
    refine ⟨newSibling s rds[i] :: ss, ?_, by simp [hlen], ?_⟩
    · simp only [newSiblings, index_ofNat rds i _ hget, hss, bind, Except.bind, pure, Except.pure]
    · intro sc hsc
      rcases List.mem_cons.mp hsc with h | h
      · subst h; rfl
      · exact hnil sc h

theorem newReceivers_get (ctx n i : Nat) (h : i < n) :
    (newReceivers ctx n)[i]? = some { addr := i, Ctx := ctx, Ch := 1 } := by
  simp [newReceivers, h]

theorem connect_ok (mmu ctx n : Nat) :
    ∀ (ss : List Scope) (i : Nat), i + ss.length ≤ n →
      connect mmu (newReceivers ctx n) i ss = .ok (wire mmu ctx i ss) := by
  intro ss
  induction ss with
  | nil => intro i _; rfl
  | cons sc rest ih =>
    intro i hi
    simp only [List.length_cons] at hi
    simp only [connect, wire, index_ofNat _ i _ (newReceivers_get ctx n i (by omega)),
      ih (i + 1) (by omega), bind, Except.bind, pure, Except.pure]

theorem dropSinks_appendAll (xs : List Instruction) (x : Instruction) :
    ∀ (ss : List Scope),
      dropSinks (ss.map (Scope.appendAll (xs ++ [x]))) = .ok (ss.map (Scope.appendAll xs)) := by
  intro ss
  induction ss with
  | nil => rfl
  | cons sc rest ih =>
    have hlen : ((sc.Instructions ++ (xs ++ [x])).length : Int) - 1
        = ((sc.Instructions ++ xs).length : Nat) := by
      simp only [List.length_append, List.length_singleton]; push_cast; ring
    simp only [List.map_cons, dropSinks, ih, bind, Except.bind, pure, Except.pure]
    simp only [Scope.appendAll, sliceTo, hlen]
    have h1 : (0 : Int) ≤ ((sc.Instructions ++ xs).length : Nat) := by omega
    have h2 : (((sc.Instructions ++ xs).length : Nat) : Int)
        ≤ ((sc.Instructions ++ (xs ++ [x])).length : Nat) := by
      simp only [List.length_append, List.length_singleton]; omega
    simp only [h1, h2, and_self, if_true, Int.toNat_ofNat]
    rw [← List.append_assoc, List.take_left]

/-! ## The rewrite as a whole -/

theorem wire_length (mmu ctx : Nat) :
    ∀ (ss : List Scope) (i : Nat), (wire mmu ctx i ss).length = ss.length := by
  intro ss
  induction ss with
  | nil => intro i; rfl
  | cons sc rest ih => intro i; simp [wire, ih]

theorem wire_get (mmu ctx : Nat) :
    ∀ (ss : List Scope) (i j : Nat) (sc : Scope), ss[j]? = some sc →
      (wire mmu ctx i ss)[j]? =
        some (sc.appendInstruction ⟨.Connector, .connector mmu ⟨i + j, ctx, 1⟩⟩) := by
  intro ss
  induction ss with
  | nil => intro i j sc h; simp at h
  | cons x rest ih =>
    intro i j sc h
    cases j with
    | zero =>
      simp only [List.getElem?_cons_zero, Option.some.injEq] at h
      subst h
      simp [wire]
    | succ j =>
      simp only [List.getElem?_cons_succ] at h
      have := ih (i + 1) j sc h
      simp only [wire, List.getElem?_cons_succ, this]
      congr 5
      omega

theorem newReceivers_length (ctx n : Nat) : (newReceivers ctx n).length = n := by
  simp [newReceivers]

/-- The tail of the rewrite, once the loop and the `!flg` block are done. -/
theorem parallelRewrite_of_loop (dup : Instruction → Instruction) (rds : List Nat)
    (mcpu ctx : Nat) (s : Scope) (ss0 : List Scope) (st st1 : RewriteState)
    (h0 : newSiblings s rds 0 mcpu = .ok ss0)
    (h1 : rewriteLoop dup 0 s.Instructions
      { flg := false, Instructions := s.Instructions, ss := ss0 } = .ok st)
    (h2 : finishRewrite st = .ok st1) :
    parallelRewrite dup rds mcpu ctx s = .ok (rewritten s ctx st1.Instructions st1.ss) := by
  simp only [parallelRewrite, h0, h1, h2, bind, Except.bind, pure, Except.pure,
    connect_ok s.Proc.Gm ctx st1.ss.length st1.ss 0 (by omega), rewritten]

/-- Master lemma, split case: the pipeline is `front ++ ins :: back`, no
instruction of `front` has a split opcode, and `ins` is a split instruction
with a well-typed argument whose merge form is `m`. -/
theorem parallelRewrite_split (dup : Instruction → Instruction) (rds : List Nat)
    (mcpu ctx : Nat) (s : Scope) (front back : List Instruction) (ins m : Instruction)
    (hins : s.Instructions = front ++ ins :: back)
    (hfront : ∀ J ∈ front, isSplitOp J.Op = false) (hm : mergeForm ins = some m)
    (hr : mcpu ≤ rds.length) :
    ∃ ss0 : List Scope, ss0.length = mcpu ∧ (∀ sc ∈ ss0, sc.Instructions = []) ∧
      parallelRewrite dup rds mcpu ctx s =
        .ok (rewritten s ctx (m :: back) (ss0.map (Scope.appendAll (front.map dup ++ [ins])))) := by
  obtain ⟨ss0, h0, hlen, hnil⟩ := newSiblings_ok s rds mcpu 0 (by omega)
  refine ⟨ss0, hlen, hnil, ?_⟩
  have h1 := rewriteLoop_split dup front back ins m ss0 hfront hm
  rw [← hins] at h1
  exact parallelRewrite_of_loop dup rds mcpu ctx s ss0 _ _ h0 h1 rfl

/-- The four parent statements of the `!flg` block on a pipeline with at
least two instructions, the last of which is `sink`. -/
theorem finishRewrite_noSplit (a sink : Instruction) (body : List Instruction)
    (ss ss1 : List Scope) (hss : dropSinks ss = .ok ss1) :
    finishRewrite { flg := false, Instructions := a :: (body ++ [sink]), ss := ss } =
      .ok { flg := false, Instructions := [⟨.Merge, .merge⟩, sink], ss := ss1 } := by
  have hset0 : setIndex (a :: (body ++ [sink])) 0 ⟨.Merge, .merge⟩ =
      .ok (⟨.Merge, .merge⟩ :: (body ++ [sink])) := by
    simp [setIndex]
  have hlast : index ((⟨.Merge, .merge⟩ : Instruction) :: (body ++ [sink]))
      ((((⟨.Merge, .merge⟩ : Instruction) :: (body ++ [sink])).length : Int) - 1) = .ok sink := by
    have hcast : ((((⟨.Merge, .merge⟩ : Instruction) :: (body ++ [sink])).length : Int) - 1)
        = ((body.length + 1 : Nat) : Int) := by
      simp
    rw [hcast]
    apply index_ofNat
    simp
  have hset1 : setIndex ((⟨.Merge, .merge⟩ : Instruction) :: (body ++ [sink])) 1 sink =
      .ok (⟨.Merge, .merge⟩ :: (body ++ [sink]).set 0 sink) := by
    simp [setIndex]
  have htake : sliceTo ((⟨.Merge, .merge⟩ : Instruction) :: (body ++ [sink]).set 0 sink) 2 =
      .ok [⟨.Merge, .merge⟩, sink] := by
    cases body with
    | nil => simp [sliceTo]
    | cons b bs =>
      have hle : (2 : Int) ≤ (bs.length : Int) + 1 + 1 + 1 := by omega
      simp [sliceTo, hle]
  simp only [finishRewrite, Bool.false_eq_true, if_false, hss, hset0, hlast, hset1, htake,
    bind, Except.bind, pure, Except.pure]

/-- Master lemma, no split opcode: the pipeline is `a :: (body ++ [sink])`,
so it has at least two instructions. -/
theorem parallelRewrite_noSplit (dup : Instruction → Instruction) (rds : List Nat)
    (mcpu ctx : Nat) (s : Scope) (a sink : Instruction) (body : List Instruction)
    (hins : s.Instructions = a :: (body ++ [sink]))
    (hall : ∀ J ∈ s.Instructions, isSplitOp J.Op = false) (hr : mcpu ≤ rds.length) :
    ∃ ss0 : List Scope, ss0.length = mcpu ∧ (∀ sc ∈ ss0, sc.Instructions = []) ∧
      parallelRewrite dup rds mcpu ctx s =
        .ok (rewritten s ctx [⟨.Merge, .merge⟩, sink]
          (ss0.map (Scope.appendAll ((a :: body).map dup)))) := by
  obtain ⟨ss0, h0, hlen, hnil⟩ := newSiblings_ok s rds mcpu 0 (by omega)
  refine ⟨ss0, hlen, hnil, ?_⟩
  have h1 := rewriteLoop_noSplit dup s.Instructions ss0 hall
  have hmap : s.Instructions.map dup = (a :: body).map dup ++ [dup sink] := by
    simp [hins]
  have h2 := finishRewrite_noSplit a sink body _ _
    (dropSinks_appendAll ((a :: body).map dup) (dup sink) ss0)
  rw [← hmap, ← hins] at h2
  exact parallelRewrite_of_loop dup rds mcpu ctx s ss0 _ _ h0 h1 h2

/-! ## Generic facts about a rewrite that completes -/

theorem newSiblings_length (s : Scope) (rds : List Nat) :
    ∀ (n i : Nat) (ss : List Scope), newSiblings s rds i n = .ok ss → ss.length = n := by
  intro n
  induction n with
  | zero =>
    intro i ss h
    simp only [newSiblings, Except.ok.injEq] at h
    subst h; rfl
  | succ n ih =>
    intro i ss h
    simp only [newSiblings, bind, Except.bind, pure, Except.pure] at h
    split at h
    · cases h
    · split at h
      · cases h
      · rename_i rest hrest
        simp only [Except.ok.injEq] at h
        subst h
        simp [ih (i + 1) rest hrest]

theorem splitAt_ss_length (st st1 : RewriteState) (i : Nat) (m sib : Instruction)
    (h : splitAt st i m sib = .ok st1) : st1.ss.length = st.ss.length := by
  simp only [splitAt, bind, Except.bind, pure, Except.pure] at h
  split at h
  · cases h
  · split at h
    · cases h
    · split at h
      · cases h
      · simp only [Except.ok.injEq] at h
        subst h
        simp

theorem rewriteStep_ss_length (dup : Instruction → Instruction) (st st1 : RewriteState)
    (i : Nat) (ins : Instruction) (h : rewriteStep dup st i ins = .ok st1) :
    st1.ss.length = st.ss.length := by
  rcases ins with ⟨op, arg⟩
  cases op <;> simp only [rewriteStep] at h
  all_goals first
    | (simp only [Except.ok.injEq] at h; subst h; simp)
    | (cases arg <;> first
        | cases h
        | exact splitAt_ss_length _ _ _ _ _ h)

theorem rewriteLoop_ss_length (dup : Instruction → Instruction) :
    ∀ (rest : List Instruction) (i : Nat) (st st1 : RewriteState),
      rewriteLoop dup i rest st = .ok st1 → st1.ss.length = st.ss.length := by
  intro rest
  induction rest with
  | nil =>
    intro i st st1 h
    simp only [rewriteLoop, Except.ok.injEq] at h
    subst h; rfl
  | cons ins rest ih =>
    intro i st st1 h
    cases hflg : st.flg with
    | true =>
      rw [rewriteLoop_flg dup i _ st hflg] at h
      simp only [Except.ok.injEq] at h
      subst h; rfl
    | false =>
      rw [rewriteLoop_cons dup i ins rest st hflg] at h
      cases hstep : rewriteStep dup st i ins with
      | error f => rw [hstep] at h; cases h
      | ok st2 =>
        rw [hstep] at h
        simp only [Except.bind] at h
        rw [ih (i + 1) st2 st1 h, rewriteStep_ss_length dup st st2 i ins hstep]

theorem dropSinks_length :
    ∀ (ss ss1 : List Scope), dropSinks ss = .ok ss1 → ss1.length = ss.length := by
  intro ss
  induction ss with
  | nil =>
    intro ss1 h
    simp only [dropSinks, Except.ok.injEq] at h
    subst h; rfl
  | cons sc rest ih =>
    intro ss1 h
    simp only [dropSinks, bind, Except.bind, pure, Except.pure] at h
    split at h
    · cases h
    · split at h
      · cases h
      · rename_i rest1 hrest
        simp only [Except.ok.injEq] at h
        subst h
        simp [ih rest1 hrest]

theorem finishRewrite_ss_length (st st1 : RewriteState) (h : finishRewrite st = .ok st1) :
    st1.ss.length = st.ss.length := by
  cases hflg : st.flg with
  | true =>
    simp only [finishRewrite, hflg, if_true, Except.ok.injEq] at h
    subst h; rfl
  | false =>
    simp only [finishRewrite, hflg, Bool.false_eq_true, if_false, bind, Except.bind, pure,
      Except.pure] at h
    split at h
    · cases h
    · rename_i ss1 hss1
      split at h
      · cases h
      · split at h
        · cases h
        · split at h
          · cases h
          · split at h
            · cases h
            · simp only [Except.ok.injEq] at h
              subst h
              exact dropSinks_length _ _ hss1

/-- Whenever the rewrite completes, its result is the parent wired to
exactly `mcpu` siblings. -/
theorem parallelRewrite_inv (dup : Instruction → Instruction) (rds : List Nat)
    (mcpu ctx : Nat) (s s1 : Scope) (h : parallelRewrite dup rds mcpu ctx s = .ok s1) :
    ∃ (ins : List Instruction) (ss : List Scope),
      ss.length = mcpu ∧ s1 = rewritten s ctx ins ss := by
  cases h0 : newSiblings s rds 0 mcpu with
  | error f => simp [parallelRewrite, h0, bind, Except.bind] at h
  | ok ss0 =>
    cases h1 : rewriteLoop dup 0 s.Instructions
        { flg := false, Instructions := s.Instructions, ss := ss0 } with
    | error f => simp [parallelRewrite, h0, h1, bind, Except.bind] at h
    | ok st =>
      cases h2 : finishRewrite st with
      | error f => simp [parallelRewrite, h0, h1, h2, bind, Except.bind] at h
      | ok st1 =>
        rw [parallelRewrite_of_loop dup rds mcpu ctx s ss0 st st1 h0 h1 h2] at h
        simp only [Except.ok.injEq] at h
        refine ⟨st1.Instructions, st1.ss, ?_, h.symm⟩
        rw [finishRewrite_ss_length st st1 h2, rewriteLoop_ss_length dup _ _ _ _ h1]
        exact newSiblings_length s rds mcpu 0 ss0 h0

theorem list_split_at {α : Type} (xs : List α) (k : Nat) (x : α) (h : xs[k]? = some x) :
    xs = xs.take k ++ x :: xs.drop (k + 1) := by
  induction xs generalizing k with
  | nil => simp at h
  | cons y ys ih =>
    cases k with
    | zero =>
      simp only [List.getElem?_cons_zero, Option.some.injEq] at h
      simp [h]
    | succ k =>
      simp only [List.getElem?_cons_succ] at h
      simp only [List.take_succ_cons, List.drop_succ_cons, List.cons_append, List.cons.injEq,
        true_and]
      exact ih k h

/-! ## The parallel rewrite: parent and siblings -/

/-- C1: if the first instruction with a split opcode sits at index `k`, with a
well-typed argument and merge form `m` (MergeTop(Fs, Limit), MergeOrder(Fs),
MergeLimit(Limit), MergeOffset(Offset) or MergeGroup(NeedEval = false)), the
rewrite completes and leaves the parent with exactly `m` followed by the
instructions after index `k`, unchanged and in their original order. -/
theorem parallelRewrite_parent (dup : Instruction → Instruction) (rds : List Nat)
    (mcpu ctx : Nat) (s : Scope) (k : Nat) (ins m : Instruction)
    (hk : s.Instructions[k]? = some ins)
    (hfirst : ∀ J ∈ s.Instructions.take k, isSplitOp J.Op = false)
    (hm : mergeForm ins = some m) (hr : mcpu ≤ rds.length) :
    ∃ s1, parallelRewrite dup rds mcpu ctx s = .ok s1 ∧
      s1.Instructions = m :: s.Instructions.drop (k + 1) := by
  obtain ⟨ss0, _, _, h⟩ := parallelRewrite_split dup rds mcpu ctx s _ _ ins m
    (list_split_at s.Instructions k ins hk) hfirst hm hr
  exact ⟨_, h, rfl⟩

theorem parallelRewrite_parent_witness :
    ∃ s1, parallelRewrite id [10, 11, 12, 13] 4 5 exScope = .ok s1 ∧
      s1.Instructions = ⟨.MergeTop, .mergeTop [⟨1, 1⟩] 3⟩ :: exScope.Instructions.drop (1 + 1) :=
  parallelRewrite_parent id [10, 11, 12, 13] 4 5 exScope 1 exTop ⟨.MergeTop, .mergeTop [⟨1, 1⟩] 3⟩
    (by rfl) (by decide) (by rfl) (by decide)

/-- C2: for every shard count `mcpu`, if the first split instruction `ins`
sits at index `k`, the rewrite builds exactly `mcpu` siblings and sibling `i`
ends with exactly the duplicates of the instructions before index `k`, then
`ins` itself (same opcode, same argument fields), then one connector; nothing
from behind the split point is in a sibling. -/
theorem parallelRewrite_siblings (dup : Instruction → Instruction) (rds : List Nat)
    (mcpu ctx : Nat) (s : Scope) (k : Nat) (ins m : Instruction)
    (hk : s.Instructions[k]? = some ins)
    (hfirst : ∀ J ∈ s.Instructions.take k, isSplitOp J.Op = false)
    (hm : mergeForm ins = some m) (hr : mcpu ≤ rds.length) :
    ∃ s1, parallelRewrite dup rds mcpu ctx s = .ok s1 ∧ s1.PreScopes.length = mcpu ∧
      ∀ i, i < mcpu → ∃ sc, s1.PreScopes[i]? = some sc ∧
        sc.Instructions = (s.Instructions.take k).map dup ++
          [ins, ⟨.Connector, .connector s.Proc.Gm ⟨i, ctx, 1⟩⟩] := by
  obtain ⟨ss0, hlen, hnil, h⟩ := parallelRewrite_split dup rds mcpu ctx s _ _ ins m
    (list_split_at s.Instructions k ins hk) hfirst hm hr
  refine ⟨_, h, by simp [rewritten, wire_length, hlen], ?_⟩
  intro i hi
  have hi0 : i < ss0.length := by omega
  have hget : (ss0.map (Scope.appendAll ((s.Instructions.take k).map dup ++ [ins])))[i]? =
      some (Scope.appendAll ((s.Instructions.take k).map dup ++ [ins]) ss0[i]) := by
    simp [hi0]
  refine ⟨Scope.appendInstruction ⟨.Connector, .connector s.Proc.Gm ⟨i, ctx, 1⟩⟩
    (Scope.appendAll ((s.Instructions.take k).map dup ++ [ins]) ss0[i]), ?_, ?_⟩
  · simpa only [rewritten, Nat.zero_add] using wire_get s.Proc.Gm ctx _ 0 i _ hget
  · simp [Scope.appendInstruction, Scope.appendAll, hnil ss0[i] (List.getElem_mem hi0)]

theorem parallelRewrite_siblings_witness :
    ∃ s1, parallelRewrite id [10, 11, 12, 13] 4 5 exScope = .ok s1 ∧ s1.PreScopes.length = 4 ∧
      ∀ i, i < 4 → ∃ sc, s1.PreScopes[i]? = some sc ∧
        sc.Instructions = (exScope.Instructions.take 1).map id ++
          [exTop, ⟨.Connector, .connector exScope.Proc.Gm ⟨i, 5, 1⟩⟩] :=
  parallelRewrite_siblings id [10, 11, 12, 13] 4 5 exScope 1 exTop
    ⟨.MergeTop, .mergeTop [⟨1, 1⟩] 3⟩ (by rfl) (by decide) (by rfl) (by decide)

/-- C3 (evaluation at the failing input): on a pipeline that consists of the
sink alone the `!flg` block writes `s.Instructions[1]` out of range, so the
rewrite panics instead of leaving the parent with `[Merge, sink]`. -/
theorem parallelRewrite_single_sink_panics :
    parallelRewrite id [10, 11] 2 5 exSinkScope = .error .indexOutOfRange := by
  rfl

/-- C4: whenever the rewrite with `mcpu` shards completes, the parent has
`Magic = Merge`, exactly `mcpu` PreScopes and exactly `mcpu` MergeReceivers,
the last instruction of sibling `i` is a connector whose register is
`MergeReceivers[i]`, and the receivers are pairwise distinct, so siblings and
receivers correspond one to one. -/
theorem parallelRewrite_wiring (dup : Instruction → Instruction) (rds : List Nat)
    (mcpu ctx : Nat) (s s1 : Scope) (h : parallelRewrite dup rds mcpu ctx s = .ok s1) :
    s1.Magic = .Merge ∧ s1.PreScopes.length = mcpu ∧ s1.Proc.MergeReceivers.length = mcpu ∧
      (∀ i, i < mcpu → ∃ sc reg, s1.PreScopes[i]? = some sc ∧
        s1.Proc.MergeReceivers[i]? = some reg ∧
        sc.Instructions.getLast? = some ⟨.Connector, .connector s.Proc.Gm reg⟩) ∧
      s1.Proc.MergeReceivers.Nodup := by
  obtain ⟨ins, ss, hlen, rfl⟩ := parallelRewrite_inv dup rds mcpu ctx s s1 h
  refine ⟨rfl, by simp [rewritten, wire_length, hlen],
    by simp [rewritten, newReceivers_length, hlen], ?_, ?_⟩
  · intro i hi
    have hi0 : i < ss.length := by omega
    have hget : ss[i]? = some ss[i] := by simp [hi0]
    refine ⟨Scope.appendInstruction ⟨.Connector, .connector s.Proc.Gm ⟨i, ctx, 1⟩⟩ ss[i],
      ⟨i, ctx, 1⟩, ?_, ?_, ?_⟩
    · simpa only [rewritten, Nat.zero_add] using wire_get s.Proc.Gm ctx ss 0 i _ hget
    · simpa only [rewritten] using newReceivers_get ctx ss.length i hi0
    · simp [Scope.appendInstruction]
  · simp only [rewritten, newReceivers]
    refine List.Nodup.map ?_ (List.nodup_range _)
    intro a b hab
    simpa using congrArg WaitRegister.addr hab

theorem parallelRewrite_wiring_witness :
    parallelRewrite id [10, 11] 2 5 exScope = .ok exRewritten ∧
      exRewritten.Magic = .Merge ∧ exRewritten.PreScopes.length = 2 ∧
      exRewritten.Proc.MergeReceivers.length = 2 ∧
      (∀ i, i < 2 → ∃ sc reg, exRewritten.PreScopes[i]? = some sc ∧
        exRewritten.Proc.MergeReceivers[i]? = some reg ∧
        sc.Instructions.getLast? = some ⟨.Connector, .connector exScope.Proc.Gm reg⟩) ∧
      exRewritten.Proc.MergeReceivers.Nodup :=
  ⟨rfl, parallelRewrite_wiring id [10, 11] 2 5 exScope exRewritten rfl⟩

/-- C5 (counterexample): for projection, Top, sink on two shards the sink,
which follows the split point, is kept in the parent and reaches no sibling. -/
theorem after_split_counterexample :
    ∃ s1, parallelRewrite id [10, 11] 2 5 exScope = .ok s1 ∧
      exOutput ∈ s1.Instructions ∧ ∀ sc ∈ s1.PreScopes, exOutput ∉ sc.Instructions :=
  ⟨_, rfl, by decide, by decide⟩

/-- C5 (amended): once the split point at index `k` has been processed the
loop stops; every later instruction `I_j` stays in the parent, at position
`j - k` behind the merge operator, and each sibling holds exactly `k + 2`
instructions (the `k` duplicates, the split instruction and the connector),
so none of the later instructions is appended to a sibling. -/
theorem parallelRewrite_after_split (dup : Instruction → Instruction) (rds : List Nat)
    (mcpu ctx : Nat) (s : Scope) (k : Nat) (ins m : Instruction)
    (hk : s.Instructions[k]? = some ins)
    (hfirst : ∀ J ∈ s.Instructions.take k, isSplitOp J.Op = false)
    (hm : mergeForm ins = some m) (hr : mcpu ≤ rds.length) :
    ∃ s1, parallelRewrite dup rds mcpu ctx s = .ok s1 ∧
      (∀ j, k < j → s1.Instructions[j - k]? = s.Instructions[j]?) ∧
      ∀ sc ∈ s1.PreScopes, sc.Instructions.length = k + 2 := by
  obtain ⟨ss0, hlen, hnil, h⟩ := parallelRewrite_split dup rds mcpu ctx s _ _ ins m
    (list_split_at s.Instructions k ins hk) hfirst hm hr
  have hklt : k < s.Instructions.length := by
    by_contra hcon
    have hnone : s.Instructions[k]? = none := List.getElem?_eq_none (by omega)
    rw [hnone] at hk
    cases hk
  refine ⟨_, h, ?_, ?_⟩
  · intro j hj
    obtain ⟨d, rfl⟩ : ∃ d, j = k + 1 + d := ⟨j - (k + 1), by omega⟩
    have h1 : k + 1 + d - k = d + 1 := by omega
    simp only [rewritten, h1, List.getElem?_cons_succ, List.getElem?_drop]
  · intro sc hsc
    obtain ⟨i, hi, hsci⟩ := List.getElem_of_mem hsc
    have hi0 : i < ss0.length := by
      simpa [rewritten, wire_length] using hi
    have hget : (ss0.map (Scope.appendAll ((s.Instructions.take k).map dup ++ [ins])))[i]? =
        some (Scope.appendAll ((s.Instructions.take k).map dup ++ [ins]) ss0[i]) := by
      simp [hi0]
    have hw := wire_get s.Proc.Gm ctx _ 0 i _ hget
    have hsc2 : (rewritten s ctx (m :: s.Instructions.drop (k + 1))
        (ss0.map (Scope.appendAll ((s.Instructions.take k).map dup ++ [ins])))).PreScopes[i]? =
        some sc := by
      rw [List.getElem?_eq_getElem hi, hsci]
    simp only [rewritten, hw, Option.some.injEq] at hsc2
    subst hsc2
    simp [Scope.appendInstruction, Scope.appendAll, hnil ss0[i] (List.getElem_mem hi0)]
    omega

theorem parallelRewrite_after_split_witness :
    ∃ s1, parallelRewrite id [10, 11] 2 5 exScope = .ok s1 ∧
      (∀ j, 1 < j → s1.Instructions[j - 1]? = exScope.Instructions[j]?) ∧
      ∀ sc ∈ s1.PreScopes, sc.Instructions.length = 1 + 2 :=
  parallelRewrite_after_split id [10, 11] 2 5 exScope 1 exTop ⟨.MergeTop, .mergeTop [⟨1, 1⟩] 3⟩
    (by rfl) (by decide) (by rfl) (by decide)

/-! ## ParallelRun -/

theorem drain_length : ∀ (ch : List (Option GoError)),
    drain ch.length ch = .returned (firstError ch) := by
  intro ch
  induction ch with
  | nil => rfl
  | cons r ch ih =>
    cases r with
    | none => simpa [drain, firstError] using ih
    | some e => simp [drain, firstError]

theorem MergeRun_no_children (w : Workers) (runMerge : Scope → Option GoError) (s : Scope)
    (h : s.PreScopes = []) : MergeRun w runMerge s = .returned (runMerge s) := by
  cases hr : runMerge s <;> simp [MergeRun, hr, h, drain]

/-- The run of `ParallelRun` once both lookups succeed and the pipeline has a
well-typed first split instruction at index `k`: the rewritten scope has
`NumCPU` siblings, at least one, and `ParallelRun` returns what `MergeRun`
returns on it.  There is no test of the shard count on the way. -/
theorem ParallelRun_runs_merge (rt : Runtime) (e : engine.Engine) (s : Scope)
    (db : engine.Database) (rel : engine.Relation) (k : Nat) (ins m : Instruction)
    (hdb : e.Database s.DataSource.SchemaName s.Proc.Snapshot = .ok db)
    (hrel : db.Relation s.DataSource.RelationName s.Proc.Snapshot = .ok rel)
    (hk : s.Instructions[k]? = some ins)
    (hfirst : ∀ J ∈ s.Instructions.take k, isSplitOp J.Op = false)
    (hm : mergeForm ins = some m)
    (hr : rt.NumCPU ≤ (rel.NewReader rt.NumCPU s.NodeInfo s.Proc.Snapshot).length) :
    ∃ s1, parallelRewrite rt.dupInstruction
        (rel.NewReader rt.NumCPU s.NodeInfo s.Proc.Snapshot) rt.NumCPU rt.ctx s = .ok s1 ∧
      s1.Magic = .Merge ∧ s1.Instructions = m :: s.Instructions.drop (k + 1) ∧
      s1.PreScopes.length = rt.NumCPU ∧ 0 < s1.PreScopes.length ∧
      ParallelRun rt e s = MergeRun rt.workers rt.runMerge s1 := by
  obtain ⟨ss0, hlen, _, h⟩ := parallelRewrite_split rt.dupInstruction
    (rel.NewReader rt.NumCPU s.NodeInfo s.Proc.Snapshot) rt.NumCPU rt.ctx s _ _ ins m
    (list_split_at s.Instructions k ins hk) hfirst hm hr
  have hpre : (rewritten s rt.ctx (m :: s.Instructions.drop (k + 1))
      (ss0.map (Scope.appendAll ((s.Instructions.take k).map rt.dupInstruction ++
        [ins])))).PreScopes.length = rt.NumCPU := by
    simp [rewritten, wire_length, hlen]
  refine ⟨_, h, rfl, rfl, hpre, by rw [hpre]; exact rt.NumCPU_pos, ?_⟩
  simp only [ParallelRun, hdb, hrel, h]

/-- A run of `ParallelRun` on two CPUs: both workers and the merge pipeline
succeed and the call returns `nil`. -/
theorem ParallelRun_sample : ParallelRun exRuntime exEngine exScope = .returned none := by
  decide

/-! ## MergeRun -/

theorem range_filterMap_getElem {α β : Type} (g : α → β) (xs : List α) :
    (List.range xs.length).filterMap (fun i => (xs[i]?).map g) = xs.map g := by
  induction xs using List.reverseRecOn with
  | nil => rfl
  | append_singleton ys y ih =>
    rw [List.length_append, List.length_singleton, List.range_succ, List.filterMap_append]
    have hcongr : (List.range ys.length).filterMap (fun i => ((ys ++ [y])[i]?).map g) =
        (List.range ys.length).filterMap (fun i => (ys[i]?).map g) := by
      apply List.filterMap_congr
      intro i hi
      rw [List.getElem?_append_left (List.mem_range.mp hi)]
    rw [hcongr, ih]
    simp

theorem errChan_perm (w : Workers) (s : Scope)
    (hperm : w.order.Perm (List.range s.PreScopes.length)) :
    (w.errChan s).Perm (s.PreScopes.map w.spawn) := by
  have h := List.Perm.filterMap (fun i => (s.PreScopes[i]?).map w.spawn) hperm
  rw [range_filterMap_getElem] at h
  exact h

theorem firstError_eq_none (ch : List (Option GoError)) :
    firstError ch = none ↔ ∀ r ∈ ch, r = none := by
  simp [firstError]

/-- C7: let every child's worker complete once (`order` is a permutation of
the child indices), so that `errChan` holds the `n` terminal results in
completion order.  `MergeRun` returns the merge pipeline's error if that
pipeline fails; otherwise it returns the first non-nil entry of `errChan`;
and it returns `nil` exactly if the pipeline and every worker succeeded. -/
theorem MergeRun_result (w : Workers) (runMerge : Scope → Option GoError) (s : Scope)
    (hperm : w.order.Perm (List.range s.PreScopes.length)) :
    (w.errChan s).length = s.PreScopes.length ∧
      (∀ err, runMerge s = some err → MergeRun w runMerge s = .returned (some err)) ∧
      (runMerge s = none → MergeRun w runMerge s = .returned (firstError (w.errChan s))) ∧
      (MergeRun w runMerge s = .returned none ↔
        runMerge s = none ∧ ∀ cs ∈ s.PreScopes, w.spawn cs = none) := by
  have hp := errChan_perm w s hperm
  have hlen : (w.errChan s).length = s.PreScopes.length := by
    simpa using hp.length_eq
  have hnone : MergeRun w runMerge s = .returned (firstError (w.errChan s))
      ∨ ∃ err, runMerge s = some err := by
    cases hr : runMerge s with
    | some err => exact Or.inr ⟨err, rfl⟩
    | none =>
      left
      simp only [MergeRun, hr]
      rw [← hlen]
      exact drain_length _
  refine ⟨hlen, ?_, ?_, ?_⟩
  · intro err herr
    simp [MergeRun, herr]
  · intro hr
    rcases hnone with h | ⟨err, herr⟩
    · exact h
    · rw [hr] at herr; cases herr
  · constructor
    · intro h
      cases hr : runMerge s with
      | some err => simp [MergeRun, hr] at h
      | none =>
        refine ⟨rfl, ?_⟩
        rcases hnone with h1 | ⟨err, herr⟩
        · rw [h1] at h
          simp only [Outcome.returned.injEq] at h
          intro cs hcs
          have hmem : w.spawn cs ∈ w.errChan s :=
            hp.symm.subset (List.mem_map_of_mem _ hcs)
          exact (firstError_eq_none _).mp h _ hmem
        · rw [hr] at herr; cases herr
    · rintro ⟨hr, hall⟩
      rcases hnone with h1 | ⟨err, herr⟩
      · rw [h1]
        congr 1
        apply (firstError_eq_none _).mpr
        intro r hr1
        obtain ⟨cs, hcs, rfl⟩ := List.mem_map.mp (hp.subset hr1)
        exact hall cs hcs
      · rw [hr] at herr; cases herr

theorem MergeRun_result_witness :
    (exFailingWorkers.errChan exRewritten).length = exRewritten.PreScopes.length ∧
      (∀ err, exRunMergeOk exRewritten = some err →
        MergeRun exFailingWorkers exRunMergeOk exRewritten = .returned (some err)) ∧
      (exRunMergeOk exRewritten = none →
        MergeRun exFailingWorkers exRunMergeOk exRewritten =
          .returned (firstError (exFailingWorkers.errChan exRewritten))) ∧
      (MergeRun exFailingWorkers exRunMergeOk exRewritten = .returned none ↔
        exRunMergeOk exRewritten = none ∧
          ∀ cs ∈ exRewritten.PreScopes, exFailingWorkers.spawn cs = none) :=
  MergeRun_result exFailingWorkers exRunMergeOk exRewritten (by decide)

/-! ## DDL entry points -/

/-- C8 (evaluation at the failing input): on the plan `DROP DATABASE db1`
the entry point reads the name through `GetCreateDatabase`, which is empty
for a drop-database plan, and so calls `engine.Delete` once with the name
`""` instead of `"db1"`. -/
theorem DropDatabase_reads_create_descriptor :
    plan.DropDatabase.GetDatabase
        (plan.DataDefinition.GetDropDatabase (plan.Plan.GetDdl exDropDatabaseScope.Plan)) = "db1" ∧
      DropDatabase exDropDatabaseScope 1 (some [7]) exEngine =
        ⟨exEngine.Delete 1 "" (some [7]), [.engineDelete 1 "" (some [7])]⟩ := by
  decide

/-- C9 (evaluation at the failing input): called with the snapshot `[7]`,
`CreateTable` and `DropTable` look the database up with a `nil` snapshot; only
the following `Create` / `Delete` on the database handle receives `[7]`. -/
theorem ddl_lookup_without_snapshot :
    (CreateTable Int.toNat exCreateTableScope 1 (some [7]) exEngine "db").calls.head? =
        some (.engineDatabase "db" none) ∧
      (DropTable exDropTableScope 1 (some [7]) exEngine).calls =
        [.engineDatabase "db" none, .dbDelete 1 "t" (some [7])] := by
  decide

/-- C10: for a create-table plan with the table definition `td` and a
successful database lookup, `CreateTable` makes exactly one `db.Create` call;
its definition list has length `m + n` (columns plus table-level
definitions); entry `i < m` is an attribute definition with column `i`'s
name, compression algorithm, type id (through the conversion to the type
tag), width, precision, scale, size, default tri-state and primary flag;
entry `m + j` is the translation of definition `j`: the primary-index names,
the secondary-index column names and name, or the properties as key/value
pairs in the same order. -/
theorem CreateTable_defs (toT : Int → Nat) (s : Scope) (ts : Nat) (snapshot : Snapshot)
    (e : engine.Engine) (dbName : String) (qry : plan.CreateTable) (td : plan.TableDef)
    (dbSource : engine.Database)
    (hplan : s.Plan = some (.Ddl (.CreateTable qry))) (htd : qry.TableDef = some td)
    (hdb : e.Database (if qry.Database ≠ "" then qry.Database else dbName) none = .ok dbSource) :
    ∃ defs : List (Option engine.TableDef),
      CreateTable toT s ts snapshot e dbName =
        ⟨dbSource.Create ts td.Name defs snapshot,
          [.engineDatabase (if qry.Database ≠ "" then qry.Database else dbName) none,
           .dbCreate ts td.Name defs snapshot]⟩ ∧
      defs.length = td.Cols.length + td.Defs.length ∧
      (∀ (i : Nat) (c : plan.ColDef), td.Cols[i]? = some c →
        ∃ a : engine.Attribute, defs[i]? = some (some (.AttributeDef a)) ∧
        a.Name = c.Name ∧
        (c.Alg = .None → a.Alg = .None) ∧ (c.Alg = .Lz4 → a.Alg = .Lz4) ∧
        a.Typ.Oid = toT (plan.Type_.GetId c.Typ) ∧
        a.Typ.Width = plan.Type_.GetWidth c.Typ ∧
        a.Typ.Precision = plan.Type_.GetPrecision c.Typ ∧
        a.Typ.Scale = plan.Type_.GetScale c.Typ ∧
        a.Typ.Size = plan.Type_.GetSize c.Typ ∧
        a.Default = ⟨plan.DefaultExpr.GetExist c.Default, plan.DefaultExpr.GetValue c.Default,
          plan.DefaultExpr.GetIsNull c.Default⟩ ∧
        a.Primary = c.Primary) ∧
      (∀ (j : Nat) pk, td.Defs[j]? = some (.Pk pk) →
        defs[td.Cols.length + j]? =
          some (some (.PrimaryIndexDef (plan.PrimaryKeyDef.GetNames pk)))) ∧
      (∀ (j : Nat) idx, td.Defs[j]? = some (.Idx idx) →
        defs[td.Cols.length + j]? =
          some (some (.IndexTableDef (plan.IndexDef.GetColNames idx)
            (plan.IndexDef.GetName idx)))) ∧
      (∀ (j : Nat) ps, td.Defs[j]? = some (.Properties ps) →
        defs[td.Cols.length + j]? =
          some (some (.PropertiesDef ((plan.PropertiesDef.GetProperties ps).map
            fun p => ⟨p.Key, p.Value⟩)))) := by
  have hlenc : (planColsToExeCols toT td.Cols).length = td.Cols.length := by
    simp [planColsToExeCols]
  have hdefs : ∀ j d, td.Defs[j]? = some d →
      (planColsToExeCols toT td.Cols ++ planDefsToExeDefs td.Defs)[td.Cols.length + j]? =
        (planDefsToExeDefs [d])[0]? := by
    intro j d hj
    rw [← hlenc, List.getElem?_append_right (Nat.le_add_right _ _), Nat.add_sub_cancel_left]
    simp [planDefsToExeDefs, hj]
  refine ⟨planColsToExeCols toT td.Cols ++ planDefsToExeDefs td.Defs, ?_, ?_, ?_, ?_, ?_, ?_⟩
  · simp only [CreateTable, hplan, plan.Plan.GetDdl, plan.DataDefinition.GetCreateTable,
      plan.CreateTable.GetDatabase, plan.CreateTable.GetTableDef, htd, plan.TableDef.GetCols,
      plan.TableDef.GetDefs, plan.TableDef.GetName, hdb]
  · simp [planColsToExeCols, planDefsToExeDefs]
  · intro i c hc
    have hi : i < td.Cols.length := by
      by_contra hcon
      rw [List.getElem?_eq_none (by omega)] at hc
      cases hc
    rw [List.getElem?_append_left (by rw [hlenc]; exact hi)]
    simp only [planColsToExeCols, List.getElem?_map, hc, Option.map_some']
    refine ⟨_, rfl, rfl, ?_, ?_, rfl, rfl, rfl, rfl, rfl, rfl, rfl⟩
    · intro h; simp [h]
    · intro h; simp [h]
  · intro j pk hj
    rw [hdefs j _ hj]; rfl
  · intro j idx hj
    rw [hdefs j _ hj]; rfl
  · intro j ps hj
    rw [hdefs j _ hj]; rfl

theorem CreateTable_defs_witness :
    ∃ defs : List (Option engine.TableDef),
      CreateTable Int.toNat exCreateTableScope 1 (some [7]) exEngine "db" =
        ⟨exDatabase.Create 1 exTableDef.Name defs (some [7]),
          [.engineDatabase (if exCreateTable.Database ≠ "" then exCreateTable.Database else "db")
             none,
           .dbCreate 1 exTableDef.Name defs (some [7])]⟩ ∧
      defs.length = exTableDef.Cols.length + exTableDef.Defs.length ∧
      (∀ (i : Nat) (c : plan.ColDef), exTableDef.Cols[i]? = some c →
        ∃ a : engine.Attribute, defs[i]? = some (some (.AttributeDef a)) ∧
        a.Name = c.Name ∧
        (c.Alg = .None → a.Alg = .None) ∧ (c.Alg = .Lz4 → a.Alg = .Lz4) ∧
        a.Typ.Oid = Int.toNat (plan.Type_.GetId c.Typ) ∧
        a.Typ.Width = plan.Type_.GetWidth c.Typ ∧
        a.Typ.Precision = plan.Type_.GetPrecision c.Typ ∧
        a.Typ.Scale = plan.Type_.GetScale c.Typ ∧
        a.Typ.Size = plan.Type_.GetSize c.Typ ∧
        a.Default = ⟨plan.DefaultExpr.GetExist c.Default, plan.DefaultExpr.GetValue c.Default,
          plan.DefaultExpr.GetIsNull c.Default⟩ ∧
        a.Primary = c.Primary) ∧
      (∀ (j : Nat) pk, exTableDef.Defs[j]? = some (.Pk pk) →
        defs[exTableDef.Cols.length + j]? =
          some (some (.PrimaryIndexDef (plan.PrimaryKeyDef.GetNames pk)))) ∧
      (∀ (j : Nat) idx, exTableDef.Defs[j]? = some (.Idx idx) →
        defs[exTableDef.Cols.length + j]? =
          some (some (.IndexTableDef (plan.IndexDef.GetColNames idx)
            (plan.IndexDef.GetName idx)))) ∧
      (∀ (j : Nat) ps, exTableDef.Defs[j]? = some (.Properties ps) →
        defs[exTableDef.Cols.length + j]? =
          some (some (.PropertiesDef ((plan.PropertiesDef.GetProperties ps).map
            fun p => ⟨p.Key, p.Value⟩)))) :=
  CreateTable_defs Int.toNat exCreateTableScope 1 (some [7]) exEngine "db" exCreateTable
    exTableDef exDatabase rfl rfl rfl

/-! ## One rewrite per pipeline, and the bounds of the rewrite -/

theorem mergeForm_isMergeOp (ins m : Instruction) (hm : mergeForm ins = some m) :
    isMergeOp m.Op = true ∧ isSplitOp ins.Op = true := by
  rcases ins with ⟨op, arg⟩
  cases op <;> cases arg <;> simp [mergeForm] at hm <;> subst hm <;> exact ⟨rfl, rfl⟩

theorem rewriteStep_illTyped (dup : Instruction → Instruction) (st : RewriteState) (i : Nat)
    (ins : Instruction) (hsplit : isSplitOp ins.Op = true) (hm : mergeForm ins = none) :
    rewriteStep dup st i ins = .error .typeAssertion := by
  rcases ins with ⟨op, arg⟩
  cases op <;> simp [isSplitOp] at hsplit <;> cases arg <;> simp [mergeForm] at hm <;>
    simp [rewriteStep]

theorem rewriteLoop_illTyped (dup : Instruction → Instruction) (front back : List Instruction)
    (ins : Instruction) (st : RewriteState) (hflg : st.flg = false)
    (hfront : ∀ J ∈ front, isSplitOp J.Op = false) (hsplit : isSplitOp ins.Op = true)
    (hm : mergeForm ins = none) :
    rewriteLoop dup 0 (front ++ ins :: back) st = .error .typeAssertion := by
  rw [rewriteLoop_default dup front hfront 0 (ins :: back) st hflg,
    rewriteLoop_cons dup _ ins back
      { st with ss := st.ss.map (Scope.appendAll (front.map dup)) } hflg,
    rewriteStep_illTyped dup _ _ ins hsplit hm]
  rfl

theorem parallelRewrite_loop_error (dup : Instruction → Instruction) (rds : List Nat)
    (mcpu ctx : Nat) (s : Scope) (ss0 : List Scope) (f : Fault)
    (h0 : newSiblings s rds 0 mcpu = .ok ss0)
    (h1 : rewriteLoop dup 0 s.Instructions
      { flg := false, Instructions := s.Instructions, ss := ss0 } = .error f) :
    parallelRewrite dup rds mcpu ctx s = .error f := by
  simp only [parallelRewrite, h0, h1, bind, Except.bind]

theorem parallelRewrite_finish_error (dup : Instruction → Instruction) (rds : List Nat)
    (mcpu ctx : Nat) (s : Scope) (ss0 : List Scope) (st : RewriteState) (f : Fault)
    (h0 : newSiblings s rds 0 mcpu = .ok ss0)
    (h1 : rewriteLoop dup 0 s.Instructions
      { flg := false, Instructions := s.Instructions, ss := ss0 } = .ok st)
    (h2 : finishRewrite st = .error f) :
    parallelRewrite dup rds mcpu ctx s = .error f := by
  simp only [parallelRewrite, h0, h1, h2, bind, Except.bind]

/-- A pipeline either has no split opcode or splits at its first one. -/
theorem first_split_decomp (l : List Instruction) :
    (∀ J ∈ l, isSplitOp J.Op = false) ∨
      ∃ front ins back, l = front ++ ins :: back ∧
        (∀ J ∈ front, isSplitOp J.Op = false) ∧ isSplitOp ins.Op = true := by
  induction l with
  | nil => left; simp
  | cons x xs ih =>
    by_cases hx : isSplitOp x.Op = true
    · right; exact ⟨[], x, xs, rfl, by simp, hx⟩
    · have hx2 : isSplitOp x.Op = false := by simpa using hx
      rcases ih with hall | ⟨front, ins, back, hxs, hfront, hins⟩
      · left
        intro J hJ
        rcases List.mem_cons.mp hJ with h | h
        · rw [h]; exact hx2
        · exact hall J h
      · right
        refine ⟨x :: front, ins, back, by rw [hxs]; rfl, ?_, hins⟩
        intro J hJ
        rcases List.mem_cons.mp hJ with h | h
        · rw [h]; exact hx2
        · exact hfront J h

theorem two_or_more_shape (l : List Instruction) (hlen : 2 ≤ l.length) :
    ∃ a body sink, l = a :: (body ++ [sink]) := by
  cases l with
  | nil => simp at hlen
  | cons a rest =>
    have hne : rest ≠ [] := by
      intro h; rw [h] at hlen; simp at hlen
    exact ⟨a, rest.dropLast, rest.getLast hne, by rw [List.dropLast_append_getLast hne]⟩

/-- The siblings after a rewrite at a well-typed split instruction. -/
theorem parallelRewrite_split_siblings (dup : Instruction → Instruction) (rds : List Nat)
    (mcpu ctx : Nat) (s : Scope) (front back : List Instruction) (ins m : Instruction)
    (hins : s.Instructions = front ++ ins :: back)
    (hfront : ∀ J ∈ front, isSplitOp J.Op = false) (hm : mergeForm ins = some m)
    (hr : mcpu ≤ rds.length) :
    ∃ s1, parallelRewrite dup rds mcpu ctx s = .ok s1 ∧ s1.Instructions = m :: back ∧
      s1.PreScopes.length = mcpu ∧
      ∀ sc ∈ s1.PreScopes, ∃ i, sc.Instructions =
        front.map dup ++ [ins, ⟨.Connector, .connector s.Proc.Gm ⟨i, ctx, 1⟩⟩] := by
  obtain ⟨ss0, hlen, hnil, h⟩ := parallelRewrite_split dup rds mcpu ctx s front back ins m
    hins hfront hm hr
  refine ⟨_, h, rfl, by simp [rewritten, wire_length, hlen], ?_⟩
  intro sc hsc
  obtain ⟨i, hi, hsci⟩ := List.getElem_of_mem hsc
  have hi0 : i < ss0.length := by
    simpa [rewritten, wire_length] using hi
  have hget : (ss0.map (Scope.appendAll (front.map dup ++ [ins])))[i]? =
      some (Scope.appendAll (front.map dup ++ [ins]) ss0[i]) := by
    simp [hi0]
  have hw := wire_get s.Proc.Gm ctx _ 0 i _ hget
  have hsc2 : (rewritten s ctx (m :: back)
      (ss0.map (Scope.appendAll (front.map dup ++ [ins])))).PreScopes[i]? = some sc := by
    rw [List.getElem?_eq_getElem hi, hsci]
  simp only [rewritten, hw, Option.some.injEq] at hsc2
  subst hsc2
  refine ⟨0 + i, ?_⟩
  simp [Scope.appendInstruction, Scope.appendAll, hnil ss0[i] (List.getElem_mem hi0)]

/-- Why the count of merge forms below is stated for input pipelines without
merge-form instructions: the rewrite copies the instructions behind the split
point without looking at them, so on `Top`, `MergeLimit`, sink the parent
holds the new `MergeTop` and the `MergeLimit` that was there.  `ParallelRun`
is the only place where merge forms are made, and their receivers are
allocated after the rewrite, so a pipeline handed to it holds none. -/
theorem merge_form_behind_split_stays :
    ∃ s1, parallelRewrite id [10, 11] 2 5 exMergeBehindScope = .ok s1 ∧
      (s1.Instructions.filter fun J => isMergeOp J.Op).length = 2 :=
  ⟨_, rfl, by decide⟩

/-- C22: for every pipeline that contains a split opcode, the first of them at
index `k` (with the argument its opcode announces), `ParallelRun` performs
exactly one rewrite, there: afterwards the parent is the merge form of that
instruction followed verbatim by the input behind index `k`, so it contains
exactly one merge-form instruction, located at index 0, and any later split
opcodes of the input remain verbatim in the parent; there are `mcpu` siblings
and each contains exactly one instruction with a split opcode.  The input
pipeline holds no merge-form instruction (only this rewrite makes them), there
is one reader per shard, and `dupInstruction` keeps the opcode of the
instruction it duplicates. -/
theorem parallelRewrite_once (dup : Instruction → Instruction) (rds : List Nat)
    (mcpu ctx : Nat) (s : Scope) (k : Nat) (ins m : Instruction)
    (hk : s.Instructions[k]? = some ins)
    (hfirst : ∀ J ∈ s.Instructions.take k, isSplitOp J.Op = false)
    (hm : mergeForm ins = some m) (hr : mcpu ≤ rds.length)
    (hdup : ∀ J, (dup J).Op = J.Op)
    (hnomerge : ∀ J ∈ s.Instructions, isMergeOp J.Op = false) :
    ∃ s1, parallelRewrite dup rds mcpu ctx s = .ok s1 ∧
      s1.Instructions = m :: s.Instructions.drop (k + 1) ∧
      s1.Instructions[0]? = some m ∧ isMergeOp m.Op = true ∧
      (s1.Instructions.filter fun J => isMergeOp J.Op).length = 1 ∧
      s1.Instructions.drop 1 = s.Instructions.drop (k + 1) ∧
      (s1.Instructions.filter fun J => isSplitOp J.Op) =
        (s.Instructions.drop (k + 1)).filter (fun J => isSplitOp J.Op) ∧
      s1.PreScopes.length = mcpu ∧
      ∀ sc ∈ s1.PreScopes, (sc.Instructions.filter fun J => isSplitOp J.Op).length = 1 := by
  obtain ⟨s1, hok, hparent, hlen, hsib⟩ := parallelRewrite_split_siblings dup rds mcpu ctx s
    _ _ ins m (list_split_at s.Instructions k ins hk) hfirst hm hr
  obtain ⟨hmerge, hsplit⟩ := mergeForm_isMergeOp ins m hm
  have hmsplit : isSplitOp m.Op = false := by
    rcases m with ⟨op, arg⟩
    cases op <;> simp [isMergeOp] at hmerge <;> rfl
  refine ⟨s1, hok, hparent, by rw [hparent]; simp, hmerge, ?_, by rw [hparent]; rfl, ?_, hlen,
    ?_⟩
  · rw [hparent, List.filter_cons_of_pos (by simpa using hmerge)]
    have : (s.Instructions.drop (k + 1)).filter (fun J => isMergeOp J.Op) = [] := by
      rw [List.filter_eq_nil_iff]
      intro J hJ
      simp [hnomerge J (List.mem_of_mem_drop hJ)]
    rw [this]; rfl
  · rw [hparent, List.filter_cons_of_neg (by simp [hmsplit])]
  · intro sc hsc
    obtain ⟨i, hi⟩ := hsib sc hsc
    rw [hi, List.filter_append]
    have hfront : ((s.Instructions.take k).map dup).filter (fun J => isSplitOp J.Op) = [] := by
      rw [List.filter_eq_nil_iff]
      intro J hJ
      obtain ⟨J0, hJ0, rfl⟩ := List.mem_map.mp hJ
      simp [hdup J0, hfirst J0 hJ0]
    rw [hfront, List.nil_append, List.filter_cons_of_pos (by simpa using hsplit),
      List.filter_cons_of_neg (by simp [isSplitOp])]
    rfl

theorem parallelRewrite_once_witness :
    ∃ s1, parallelRewrite id [10, 11] 2 5 exTwoSplitScope = .ok s1 ∧
      s1.Instructions =
        ⟨.MergeTop, .mergeTop [⟨1, 1⟩] 3⟩ :: exTwoSplitScope.Instructions.drop (1 + 1) ∧
      s1.Instructions[0]? = some ⟨.MergeTop, .mergeTop [⟨1, 1⟩] 3⟩ ∧
      isMergeOp (⟨.MergeTop, .mergeTop [⟨1, 1⟩] 3⟩ : Instruction).Op = true ∧
      (s1.Instructions.filter fun J => isMergeOp J.Op).length = 1 ∧
      s1.Instructions.drop 1 = exTwoSplitScope.Instructions.drop (1 + 1) ∧
      (s1.Instructions.filter fun J => isSplitOp J.Op) =
        (exTwoSplitScope.Instructions.drop (1 + 1)).filter (fun J => isSplitOp J.Op) ∧
      s1.PreScopes.length = 2 ∧
      ∀ sc ∈ s1.PreScopes, (sc.Instructions.filter fun J => isSplitOp J.Op).length = 1 :=
  parallelRewrite_once id [10, 11] 2 5 exTwoSplitScope 1 exTop
    ⟨.MergeTop, .mergeTop [⟨1, 1⟩] 3⟩ (by rfl) (by decide) (by rfl) (by decide)
    (fun _ => rfl) (by decide)


theorem finishRewrite_empty (ss0 : List Scope) (hnil : ∀ sc ∈ ss0, sc.Instructions = []) :
    (ss0 = [] → finishRewrite { flg := false, Instructions := [], ss := ss0 } =
        .error .indexOutOfRange) ∧
      (ss0 ≠ [] → finishRewrite { flg := false, Instructions := [], ss := ss0 } =
        .error .sliceBounds) := by
  constructor
  · intro h
    subst h
    simp [finishRewrite, dropSinks, setIndex, bind, Except.bind]
  · intro h
    cases ss0 with
    | nil => exact absurd rfl h
    | cons sc rest =>
      have hsc : sc.Instructions = [] := hnil sc (List.mem_cons_self _ _)
      simp [finishRewrite, dropSinks, sliceTo, hsc, bind, Except.bind]

theorem finishRewrite_single (x : Instruction) (ss ss1 : List Scope)
    (hss : dropSinks ss = .ok ss1) :
    finishRewrite { flg := false, Instructions := [x], ss := ss } =
      .error .indexOutOfRange := by
  simp [finishRewrite, hss, setIndex, index, bind, Except.bind]

/-- The rewrite of an empty pipeline fails on an out-of-range access. -/
theorem parallelRewrite_empty (dup : Instruction → Instruction) (rds : List Nat)
    (mcpu ctx : Nat) (s : Scope) (hins : s.Instructions = []) (hr : mcpu ≤ rds.length) :
    (mcpu = 0 → parallelRewrite dup rds mcpu ctx s = .error .indexOutOfRange) ∧
      (0 < mcpu → parallelRewrite dup rds mcpu ctx s = .error .sliceBounds) := by
  obtain ⟨ss0, h0, hlen, hnil⟩ := newSiblings_ok s rds mcpu 0 (by omega)
  have h1 : rewriteLoop dup 0 s.Instructions
      { flg := false, Instructions := s.Instructions, ss := ss0 } =
      .ok { flg := false, Instructions := [], ss := ss0 } := by
    rw [hins]; rfl
  obtain ⟨hz, hp⟩ := finishRewrite_empty ss0 hnil
  constructor
  · intro hm
    have : ss0 = [] := List.length_eq_zero.mp (by omega)
    exact parallelRewrite_finish_error dup rds mcpu ctx s ss0 _ _ h0 h1 (hz this)
  · intro hm
    have : ss0 ≠ [] := by
      intro h; rw [h] at hlen; simp at hlen; omega
    exact parallelRewrite_finish_error dup rds mcpu ctx s ss0 _ _ h0 h1 (hp this)

/-- The rewrite of a one-instruction pipeline without a split opcode fails on
the write to `s.Instructions[1]`. -/
theorem parallelRewrite_single (dup : Instruction → Instruction) (rds : List Nat)
    (mcpu ctx : Nat) (s : Scope) (x : Instruction) (hins : s.Instructions = [x])
    (hx : isSplitOp x.Op = false) (hr : mcpu ≤ rds.length) :
    parallelRewrite dup rds mcpu ctx s = .error .indexOutOfRange := by
  obtain ⟨ss0, h0, hlen, hnil⟩ := newSiblings_ok s rds mcpu 0 (by omega)
  have hall : ∀ J ∈ s.Instructions, isSplitOp J.Op = false := by
    intro J hJ
    rw [hins, List.mem_singleton] at hJ
    rw [hJ]; exact hx
  have h1 := rewriteLoop_noSplit dup s.Instructions ss0 hall
  have hdrop := dropSinks_appendAll [] (dup x) ss0
  have h2 : finishRewrite
      { flg := false, Instructions := s.Instructions,
        ss := ss0.map (Scope.appendAll (s.Instructions.map dup)) } =
      .error .indexOutOfRange := by
    rw [hins]
    exact finishRewrite_single x _ _ hdrop
  exact parallelRewrite_finish_error dup rds mcpu ctx s ss0 _ _ h0 h1 h2

/-- C23: given one reader per shard, the rewrite performs no out-of-range
slice or index access whenever the pipeline contains a split opcode or has at
least two instructions (the only fault left is the failed type assertion on a
split instruction with an ill-typed argument), and it completes when the first
split instruction is well typed or when there is no split opcode among at
least two instructions.  For an empty pipeline, and for a one-instruction
pipeline without a split opcode, it fails on an out-of-range access and
produces no parent pipeline. -/
theorem parallelRewrite_bounds (dup : Instruction → Instruction) (rds : List Nat)
    (mcpu ctx : Nat) (s : Scope) (hr : mcpu ≤ rds.length) :
    (((∃ J ∈ s.Instructions, isSplitOp J.Op = true) ∨ 2 ≤ s.Instructions.length) →
        ∀ f, parallelRewrite dup rds mcpu ctx s = .error f → f = .typeAssertion) ∧
      ((∃ k ins m, s.Instructions[k]? = some ins ∧
          (∀ J ∈ s.Instructions.take k, isSplitOp J.Op = false) ∧ mergeForm ins = some m) →
        ∃ s1, parallelRewrite dup rds mcpu ctx s = .ok s1) ∧
      ((∀ J ∈ s.Instructions, isSplitOp J.Op = false) → 2 ≤ s.Instructions.length →
        ∃ s1, parallelRewrite dup rds mcpu ctx s = .ok s1) ∧
      (s.Instructions = [] →
        (mcpu = 0 → parallelRewrite dup rds mcpu ctx s = .error .indexOutOfRange) ∧
          (0 < mcpu → parallelRewrite dup rds mcpu ctx s = .error .sliceBounds)) ∧
      (∀ x, s.Instructions = [x] → isSplitOp x.Op = false →
        parallelRewrite dup rds mcpu ctx s = .error .indexOutOfRange) := by
  have hplain : (∀ J ∈ s.Instructions, isSplitOp J.Op = false) → 2 ≤ s.Instructions.length →
      ∃ s1, parallelRewrite dup rds mcpu ctx s = .ok s1 := by
    intro hall hlen
    obtain ⟨a, body, sink, hshape⟩ := two_or_more_shape s.Instructions hlen
    obtain ⟨ss0, _, _, h⟩ := parallelRewrite_noSplit dup rds mcpu ctx s a sink body hshape hall hr
    exact ⟨_, h⟩
  refine ⟨?_, ?_, hplain, ?_, ?_⟩
  · intro hcond f hf
    rcases first_split_decomp s.Instructions with hall | ⟨front, ins, back, hins, hfront, hsplit⟩
    · rcases hcond with ⟨J, hJ, hJs⟩ | hlen
      · rw [hall J hJ] at hJs; cases hJs
      · obtain ⟨s1, hs1⟩ := hplain hall hlen
        rw [hs1] at hf; cases hf
    · cases hm : mergeForm ins with
      | some m =>
        obtain ⟨ss0, _, _, h⟩ := parallelRewrite_split dup rds mcpu ctx s front back ins m
          hins hfront hm hr
        rw [h] at hf; cases hf
      | none =>
        obtain ⟨ss0, h0, _, _⟩ := newSiblings_ok s rds mcpu 0 (by omega)
        have h1 : rewriteLoop dup 0 s.Instructions
            { flg := false, Instructions := s.Instructions, ss := ss0 } =
            .error .typeAssertion := by
          rw [hins]
          exact rewriteLoop_illTyped dup front back ins _ rfl hfront hsplit hm
        rw [parallelRewrite_loop_error dup rds mcpu ctx s ss0 _ h0 h1] at hf
        simp only [Except.error.injEq] at hf
        exact hf.symm
  · rintro ⟨k, ins, m, hk, hfirst, hm⟩
    obtain ⟨ss0, _, _, h⟩ := parallelRewrite_split dup rds mcpu ctx s _ _ ins m
      (list_split_at s.Instructions k ins hk) hfirst hm hr
    exact ⟨_, h⟩
  · intro hins
    exact parallelRewrite_empty dup rds mcpu ctx s hins hr
  · intro x hins hx
    exact parallelRewrite_single dup rds mcpu ctx s x hins hx hr

theorem parallelRewrite_bounds_witness :
    (∃ s1, parallelRewrite id [10, 11] 2 5 exPlainScope = .ok s1) ∧
      parallelRewrite id [10, 11] 2 5 exEmptyScope = .error .sliceBounds ∧
      parallelRewrite id [10, 11] 0 5 exEmptyScope = .error .indexOutOfRange ∧
      parallelRewrite id [10, 11] 2 5 exSinkScope = .error .indexOutOfRange :=
  ⟨(parallelRewrite_bounds id [10, 11] 2 5 exPlainScope (by decide)).2.2.1 (by decide)
      (by decide),
    ((parallelRewrite_bounds id [10, 11] 2 5 exEmptyScope (by decide)).2.2.2.1 rfl).2
      (by decide),
    ((parallelRewrite_bounds id [10, 11] 0 5 exEmptyScope (by decide)).2.2.2.1 rfl).1 rfl,
    (parallelRewrite_bounds id [10, 11] 2 5 exSinkScope (by decide)).2.2.2.2 exOutput rfl
      rfl⟩

end Compile2

namespace Replay

/-! ## Maps -/

theorem mapGet_mapSet_self {κ ν : Type} [DecidableEq κ] (m : GoMap κ ν) (k : κ) (v : ν) :
    mapGet (mapSet m k v) k = some v := by
  induction m with
  | nil => simp [mapSet, mapGet]
  | cons p rest ih =>
    rcases p with ⟨k1, v1⟩
    by_cases h : k1 = k
    · simp [mapSet, mapGet, h]
    · simp [mapSet, mapGet, h, ih]

theorem mapGet_mapSet_other {κ ν : Type} [DecidableEq κ] (m : GoMap κ ν) (k k2 : κ) (v : ν)
    (hk : k2 ≠ k) : mapGet (mapSet m k v) k2 = mapGet m k2 := by
  induction m with
  | nil =>
    have : ¬ k = k2 := fun h => hk h.symm
    simp [mapSet, mapGet, this]
  | cons p rest ih =>
    rcases p with ⟨k1, v1⟩
    by_cases h : k1 = k
    · subst h
      have : ¬ k1 = k2 := fun h => hk h.symm
      simp [mapSet, mapGet, this]
    · by_cases h2 : k1 = k2
      · subst h2
        simp [mapSet, mapGet, h]
      · simp [mapSet, mapGet, h, h2, ih]

theorem mem_mapSet {κ ν : Type} [DecidableEq κ] (m : GoMap κ ν) (k : κ) (v : ν) (p : κ × ν)
    (hp : p ∈ mapSet m k v) : p = (k, v) ∨ p ∈ m := by
  induction m with
  | nil =>
    simp only [mapSet, List.mem_singleton] at hp
    exact Or.inl hp
  | cons q rest ih =>
    rcases q with ⟨k1, v1⟩
    by_cases h : k1 = k
    · simp only [mapSet, h, if_true, List.mem_cons] at hp
      rcases hp with hp | hp
      · exact Or.inl hp
      · exact Or.inr (List.mem_cons_of_mem _ hp)
    · simp only [mapSet, h, if_false, List.mem_cons] at hp
      rcases hp with hp | hp
      · exact Or.inr (by rw [hp]; exact List.mem_cons_self _ _)
      · rcases ih hp with h1 | h1
        · exact Or.inl h1
        · exact Or.inr (List.mem_cons_of_mem _ h1)

/-! ## Insertion into a checkpoint chain -/

theorem insertTable_ok (f : tableFile) :
    ∀ (l : List tableFile), Descending l → (∀ g ∈ l, g.version ≠ f.version) →
      ∃ l1, insertTable f l = .ok l1 ∧ Descending l1 ∧ l1.Perm (f :: l) ∧ l1 ≠ [] := by
  intro l
  induction l with
  | nil =>
    intro _ _
    exact ⟨[f], rfl, List.pairwise_singleton _ _, List.Perm.refl _, by simp⟩
  | cons curr next ih =>
    intro hdesc hne
    have hcurr : curr.version ≠ f.version := hne curr (List.mem_cons_self _ _)
    rcases List.pairwise_cons.mp hdesc with ⟨hhead, htail⟩
    by_cases hlt : curr.version < f.version
    · refine ⟨f :: curr :: next, by simp [insertTable, hlt], ?_, List.Perm.refl _, by simp⟩
      refine List.pairwise_cons.mpr ⟨?_, hdesc⟩
      intro g hg
      rcases List.mem_cons.mp hg with h | h
      · subst h; exact hlt
      · have := hhead g h
        omega
    · have hgt : curr.version > f.version := by omega
      obtain ⟨l1, hl1, hd1, hp1, _⟩ := ih htail (fun g hg => hne g (List.mem_cons_of_mem _ hg))
      refine ⟨curr :: l1, by simp [insertTable, hlt, hgt, hl1], ?_, ?_, by simp⟩
      · refine List.pairwise_cons.mpr ⟨?_, hd1⟩
        intro g hg
        rcases List.mem_cons.mp (hp1.subset hg) with h | h
        · subst h; exact hgt
        · exact hhead g h
      · exact (List.Perm.cons curr hp1).trans (List.Perm.swap f curr next)

theorem insertTable_dup (f : tableFile) :
    ∀ (l : List tableFile), Descending l → (∃ g ∈ l, g.version = f.version) →
      insertTable f l = .error .logicError := by
  intro l
  induction l with
  | nil => intro _ h; obtain ⟨g, hg, _⟩ := h; simp at hg
  | cons curr next ih =>
    intro hdesc hex
    rcases List.pairwise_cons.mp hdesc with ⟨hhead, htail⟩
    obtain ⟨g, hg, hgv⟩ := hex
    rcases List.mem_cons.mp hg with h | h
    · subst h
      simp [insertTable, hgv]
    · have hlt := hhead g h
      have hnlt : ¬ curr.version < f.version := by omega
      have hgt : curr.version > f.version := by omega
      simp [insertTable, hnlt, hgt, ih htail ⟨g, h, hgv⟩]

theorem insertTable_error (f : tableFile) :
    ∀ (l : List tableFile) (p : Panic), insertTable f l = .error p →
      p = .logicError ∧ ∃ g ∈ l, g.version = f.version := by
  intro l
  induction l with
  | nil => intro p h; simp [insertTable] at h
  | cons curr next ih =>
    intro p h
    by_cases hlt : curr.version < f.version
    · simp [insertTable, hlt] at h
    · by_cases hgt : curr.version > f.version
      · simp only [insertTable, hlt, hgt, if_false, if_true] at h
        cases hrec : insertTable f next with
        | ok chain => rw [hrec] at h; cases h
        | error q =>
          rw [hrec] at h
          simp only [Except.error.injEq] at h
          subst h
          obtain ⟨hq, g, hg, hgv⟩ := ih q hrec
          exact ⟨hq, g, List.mem_cons_of_mem _ hg, hgv⟩
      · simp only [insertTable, hlt, hgt, if_false, Except.error.injEq] at h
        exact ⟨h.symm, curr, List.mem_cons_self _ _, by omega⟩

theorem insertInfo_ok (f : infoFile) :
    ∀ (l : List infoFile), DescendingInfo l → (∀ g ∈ l, g.version ≠ f.version) →
      ∃ l1, insertInfo f l = .ok l1 ∧ DescendingInfo l1 ∧ l1.Perm (f :: l) := by
  intro l
  induction l with
  | nil =>
    intro _ _
    exact ⟨[f], rfl, List.pairwise_singleton _ _, List.Perm.refl _⟩
  | cons curr next ih =>
    intro hdesc hne
    have hcurr : curr.version ≠ f.version := hne curr (List.mem_cons_self _ _)
    rcases List.pairwise_cons.mp hdesc with ⟨hhead, htail⟩
    by_cases hgt : curr.version > f.version
    · obtain ⟨l1, hl1, hd1, hp1⟩ := ih htail (fun g hg => hne g (List.mem_cons_of_mem _ hg))
      refine ⟨curr :: l1, by simp [insertInfo, hgt, hl1], ?_, ?_⟩
      · refine List.pairwise_cons.mpr ⟨?_, hd1⟩
        intro g hg
        rcases List.mem_cons.mp (hp1.subset hg) with h | h
        · subst h; exact hgt
        · exact hhead g h
      · exact (List.Perm.cons curr hp1).trans (List.Perm.swap f curr next)
    · have hlt : curr.version < f.version := by omega
      refine ⟨f :: curr :: next, by simp [insertInfo, hgt, hlt], ?_, List.Perm.refl _⟩
      refine List.pairwise_cons.mpr ⟨?_, hdesc⟩
      intro g hg
      rcases List.mem_cons.mp hg with h | h
      · subst h; exact hlt
      · have := hhead g h
        omega

theorem insertInfo_dup (f : infoFile) :
    ∀ (l : List infoFile), DescendingInfo l → (∃ g ∈ l, g.version = f.version) →
      insertInfo f l = .error .logicError := by
  intro l
  induction l with
  | nil => intro _ h; obtain ⟨g, hg, _⟩ := h; simp at hg
  | cons curr next ih =>
    intro hdesc hex
    rcases List.pairwise_cons.mp hdesc with ⟨hhead, htail⟩
    obtain ⟨g, hg, hgv⟩ := hex
    rcases List.mem_cons.mp hg with h | h
    · subst h
      simp [insertInfo, hgv]
    · have hlt := hhead g h
      have hgt : curr.version > f.version := by omega
      simp [insertInfo, hgt, ih htail ⟨g, h, hgv⟩]

theorem insertInfo_error (f : infoFile) :
    ∀ (l : List infoFile) (p : Panic), insertInfo f l = .error p →
      p = .logicError ∧ ∃ g ∈ l, g.version = f.version := by
  intro l
  induction l with
  | nil => intro p h; simp [insertInfo] at h
  | cons curr next ih =>
    intro p h
    by_cases hgt : curr.version > f.version
    · simp only [insertInfo, hgt, if_true] at h
      cases hrec : insertInfo f next with
      | ok chain => rw [hrec] at h; cases h
      | error q =>
        rw [hrec] at h
        simp only [Except.error.injEq] at h
        subst h
        obtain ⟨hq, g, hg, hgv⟩ := ih q hrec
        exact ⟨hq, g, List.mem_cons_of_mem _ hg, hgv⟩
    · by_cases hlt : curr.version < f.version
      · simp [insertInfo, hgt, hlt] at h
      · simp only [insertInfo, hgt, hlt, if_false, Except.error.injEq] at h
        exact ⟨h.symm, curr, List.mem_cons_self _ _, by omega⟩

end Replay

namespace Replay

/-! ## addTable and addInfo on the handle -/

theorem chain_mapSet_self (h : metaHandle) (tid : Nat) (l : List tableFile) :
    chain { h with tables := mapSet h.tables tid l } tid = l := by
  simp [chain, mapGet_mapSet_self]

theorem chain_mapSet_other (h : metaHandle) (tid tid2 : Nat) (l : List tableFile)
    (hne : tid2 ≠ tid) : chain { h with tables := mapSet h.tables tid l } tid2 = chain h tid2 := by
  simp [chain, mapGet_mapSet_other _ _ _ _ hne]

/-- What `addTable` computes: the chain of the table goes through
`insertTable`, everything else stays. -/
theorem addTable_eq (h : metaHandle) (f : tableFile) :
    addTable h f =
      match insertTable f (chain h f.id) with
      | .ok l => .ok { h with tables := mapSet h.tables f.id l }
      | .error p => .error p := by
  unfold addTable chain
  cases hget : mapGet h.tables f.id with
  | none => simp [insertTable]
  | some l =>
    cases l with
    | nil => simp [insertTable]
    | cons head next => simp

theorem addTable_ok (h : metaHandle) (f : tableFile) (hdesc : Descending (chain h f.id))
    (hne : ∀ g ∈ chain h f.id, g.version ≠ f.version) :
    ∃ h1, addTable h f = .ok h1 ∧ Descending (chain h1 f.id) ∧
      (chain h1 f.id).Perm (f :: chain h f.id) ∧
      (∀ tid, tid ≠ f.id → chain h1 tid = chain h tid) ∧ h1.infos = h.infos ∧
      h1.others = h.others ∧ h1.files = h.files := by
  obtain ⟨l1, hl1, hd1, hp1, _⟩ := insertTable_ok f (chain h f.id) hdesc hne
  refine ⟨{ h with tables := mapSet h.tables f.id l1 }, ?_, ?_, ?_, ?_, rfl, rfl, rfl⟩
  · rw [addTable_eq, hl1]
  · rw [chain_mapSet_self]; exact hd1
  · rw [chain_mapSet_self]; exact hp1
  · intro tid htid
    exact chain_mapSet_other h f.id tid l1 htid

theorem addTable_dup (h : metaHandle) (f : tableFile) (hdesc : Descending (chain h f.id))
    (hex : ∃ g ∈ chain h f.id, g.version = f.version) :
    addTable h f = .error .logicError := by
  rw [addTable_eq, insertTable_dup f _ hdesc hex]

theorem addTable_error (h : metaHandle) (f : tableFile) (p : Panic)
    (herr : addTable h f = .error p) :
    p = .logicError ∧ ∃ g ∈ chain h f.id, g.version = f.version := by
  rw [addTable_eq] at herr
  cases hins : insertTable f (chain h f.id) with
  | ok l => rw [hins] at herr; cases herr
  | error q =>
    rw [hins] at herr
    simp only [Except.error.injEq] at herr
    subst herr
    exact insertTable_error f _ q hins

theorem addInfo_ok (h : metaHandle) (f : infoFile) (hdesc : DescendingInfo h.infos)
    (hne : ∀ g ∈ h.infos, g.version ≠ f.version) :
    ∃ h1, addInfo h f = .ok h1 ∧ DescendingInfo h1.infos ∧ h1.infos.Perm (f :: h.infos) ∧
      h1.tables = h.tables ∧ h1.others = h.others ∧ h1.files = h.files := by
  obtain ⟨l1, hl1, hd1, hp1⟩ := insertInfo_ok f h.infos hdesc hne
  exact ⟨{ h with infos := l1 }, by simp [addInfo, hl1], hd1, hp1, rfl, rfl, rfl⟩

theorem addInfo_dup (h : metaHandle) (f : infoFile) (hdesc : DescendingInfo h.infos)
    (hex : ∃ g ∈ h.infos, g.version = f.version) : addInfo h f = .error .logicError := by
  simp [addInfo, insertInfo_dup f _ hdesc hex]

theorem addInfo_error (h : metaHandle) (f : infoFile) (p : Panic)
    (herr : addInfo h f = .error p) :
    p = .logicError ∧ ∃ g ∈ h.infos, g.version = f.version := by
  unfold addInfo at herr
  cases hins : insertInfo f h.infos with
  | ok l => rw [hins] at herr; cases herr
  | error q =>
    rw [hins] at herr
    simp only [Except.error.injEq] at herr
    subst herr
    exact insertInfo_error f _ q hins

theorem chain_of_tables_eq (h h1 : metaHandle) (ht : h1.tables = h.tables) (tid : Nat) :
    chain h1 tid = chain h tid := by
  simp [chain, ht]

/-- A successful insertion keeps the invariant of the version lists. -/
theorem addFile_inv (h h1 : metaHandle) (x : MetaFile) (hinv : Inv h)
    (hok : addFile h x = .ok h1) : Inv h1 := by
  cases x with
  | table f =>
    simp only [addFile] at hok
    have hne : ∀ g ∈ chain h f.id, g.version ≠ f.version := by
      intro g hg hgv
      rw [addTable_dup h f (hinv.1 f.id).1 ⟨g, hg, hgv⟩] at hok
      cases hok
    obtain ⟨h2, h2ok, hd, hp, hother, hinfo, _, _⟩ := addTable_ok h f (hinv.1 f.id).1 hne
    rw [hok] at h2ok
    simp only [Except.ok.injEq] at h2ok
    subst h2ok
    refine ⟨?_, by rw [hinfo]; exact hinv.2⟩
    intro tid
    by_cases htid : tid = f.id
    · subst htid
      refine ⟨hd, ?_⟩
      intro g hg
      rcases List.mem_cons.mp (hp.subset hg) with hgf | hgl
      · rw [hgf]
      · exact (hinv.1 f.id).2 g hgl
    · rw [hother tid htid]
      exact hinv.1 tid
  | info f =>
    simp only [addFile] at hok
    have hne : ∀ g ∈ h.infos, g.version ≠ f.version := by
      intro g hg hgv
      rw [addInfo_dup h f hinv.2 ⟨g, hg, hgv⟩] at hok
      cases hok
    obtain ⟨h2, h2ok, hd, _, htab, _, _⟩ := addInfo_ok h f hinv.2 hne
    rw [hok] at h2ok
    simp only [Except.ok.injEq] at h2ok
    subst h2ok
    refine ⟨?_, hd⟩
    intro tid
    rw [chain_of_tables_eq _ _ htab tid]
    exact hinv.1 tid

theorem forEach_cons_ok {α : Type} (step : metaHandle → α → Except Panic metaHandle)
    (x : α) (xs : List α) (h h1 : metaHandle) (hstep : step h x = .ok h1) :
    forEach step (x :: xs) h = forEach step xs h1 := by
  simp [forEach, hstep]

theorem addFiles_inv : ∀ (fs : List MetaFile) (h h1 : metaHandle), Inv h →
    addFiles fs h = .ok h1 → Inv h1 := by
  intro fs
  induction fs with
  | nil =>
    intro h h1 hinv hok
    simp only [addFiles, forEach, Except.ok.injEq] at hok
    subst hok; exact hinv
  | cons x xs ih =>
    intro h h1 hinv hok
    cases hstep : addFile h x with
    | error p => simp [addFiles, forEach, hstep] at hok
    | ok h2 =>
      rw [addFiles, forEach_cons_ok addFile x xs h h2 hstep] at hok
      exact ih h2 h1 (addFile_inv h h2 x hinv hstep) hok

theorem inv_emptyHandle (workDir : String) : Inv (emptyHandle workDir) := by
  refine ⟨?_, List.Pairwise.nil⟩
  intro tid
  have : chain (emptyHandle workDir) tid = [] := rfl
  rw [this]
  exact ⟨List.Pairwise.nil, by simp⟩

/-- Insertion of a sequence with pairwise distinct keys, none of them in the
handle yet: it completes, keeps the invariant, and every chain holds the old
files together with the new ones of its table. -/
theorem addFiles_spec : ∀ (fs : List MetaFile) (h : metaHandle), Inv h →
    (fs.map MetaFile.key).Nodup →
    (∀ f, MetaFile.table f ∈ fs → ∀ g ∈ chain h f.id, g.version ≠ f.version) →
    (∀ f, MetaFile.info f ∈ fs → ∀ g ∈ h.infos, g.version ≠ f.version) →
    ∃ h1, addFiles fs h = .ok h1 ∧ Inv h1 ∧
      (∀ tid, (chain h1 tid).Perm (tableFilesOf tid fs ++ chain h tid)) ∧
      h1.infos.Perm (infoFilesOf fs ++ h.infos) := by
  intro fs
  induction fs with
  | nil =>
    intro h hinv _ _ _
    exact ⟨h, rfl, hinv, fun tid => by simp [tableFilesOf], by simp [infoFilesOf]⟩
  | cons x xs ih =>
    intro h hinv hnodup htab hinfo
    rw [List.map_cons, List.nodup_cons] at hnodup
    obtain ⟨hx, hxs⟩ := hnodup
    cases x with
    | table f =>
      obtain ⟨h2, h2ok, hd, hp, hother, hinfos, _, _⟩ := addTable_ok h f (hinv.1 f.id).1
        (htab f (List.mem_cons_self _ _))
      have hinv2 : Inv h2 := addFile_inv h h2 (.table f) hinv h2ok
      obtain ⟨h1, h1ok, hinv1, hperm, hpinfo⟩ := ih h2 hinv2 hxs
        (by
          intro f2 hf2 g hg hgv
          by_cases hid : f2.id = f.id
          · rw [hid] at hg
            rcases List.mem_cons.mp (hp.subset hg) with hgf | hgl
            · apply hx
              refine List.mem_map.mpr ⟨.table f2, hf2, ?_⟩
              simp [MetaFile.key, hid, ← hgv, hgf]
            · rw [← hid] at hgl
              exact htab f2 (List.mem_cons_of_mem _ hf2) g hgl hgv
          · rw [hother f2.id hid] at hg
            exact htab f2 (List.mem_cons_of_mem _ hf2) g hg hgv)
        (by
          intro f2 hf2 g hg
          rw [hinfos] at hg
          exact hinfo f2 (List.mem_cons_of_mem _ hf2) g hg)
      refine ⟨h1, ?_, hinv1, ?_, ?_⟩
      · rw [addFiles, forEach_cons_ok addFile (.table f) xs h h2 h2ok]; exact h1ok
      · intro tid
        refine (hperm tid).trans ?_
        by_cases htid : f.id = tid
        · subst htid
          simp only [tableFilesOf, if_true]
          refine (List.Perm.append_left _ hp).trans ?_
          simp only [List.cons_append]
          exact List.perm_middle
        · have htid2 : tid ≠ f.id := fun hh => htid hh.symm
          simp only [tableFilesOf, htid, if_false]
          rw [hother tid htid2]
      · rw [hinfos] at hpinfo
        simpa [infoFilesOf] using hpinfo
    | info f =>
      obtain ⟨h2, h2ok, hd, hp, htabs, _, _⟩ := addInfo_ok h f hinv.2
        (hinfo f (List.mem_cons_self _ _))
      have hinv2 : Inv h2 := addFile_inv h h2 (.info f) hinv h2ok
      obtain ⟨h1, h1ok, hinv1, hperm, hpinfo⟩ := ih h2 hinv2 hxs
        (by
          intro f2 hf2 g hg
          rw [chain_of_tables_eq _ _ htabs] at hg
          exact htab f2 (List.mem_cons_of_mem _ hf2) g hg)
        (by
          intro f2 hf2 g hg hgv
          rcases List.mem_cons.mp (hp.subset hg) with hgf | hgl
          · apply hx
            refine List.mem_map.mpr ⟨.info f2, hf2, ?_⟩
            simp [MetaFile.key, ← hgv, hgf]
          · exact hinfo f2 (List.mem_cons_of_mem _ hf2) g hgl hgv)
      refine ⟨h1, ?_, hinv1, ?_, ?_⟩
      · rw [addFiles, forEach_cons_ok addFile (.info f) xs h h2 h2ok]; exact h1ok
      · intro tid
        refine (hperm tid).trans ?_
        rw [chain_of_tables_eq _ _ htabs]
        simp [tableFilesOf]
      · refine hpinfo.trans ?_
        simp only [infoFilesOf, List.cons_append]
        exact (List.Perm.append_left _ hp).trans List.perm_middle

theorem tableFilesOf_perm (tid : Nat) (fs gs : List MetaFile) (hp : fs.Perm gs) :
    (tableFilesOf tid fs).Perm (tableFilesOf tid gs) := by
  induction hp with
  | nil => exact List.Perm.refl _
  | cons x _ ih =>
    cases x with
    | table f =>
      by_cases h : f.id = tid
      · simp only [tableFilesOf, h, if_true]; exact List.Perm.cons _ ih
      · simp only [tableFilesOf, h, if_false]; exact ih
    | info f => simpa [tableFilesOf] using ih
  | swap x y l =>
    cases x with
    | table f =>
      cases y with
      | table g =>
        by_cases h : f.id = tid <;> by_cases h2 : g.id = tid <;>
          simp [tableFilesOf, h, h2, List.Perm.swap]
      | info g => simp [tableFilesOf]
    | info f =>
      cases y with
      | table g => simp [tableFilesOf]
      | info g => simp [tableFilesOf]
  | trans _ _ ih1 ih2 => exact ih1.trans ih2

theorem infoFilesOf_perm (fs gs : List MetaFile) (hp : fs.Perm gs) :
    (infoFilesOf fs).Perm (infoFilesOf gs) := by
  induction hp with
  | nil => exact List.Perm.refl _
  | cons x _ ih =>
    cases x with
    | table f => simpa [infoFilesOf] using ih
    | info f => simp only [infoFilesOf]; exact List.Perm.cons _ ih
  | swap x y l =>
    cases x <;> cases y <;> simp [infoFilesOf, List.Perm.swap]
  | trans _ _ ih1 ih2 => exact ih1.trans ih2

theorem descending_perm_eq (l1 l2 : List tableFile) (hp : l1.Perm l2) (h1 : Descending l1)
    (h2 : Descending l2) : l1 = l2 := by
  haveI : IsAntisymm tableFile (fun a b => a.version > b.version) :=
    ⟨fun a b hab hba => absurd hab (by omega)⟩
  exact List.eq_of_perm_of_sorted hp h1 h2

theorem descendingInfo_perm_eq (l1 l2 : List infoFile) (hp : l1.Perm l2)
    (h1 : DescendingInfo l1) (h2 : DescendingInfo l2) : l1 = l2 := by
  haveI : IsAntisymm infoFile (fun a b => a.version > b.version) :=
    ⟨fun a b hab hba => absurd hab (by omega)⟩
  exact List.eq_of_perm_of_sorted hp h1 h2

end Replay

namespace Replay

/-! ## Version lists after replay -/

theorem descending_nodup (l : List tableFile) (h : Descending l) :
    (l.map fun f => f.version).Nodup := by
  unfold List.Nodup
  rw [List.pairwise_map]
  exact h.imp (fun hab => by omega)

theorem descendingInfo_nodup (l : List infoFile) (h : DescendingInfo l) :
    (l.map fun f => f.version).Nodup := by
  unfold List.Nodup
  rw [List.pairwise_map]
  exact h.imp (fun hab => by omega)

/-- C11: table checkpoint files with pairwise distinct `(table_id, version)`
and info checkpoint files with pairwise distinct versions, inserted in any
order through `addTable` / `addInfo` into the empty handle, are all accepted;
afterwards each table's list (and the info list) is strictly descending in
version, has no duplicate version and holds exactly the inserted files of
that table; any other order of the same files yields the same lists. -/
theorem addFiles_descending (workDir : String) (fs : List MetaFile)
    (hkeys : (fs.map MetaFile.key).Nodup) :
    ∃ h, addFiles fs (emptyHandle workDir) = .ok h ∧
      (∀ tid, Descending (chain h tid) ∧ ((chain h tid).map fun f => f.version).Nodup ∧
        (chain h tid).Perm (tableFilesOf tid fs)) ∧
      DescendingInfo h.infos ∧ (h.infos.map fun f => f.version).Nodup ∧
      h.infos.Perm (infoFilesOf fs) ∧
      ∀ gs : List MetaFile, gs.Perm fs →
        ∃ h2, addFiles gs (emptyHandle workDir) = .ok h2 ∧
          (∀ tid, chain h2 tid = chain h tid) ∧ h2.infos = h.infos := by
  have hstart : ∀ (gs : List MetaFile), (gs.map MetaFile.key).Nodup →
      ∃ h1, addFiles gs (emptyHandle workDir) = .ok h1 ∧ Inv h1 ∧
        (∀ tid, (chain h1 tid).Perm (tableFilesOf tid gs)) ∧ h1.infos.Perm (infoFilesOf gs) := by
    intro gs hgs
    obtain ⟨h1, hok, hinv, hperm, hpinfo⟩ := addFiles_spec gs (emptyHandle workDir)
      (inv_emptyHandle workDir) hgs
      (fun f _ g hg => by simp [chain, emptyHandle, mapGet] at hg)
      (fun f _ g hg => by simp [emptyHandle] at hg)
    refine ⟨h1, hok, hinv, ?_, ?_⟩
    · intro tid
      have hnil : chain (emptyHandle workDir) tid = [] := rfl
      simpa [hnil] using hperm tid
    · simpa [emptyHandle] using hpinfo
  obtain ⟨h, hok, hinv, hperm, hpinfo⟩ := hstart fs hkeys
  refine ⟨h, hok, ?_, hinv.2, descendingInfo_nodup _ hinv.2, hpinfo, ?_⟩
  · intro tid
    exact ⟨(hinv.1 tid).1, descending_nodup _ (hinv.1 tid).1, hperm tid⟩
  · intro gs hgs
    have hgkeys : (gs.map MetaFile.key).Nodup := ((hgs.map MetaFile.key).nodup_iff).mpr hkeys
    obtain ⟨h2, hok2, hinv2, hperm2, hpinfo2⟩ := hstart gs hgkeys
    refine ⟨h2, hok2, ?_, ?_⟩
    · intro tid
      exact descending_perm_eq _ _
        (((hperm2 tid).trans (tableFilesOf_perm tid gs fs hgs)).trans (hperm tid).symm)
        (hinv2.1 tid).1 (hinv.1 tid).1
    · exact descendingInfo_perm_eq _ _
        ((hpinfo2.trans (infoFilesOf_perm gs fs hgs)).trans hpinfo.symm) hinv2.2 hinv.2

theorem addFiles_descending_witness :
    addFiles (exTableFiles ++ exInfoFiles) (emptyHandle "W") = .ok exHandle ∧
      ∃ h, addFiles (exTableFiles ++ exInfoFiles) (emptyHandle "W") = .ok h ∧
        (∀ tid, Descending (chain h tid) ∧ ((chain h tid).map fun f => f.version).Nodup ∧
          (chain h tid).Perm (tableFilesOf tid (exTableFiles ++ exInfoFiles))) ∧
        DescendingInfo h.infos ∧ (h.infos.map fun f => f.version).Nodup ∧
        h.infos.Perm (infoFilesOf (exTableFiles ++ exInfoFiles)) ∧
        ∀ gs : List MetaFile, gs.Perm (exTableFiles ++ exInfoFiles) →
          ∃ h2, addFiles gs (emptyHandle "W") = .ok h2 ∧
            (∀ tid, chain h2 tid = chain h tid) ∧ h2.infos = h.infos :=
  ⟨rfl, addFiles_descending "W" (exTableFiles ++ exInfoFiles) (by decide)⟩

/-- C12: on a handle built only by `addTable` / `addInfo`, `addTable(f)`
panics, and then with the logic error, exactly if a checkpoint with the same
table id and the same version is already in that table's list; `addInfo(f)`
panics exactly if an info checkpoint with the same version is already in the
info list; when there is no such file the call returns and the file is in the
list. -/
theorem add_panics_iff_duplicate (workDir : String) (fs : List MetaFile) (h : metaHandle)
    (hbuilt : addFiles fs (emptyHandle workDir) = .ok h) (f : tableFile) (i : infoFile) :
    ((∃ p, addTable h f = .error p) ↔
        ∃ g ∈ chain h f.id, g.id = f.id ∧ g.version = f.version) ∧
      (∀ p, addTable h f = .error p → p = .logicError) ∧
      ((¬ ∃ g ∈ chain h f.id, g.id = f.id ∧ g.version = f.version) →
        ∃ h1, addTable h f = .ok h1 ∧ (chain h1 f.id).Perm (f :: chain h f.id) ∧
          Descending (chain h1 f.id)) ∧
      ((∃ p, addInfo h i = .error p) ↔ ∃ g ∈ h.infos, g.version = i.version) ∧
      (∀ p, addInfo h i = .error p → p = .logicError) ∧
      ((¬ ∃ g ∈ h.infos, g.version = i.version) →
        ∃ h1, addInfo h i = .ok h1 ∧ h1.infos.Perm (i :: h.infos) ∧
          DescendingInfo h1.infos) := by
  have hinv : Inv h := addFiles_inv fs _ h (inv_emptyHandle workDir) hbuilt
  refine ⟨⟨?_, ?_⟩, ?_, ?_, ⟨?_, ?_⟩, ?_, ?_⟩
  · rintro ⟨p, hp⟩
    obtain ⟨_, g, hg, hgv⟩ := addTable_error h f p hp
    exact ⟨g, hg, (hinv.1 f.id).2 g hg, hgv⟩
  · rintro ⟨g, hg, _, hgv⟩
    exact ⟨.logicError, addTable_dup h f (hinv.1 f.id).1 ⟨g, hg, hgv⟩⟩
  · intro p hp
    exact (addTable_error h f p hp).1
  · intro hno
    obtain ⟨h1, hok, hd, hp, _⟩ := addTable_ok h f (hinv.1 f.id).1
      (fun g hg hgv => hno ⟨g, hg, (hinv.1 f.id).2 g hg, hgv⟩)
    exact ⟨h1, hok, hp, hd⟩
  · rintro ⟨p, hp⟩
    exact (addInfo_error h i p hp).2
  · rintro ⟨g, hg, hgv⟩
    exact ⟨.logicError, addInfo_dup h i hinv.2 ⟨g, hg, hgv⟩⟩
  · intro p hp
    exact (addInfo_error h i p hp).1
  · intro hno
    obtain ⟨h1, hok, hd, hp, _⟩ := addInfo_ok h i hinv.2
      (fun g hg hgv => hno ⟨g, hg, hgv⟩)
    exact ⟨h1, hok, hp, hd⟩

theorem add_panics_iff_duplicate_witness :
    addTable exHandle ⟨"W/meta/tbl-1-v2.bak", 2, 1⟩ = .error .logicError ∧
      (((∃ p, addTable exHandle ⟨"W/meta/tbl-1-v2.bak", 2, 1⟩ = .error p) ↔
        ∃ g ∈ chain exHandle 1, g.id = 1 ∧ g.version = 2) ∧
      (∀ p, addTable exHandle ⟨"W/meta/tbl-1-v2.bak", 2, 1⟩ = .error p → p = .logicError) ∧
      ((¬ ∃ g ∈ chain exHandle 1, g.id = 1 ∧ g.version = 2) →
        ∃ h1, addTable exHandle ⟨"W/meta/tbl-1-v2.bak", 2, 1⟩ = .ok h1 ∧
          (chain h1 1).Perm (⟨"W/meta/tbl-1-v2.bak", 2, 1⟩ :: chain exHandle 1) ∧
          Descending (chain h1 1)) ∧
      ((∃ p, addInfo exHandle ⟨"W/meta/info-v3", 3⟩ = .error p) ↔
        ∃ g ∈ exHandle.infos, g.version = 3) ∧
      (∀ p, addInfo exHandle ⟨"W/meta/info-v3", 3⟩ = .error p → p = .logicError) ∧
      ((¬ ∃ g ∈ exHandle.infos, g.version = 3) →
        ∃ h1, addInfo exHandle ⟨"W/meta/info-v3", 3⟩ = .ok h1 ∧
          h1.infos.Perm (⟨"W/meta/info-v3", 3⟩ :: exHandle.infos) ∧
          DescendingInfo h1.infos)) :=
  ⟨rfl, add_panics_iff_duplicate "W" (exTableFiles ++ exInfoFiles) exHandle rfl
    ⟨"W/meta/tbl-1-v2.bak", 2, 1⟩ ⟨"W/meta/info-v3", 3⟩⟩

end Replay

namespace Replay

/-! ## Data files and unclassified files -/

/-- C13 (evaluation at the failing input): for the block file `1_2_3.blk` in
the data directory `W/data`, `addDataFile` hands the bare file name to
`addBlock`, so the bucket of segment `(1, 2)` receives `1_2_3.blk` and not the
joined path `W/data/1_2_3.blk`. -/
theorem addDataFile_block_bare_name :
    pathJoin (emptyHandle "W").dataDir "1_2_3.blk" = "W/data/1_2_3.blk" ∧
      ∃ h1, addDataFile exParsers (emptyHandle "W") "1_2_3.blk" = .ok h1 ∧
        mapGet (tableEntry h1 1).unsortedfiles ⟨1, 2, 0⟩ =
          some ⟨⟨1, 2, 0⟩, ["1_2_3.blk"], [⟨1, 2, 3⟩]⟩ :=
  ⟨by decide, _, rfl, by decide⟩

/-- C14 (counterexample): `tbl-x` is classified as a table checkpoint and
`bad.blk` as a block file, but their keys do not parse; `addMetaFile` and
`addDataFile` panic on them instead of putting them into `others`. -/
theorem unparseable_key_counterexample :
    addMetaFile exParsers (emptyHandle "W") "tbl-x" =
        .error (.parse "invalid table checkpoint name") ∧
      addDataFile exParsers (emptyHandle "W") "bad.blk" =
        .error (.parse "invalid block file name") :=
  ⟨rfl, rfl⟩

/-- C14 (amended): a file name that the filename-level classification rejects
(neither table nor info checkpoint in the meta directory, neither block nor
segment file in the data directory) never makes `addMetaFile` / `addDataFile`
panic: its directory-joined path is appended to `others` and no other field
of the handle changes.  A name that is classified as table checkpoint, block
or segment file but whose key does not parse makes the call panic. -/
theorem unclassified_to_others (P : Parsers) (h : metaHandle) (fname : String) :
    (P.ParseTableMetaName fname = none → P.ParseInfoMetaName fname = none →
        addMetaFile P h fname =
          .ok { h with others := h.others ++ [pathJoin h.metaDir fname] }) ∧
      (P.ParseBlockfileName fname = none → P.ParseSegmentfileName fname = none →
        addDataFile P h fname =
          .ok { h with others := h.others ++ [pathJoin h.dataDir fname] }) ∧
      (∀ name err, P.ParseTableMetaName fname = some name →
        P.ParseTableCkpFile name = .error err →
        addMetaFile P h fname = .error (.parse err)) ∧
      (∀ name err, P.ParseBlockfileName fname = some name →
        P.ParseBlockFileName name = .error err →
        addDataFile P h fname = .error (.parse err)) ∧
      (∀ name err, P.ParseBlockfileName fname = none →
        P.ParseSegmentfileName fname = some name →
        P.ParseSegmentFileName name = .error err →
        addDataFile P h fname = .error (.parse err)) := by
  refine ⟨?_, ?_, ?_, ?_, ?_⟩
  · intro h1 h2; simp [addMetaFile, h1, h2]
  · intro h1 h2; simp [addDataFile, h1, h2]
  · intro name err h1 h2; simp [addMetaFile, h1, h2]
  · intro name err h1 h2; simp [addDataFile, h1, h2]
  · intro name err h1 h2 h3; simp [addDataFile, h1, h2, h3]

theorem unclassified_to_others_witness :
    addMetaFile exParsers exHandle "junk" =
        .ok { exHandle with others := exHandle.others ++ [pathJoin exHandle.metaDir "junk"] } ∧
      addDataFile exParsers exHandle "junk" =
        .ok { exHandle with others := exHandle.others ++ [pathJoin exHandle.dataDir "junk"] } :=
  ⟨(unclassified_to_others exParsers exHandle "junk").1 rfl rfl,
    (unclassified_to_others exParsers exHandle "junk").2.1 rfl rfl⟩

/-! ## Cleanup -/

theorem cleanupTables_spec (mask : List Nat) :
    ∀ (m : GoMap Nat (List tableFile)), (∀ p ∈ m, p.2 ≠ []) →
      (cleanupTables mask m).2 = none ∧
        ∀ name, name ∈ (cleanupTables mask m).1 ↔
          ∃ tid head next, (tid, head :: next) ∈ m ∧
            ((tid ∉ mask ∧ name = head.name) ∨ ∃ f ∈ next, f.name = name) := by
  intro m
  induction m with
  | nil => intro _; simp [cleanupTables]
  | cons p rest ih =>
    intro hne
    rcases p with ⟨tid, l⟩
    obtain ⟨hnone, hmem⟩ := ih (fun q hq => hne q (List.mem_cons_of_mem _ hq))
    cases l with
    | nil => exact absurd rfl (hne (tid, []) (List.mem_cons_self _ _))
    | cons head next =>
      refine ⟨by simp [cleanupTables, cleanupTable, hnone], ?_⟩
      intro name
      simp only [cleanupTables, cleanupTable, List.mem_append, hmem name, List.mem_map,
        List.mem_cons, Prod.mk.injEq, List.cons.injEq]
      constructor
      · rintro ((h1 | ⟨f, hf, hfn⟩) | ⟨tid2, head2, next2, hin, hcase⟩)
        · by_cases hm : tid ∈ mask
          · simp [hm] at h1
          · simp only [hm, if_false, List.mem_singleton] at h1
            exact ⟨tid, head, next, Or.inl ⟨rfl, rfl, rfl⟩, Or.inl ⟨hm, h1⟩⟩
        · exact ⟨tid, head, next, Or.inl ⟨rfl, rfl, rfl⟩, Or.inr ⟨f, hf, hfn⟩⟩
        · exact ⟨tid2, head2, next2, Or.inr hin, hcase⟩
      · rintro ⟨tid2, head2, next2, (⟨h1, h2, h3⟩ | hin), hcase⟩
        · subst h1; subst h2; subst h3
          rcases hcase with ⟨hm, hn⟩ | ⟨f, hf, hfn⟩
          · left; left; simp [hm, hn]
          · left; right; exact ⟨f, hf, hfn⟩
        · right; exact ⟨tid2, head2, next2, hin, hcase⟩

theorem mem_cleanupInfos (l : List infoFile) (name : String) :
    name ∈ cleanupInfos l ↔ ∃ f ∈ l.tail, f.name = name := by
  cases l <;> simp [cleanupInfos]

theorem Cleanup_of_nonNil (h : metaHandle) (hne : ChainsNonNil h) :
    Cleanup h =
      { h := { h with tables := [], infos := [], cleanables := [], files := [] }
        removed := (cleanupTables h.mask h.tables).1 ++ cleanupInfos h.infos ++ h.others
        cleaned := h.cleanables
        panic := none } := by
  have hnone := (cleanupTables_spec h.mask h.tables hne).1
  unfold Cleanup
  rcases hct : cleanupTables h.mask h.tables with ⟨names, p⟩
  rw [hct] at hnone
  simp only at hnone
  subst hnone
  rfl

theorem entries_names_ne (m : GoMap Nat (List tableFile))
    (hnd : (m.map fun p => p.2.map fun f => f.name).flatten.Nodup)
    (a b : Nat × List tableFile) (ha : a ∈ m) (hb : b ∈ m) (hab : a ≠ b) (x : String)
    (hxa : x ∈ a.2.map fun f => f.name) (hxb : x ∈ b.2.map fun f => f.name) : False := by
  rw [List.nodup_flatten] at hnd
  have hp := List.pairwise_map.mp hnd.2
  exact (hp.forall (fun _ _ h => h.symm) ha hb hab) hxa hxb

/-- C15: on a handle whose table map holds no `nil` chain (every replayed
state), `Cleanup` completes and gives to `cleanupFile` exactly: every
non-newest checkpoint of every table, the newest checkpoint of every table
whose id is not in the kept bitmap, every non-newest info checkpoint, and every
entry of `others`.  Consequently, when all these files have distinct names,
an indexed checkpoint survives exactly if it is the newest one of a kept table
or the newest info checkpoint. -/
theorem Cleanup_removes (h : metaHandle) (hne : ChainsNonNil h) :
    (Cleanup h).panic = none ∧
      (∀ name, name ∈ (Cleanup h).removed ↔
        (∃ tid head next, (tid, head :: next) ∈ h.tables ∧
          ((tid ∉ h.mask ∧ name = head.name) ∨ ∃ f ∈ next, f.name = name)) ∨
        (∃ f ∈ h.infos.tail, f.name = name) ∨ name ∈ h.others) ∧
      ((allNames h).Nodup →
        (∀ tid head next f, (tid, head :: next) ∈ h.tables → f ∈ head :: next →
          (f.name ∉ (Cleanup h).removed ↔ f = head ∧ tid ∈ h.mask)) ∧
        (∀ f ∈ h.infos, f.name ∉ (Cleanup h).removed ↔ h.infos.head? = some f)) := by
  have hmem : ∀ name, name ∈ (Cleanup h).removed ↔
      (∃ tid head next, (tid, head :: next) ∈ h.tables ∧
        ((tid ∉ h.mask ∧ name = head.name) ∨ ∃ f ∈ next, f.name = name)) ∨
      (∃ f ∈ h.infos.tail, f.name = name) ∨ name ∈ h.others := by
    intro name
    rw [Cleanup_of_nonNil h hne]
    simp only [List.mem_append, (cleanupTables_spec h.mask h.tables hne).2 name,
      mem_cleanupInfos, or_assoc]
  refine ⟨by rw [Cleanup_of_nonNil h hne], hmem, ?_⟩
  intro hnodup
  unfold allNames at hnodup
  rw [List.nodup_append, List.nodup_append] at hnodup
  obtain ⟨⟨htabs, hinfos, hdisj1⟩, _, hdisj2⟩ := hnodup
  have heach := (List.nodup_flatten.mp htabs).1
  have hmemtab : ∀ tid l (f : tableFile), (tid, l) ∈ h.tables → f ∈ l →
      f.name ∈ (h.tables.map fun p => p.2.map fun f => f.name).flatten := by
    intro tid l f hin hf
    exact List.mem_flatten.mpr ⟨l.map fun f => f.name,
      List.mem_map.mpr ⟨(tid, l), hin, rfl⟩, List.mem_map.mpr ⟨f, hf, rfl⟩⟩
  constructor
  · intro tid head next f hin hf
    have hnd : ((head :: next).map fun f => f.name).Nodup :=
      heach _ (List.mem_map.mpr ⟨(tid, head :: next), hin, rfl⟩)
    rw [List.map_cons, List.nodup_cons] at hnd
    constructor
    · intro hnot
      rcases List.mem_cons.mp hf with hfh | hfn
      · refine ⟨hfh, ?_⟩
        by_contra hm
        exact hnot ((hmem _).mpr (Or.inl ⟨tid, head, next, hin, Or.inl ⟨hm, by rw [hfh]⟩⟩))
      · exact absurd ((hmem _).mpr (Or.inl ⟨tid, head, next, hin, Or.inr ⟨f, hfn, rfl⟩⟩)) hnot
    · rintro ⟨hfh, hm⟩ hrem
      subst hfh
      have hfa : f.name ∈ ((tid, f :: next) : Nat × List tableFile).2.map fun f => f.name :=
        List.mem_map.mpr ⟨f, List.mem_cons_self _ _, rfl⟩
      rcases (hmem _).mp hrem with ⟨tid2, head2, next2, hin2, hcase⟩ | ⟨g, hg, hgn⟩ | hoth
      · by_cases hent : ((tid, f :: next) : Nat × List tableFile) = (tid2, head2 :: next2)
        · simp only [Prod.mk.injEq, List.cons.injEq] at hent
          obtain ⟨htid, hhead, hnext⟩ := hent
          subst htid; subst hhead; subst hnext
          rcases hcase with ⟨hm2, _⟩ | ⟨g, hg, hgn⟩
          · exact hm2 hm
          · exact hnd.1 (List.mem_map.mpr ⟨g, hg, hgn⟩)
        · refine entries_names_ne h.tables htabs _ _ hin hin2 hent f.name hfa ?_
          rcases hcase with ⟨_, hn⟩ | ⟨g, hg, hgn⟩
          · exact List.mem_map.mpr ⟨head2, List.mem_cons_self _ _, hn.symm⟩
          · exact List.mem_map.mpr ⟨g, List.mem_cons_of_mem _ hg, hgn⟩
      · exact hdisj1 (hmemtab tid _ f hin (List.mem_cons_self _ _))
          (List.mem_map.mpr ⟨g, List.mem_of_mem_tail hg, hgn⟩)
      · exact hdisj2 (List.mem_append_left _ (hmemtab tid _ f hin (List.mem_cons_self _ _))) hoth
  · intro f hf
    cases hinf : h.infos with
    | nil => rw [hinf] at hf; simp at hf
    | cons head next =>
      rw [hinf] at hf hinfos hdisj1 hdisj2
      rw [List.map_cons, List.nodup_cons] at hinfos
      simp only [List.head?_cons, Option.some.injEq]
      constructor
      · intro hnot
        rcases List.mem_cons.mp hf with hfh | hfn
        · exact hfh.symm
        · exact absurd ((hmem _).mpr (Or.inr (Or.inl ⟨f, by simp [hinf, hfn], rfl⟩))) hnot
      · intro hfh hrem
        subst hfh
        rcases (hmem _).mp hrem with ⟨tid2, head2, next2, hin2, hcase⟩ | ⟨g, hg, hgn⟩ | hoth
        · have hhead2 : head.name ∈
              (h.tables.map fun p => p.2.map fun f => f.name).flatten := by
            rcases hcase with ⟨_, hn⟩ | ⟨g, hg, hgn⟩
            · rw [hn]; exact hmemtab tid2 _ head2 hin2 (List.mem_cons_self _ _)
            · rw [← hgn]; exact hmemtab tid2 _ g hin2 (List.mem_cons_of_mem _ hg)
          exact hdisj1 hhead2 (by simp)
        · rw [hinf] at hg
          exact hinfos.1 (List.mem_map.mpr ⟨g, hg, hgn⟩)
        · exact hdisj2 (List.mem_append_right _ (by simp)) hoth

end Replay

namespace Replay

theorem Cleanup_removes_witness :
    (Cleanup exKeptHandle).panic = none ∧
      (∀ name, name ∈ (Cleanup exKeptHandle).removed ↔
        (∃ tid head next, (tid, head :: next) ∈ exKeptHandle.tables ∧
          ((tid ∉ exKeptHandle.mask ∧ name = head.name) ∨ ∃ f ∈ next, f.name = name)) ∨
        (∃ f ∈ exKeptHandle.infos.tail, f.name = name) ∨ name ∈ exKeptHandle.others) ∧
      ((allNames exKeptHandle).Nodup →
        (∀ tid head next f, (tid, head :: next) ∈ exKeptHandle.tables → f ∈ head :: next →
          (f.name ∉ (Cleanup exKeptHandle).removed ↔ f = head ∧ tid ∈ exKeptHandle.mask)) ∧
        (∀ f ∈ exKeptHandle.infos,
          f.name ∉ (Cleanup exKeptHandle).removed ↔ exKeptHandle.infos.head? = some f)) :=
  Cleanup_removes exKeptHandle (by unfold ChainsNonNil; decide)

theorem forEach_inv {α : Type} (step : metaHandle → α → Except Panic metaHandle)
    (I : metaHandle → Prop) (hstep : ∀ h x h1, I h → step h x = .ok h1 → I h1) :
    ∀ (xs : List α) (h h1 : metaHandle), I h → forEach step xs h = .ok h1 → I h1 := by
  intro xs
  induction xs with
  | nil =>
    intro h h1 hI hok
    simp only [forEach, Except.ok.injEq] at hok
    subst hok; exact hI
  | cons x xs ih =>
    intro h h1 hI hok
    cases hs : step h x with
    | error p => simp [forEach, hs] at hok
    | ok h2 =>
      rw [forEach_cons_ok step x xs h h2 hs] at hok
      exact ih h2 h1 (hstep h x h2 hI hs) hok

theorem insertTable_ne_nil (f : tableFile) (l l1 : List tableFile)
    (hok : insertTable f l = .ok l1) : l1 ≠ [] := by
  cases l with
  | nil =>
    simp only [insertTable, Except.ok.injEq] at hok
    subst hok; simp
  | cons curr next =>
    simp only [insertTable] at hok
    split at hok
    · simp only [Except.ok.injEq] at hok
      subst hok; simp
    · split at hok
      · split at hok
        · simp only [Except.ok.injEq] at hok
          subst hok; simp
        · cases hok
      · cases hok

theorem addTable_chainsNonNil (h h1 : metaHandle) (f : tableFile) (hne : ChainsNonNil h)
    (hok : addTable h f = .ok h1) : ChainsNonNil h1 := by
  rw [addTable_eq] at hok
  cases hins : insertTable f (chain h f.id) with
  | error p => rw [hins] at hok; cases hok
  | ok l =>
    rw [hins] at hok
    simp only [Except.ok.injEq] at hok
    subst hok
    intro p hp
    rcases mem_mapSet h.tables f.id l p hp with hp1 | hp1
    · rw [hp1]; exact insertTable_ne_nil f _ l hins
    · exact hne p hp1

/-- Every handle that the constructor returns has a first node in each chain
of the table map. -/
theorem NewMetaHandle_chainsNonNil (P : Parsers) (workDir : String) (disk : Disk)
    (h : metaHandle) (hok : NewMetaHandle P workDir disk = .ok h) : ChainsNonNil h := by
  have h0 : ChainsNonNil (emptyHandle workDir) := by
    intro p hp; simp [emptyHandle] at hp
  have hmeta : ∀ h x h1, ChainsNonNil h → addMetaFile P h x = .ok h1 → ChainsNonNil h1 := by
    intro h x h1 hne hstep
    unfold addMetaFile at hstep
    split at hstep
    · split at hstep
      · cases hstep
      · exact addTable_chainsNonNil _ _ _ hne hstep
    · split at hstep
      · unfold addInfo at hstep
        split at hstep
        · simp only [Except.ok.injEq] at hstep
          subst hstep; exact hne
        · cases hstep
      · simp only [Except.ok.injEq] at hstep
        subst hstep; exact hne
  have hdata : ∀ h x h1, ChainsNonNil h → addDataFile P h x = .ok h1 → ChainsNonNil h1 := by
    intro h x h1 hne hstep
    unfold addDataFile at hstep
    split at hstep
    · split at hstep
      · cases hstep
      · simp only [Except.ok.injEq] at hstep
        subst hstep; exact hne
    · split at hstep
      · split at hstep
        · cases hstep
        · unfold addSegment at hstep
          dsimp only at hstep
          split at hstep
          · cases hstep
          · simp only [Except.ok.injEq] at hstep
            subst hstep; exact hne
      · simp only [Except.ok.injEq] at hstep
        subst hstep; exact hne
  unfold NewMetaHandle at hok
  dsimp only at hok
  split at hok
  · simp only [Except.ok.injEq] at hok
    subst hok; exact h0
  · split at hok
    · cases hok
    · rename_i fs1 hfs1
      exact forEach_inv _ _ hdata _ _ _
        (forEach_inv _ _ hmeta _ _ _ h0 hfs1) hok

/-- C16 (counterexample): after the replay of `tbl-1-v3, tbl-1-v1, tbl-1-v2,
info-v2, info-v1` with an empty kept set, `Cleanup` does not remove the info
checkpoint `info-v2`; it removes `info-v1`. -/
theorem Cleanup_scenario_counterexample :
    NewMetaHandle exParsers "W" exDisk = .ok exHandle ∧
      "W/meta/info-v2" ∉ (Cleanup exHandle).removed ∧
      "W/meta/info-v1" ∈ (Cleanup exHandle).removed :=
  ⟨rfl, by decide, by decide⟩

/-- C16 (amended): after the replay of `tbl-1-v3, tbl-1-v1, tbl-1-v2, info-v2,
info-v1` the lists are `v3, v2, v1` and `info-v2, info-v1`, and `Cleanup` with
an empty kept set removes the table checkpoints `v3, v2, v1` and the info
checkpoint `info-v1`; the newest info checkpoint `info-v2` is kept. -/
theorem Cleanup_scenario :
    NewMetaHandle exParsers "W" exDisk = .ok exHandle ∧
      (Cleanup exHandle).panic = none ∧
      (Cleanup exHandle).removed =
        ["W/meta/tbl-1-v3", "W/meta/tbl-1-v2", "W/meta/tbl-1-v1", "W/meta/info-v1"] :=
  ⟨rfl, by decide, by decide⟩

/-! ## CleanupWithCtx -/

theorem cleanupTableFrom_eq (maxVer : Int) (hmax : 0 ≤ maxVer) :
    ∀ (l : List tableFile) (depth : Nat),
      cleanupTableFrom maxVer depth l = (l.drop (maxVer.toNat - depth)).map fun f => f.name := by
  intro l
  induction l with
  | nil => intro depth; simp [cleanupTableFrom]
  | cons f next ih =>
    intro depth
    by_cases hd : (depth : Int) ≥ maxVer
    · have h0 : maxVer.toNat - depth = 0 := by omega
      have h1 : maxVer.toNat - (depth + 1) = 0 := by omega
      simp [cleanupTableFrom, hd, ih (depth + 1), h0, h1]
    · have h1 : maxVer.toNat - depth = (maxVer.toNat - (depth + 1)) + 1 := by omega
      simp [cleanupTableFrom, hd, ih (depth + 1), h1]

theorem cleanupInfoFrom_eq (maxVer : Int) (hmax : 0 ≤ maxVer) :
    ∀ (l : List infoFile) (depth : Nat),
      cleanupInfoFrom maxVer depth l = (l.drop (maxVer.toNat - depth)).map fun f => f.name := by
  intro l
  induction l with
  | nil => intro depth; simp [cleanupInfoFrom]
  | cons f next ih =>
    intro depth
    by_cases hd : (depth : Int) ≥ maxVer
    · have h0 : maxVer.toNat - depth = 0 := by omega
      have h1 : maxVer.toNat - (depth + 1) = 0 := by omega
      simp [cleanupInfoFrom, hd, ih (depth + 1), h0, h1]
    · have h1 : maxVer.toNat - depth = (maxVer.toNat - (depth + 1)) + 1 := by omega
      simp [cleanupInfoFrom, hd, ih (depth + 1), h1]

theorem cleanupTablesFrom_eq (maxVer : Int) (hmax : 0 ≤ maxVer) :
    ∀ (m : GoMap Nat (List tableFile)),
      cleanupTablesFrom maxVer m =
        (m.map fun p => (p.2.drop maxVer.toNat).map fun f => f.name).flatten := by
  intro m
  induction m with
  | nil => rfl
  | cons p rest ih =>
    rcases p with ⟨tid, l⟩
    simp [cleanupTablesFrom, ih, cleanupTableFrom_eq maxVer hmax]

theorem take_names_not_in_drop {α : Type} (name : α → String) (l : List α) (n : Nat)
    (hnd : (l.map name).Nodup) (f : α) (hf : f ∈ l.take n) :
    name f ∉ (l.drop n).map name := by
  rw [← List.take_append_drop n l, List.map_append, List.nodup_append] at hnd
  exact fun hmem => hnd.2.2 (List.mem_map.mpr ⟨f, hf, rfl⟩) hmem

/-- C17: for `maxVer > 1`, `CleanupWithCtx` completes and, for every version
list (each table chain and the info chain), gives to `cleanupFile` exactly the
entries at positions `maxVer, maxVer+1, ...` of the descending list, in
order, that is `len - maxVer` entries (none when the list is shorter); none
of the first `maxVer` entries is among them. -/
theorem CleanupWithCtx_removes (h : metaHandle) (maxVer : Int) (hmax : maxVer > 1) :
    (CleanupWithCtx h maxVer).panic = none ∧
      (CleanupWithCtx h maxVer).removed =
        (h.tables.map fun p => (p.2.drop maxVer.toNat).map fun f => f.name).flatten ++
          (h.infos.drop maxVer.toNat).map (fun f => f.name) ∧
      (∀ l : List tableFile,
        cleanupTableFrom maxVer 0 l = (l.drop maxVer.toNat).map (fun f => f.name) ∧
        (cleanupTableFrom maxVer 0 l).length = l.length - maxVer.toNat ∧
        ((l.map fun f => f.name).Nodup →
          ∀ f ∈ l.take maxVer.toNat, f.name ∉ cleanupTableFrom maxVer 0 l)) ∧
      (∀ l : List infoFile,
        cleanupInfoFrom maxVer 0 l = (l.drop maxVer.toNat).map (fun f => f.name) ∧
        (cleanupInfoFrom maxVer 0 l).length = l.length - maxVer.toNat ∧
        ((l.map fun f => f.name).Nodup →
          ∀ f ∈ l.take maxVer.toNat, f.name ∉ cleanupInfoFrom maxVer 0 l)) := by
  have h0 : (0 : Int) ≤ maxVer := by omega
  have hnot : ¬ maxVer ≤ 1 := by omega
  refine ⟨by simp [CleanupWithCtx, hnot], ?_, ?_, ?_⟩
  · simp only [CleanupWithCtx, hnot, if_false, cleanupTablesFrom_eq maxVer h0,
      cleanupInfoFrom_eq maxVer h0, Nat.sub_zero]
  · intro l
    have heq := cleanupTableFrom_eq maxVer h0 l 0
    rw [Nat.sub_zero] at heq
    refine ⟨heq, by rw [heq]; simp, ?_⟩
    intro hnd f hf
    rw [heq]
    exact take_names_not_in_drop (fun f => f.name) l _ hnd f hf
  · intro l
    have heq := cleanupInfoFrom_eq maxVer h0 l 0
    rw [Nat.sub_zero] at heq
    refine ⟨heq, by rw [heq]; simp, ?_⟩
    intro hnd f hf
    rw [heq]
    exact take_names_not_in_drop (fun f => f.name) l _ hnd f hf

theorem CleanupWithCtx_removes_witness :
    (CleanupWithCtx exHandle 2).removed = ["W/meta/tbl-1-v1"] ∧
      (CleanupWithCtx exHandle 2).panic = none ∧
      (CleanupWithCtx exHandle 2).removed =
        (exHandle.tables.map fun p =>
          (p.2.drop (2 : Int).toNat).map fun f => f.name).flatten ++
          (exHandle.infos.drop (2 : Int).toNat).map (fun f => f.name) :=
  ⟨by decide, (CleanupWithCtx_removes exHandle 2 (by decide)).1,
    (CleanupWithCtx_removes exHandle 2 (by decide)).2.1⟩

/-- C18: `CleanupWithCtx(maxVer)` panics, and then with the logic error,
exactly if `maxVer <= 1` (so for `maxVer == 1`); in that case no file is
removed, no cleanable runs and the handle is unchanged. -/
theorem CleanupWithCtx_panics_iff (h : metaHandle) (maxVer : Int) :
    ((CleanupWithCtx h maxVer).panic ≠ none ↔ maxVer ≤ 1) ∧
      ((CleanupWithCtx h maxVer).panic = some .logicError ↔ maxVer ≤ 1) ∧
      (CleanupWithCtx h 1).panic = some .logicError ∧
      (maxVer ≤ 1 → (CleanupWithCtx h maxVer).removed = [] ∧
        (CleanupWithCtx h maxVer).cleaned = [] ∧ (CleanupWithCtx h maxVer).h = h) := by
  by_cases hle : maxVer ≤ 1
  · simp [CleanupWithCtx, hle]
  · simp [CleanupWithCtx, hle]

theorem CleanupWithCtx_panics_iff_witness :
    (CleanupWithCtx exHandle 1).panic = some .logicError ∧
      (CleanupWithCtx exHandle 1).removed = [] ∧
      (CleanupWithCtx exHandle 1).cleaned = [] ∧ (CleanupWithCtx exHandle 1).h = exHandle :=
  ⟨(CleanupWithCtx_panics_iff exHandle 1).2.2.1,
    (CleanupWithCtx_panics_iff exHandle 1).2.2.2 (by decide)⟩

end Replay

namespace Replay

/-! ## correctTable -/

theorem correctLoop_spec (trySorted : Segment → Segment) (tf : tableDataFiles) :
    ∀ (n : Nat) (segs : List Segment), n ≤ segs.length →
      (correctLoop trySorted tf n segs).1.length = segs.length ∧
      (∀ i, i ∈ (correctLoop trySorted tf n segs).2 ↔
        i < n ∧ (∃ seg, segs[i]? = some seg ∧
          (mapGet tf.sortedfiles seg.AsCommonID).isSome = true) ∧
        ∀ j seg1, i ≤ j → j < n → segs[j]? = some seg1 → seg1.DataState ≠ .SORTED) ∧
      (∀ i, (correctLoop trySorted tf n segs).1[i]? =
        if i ∈ (correctLoop trySorted tf n segs).2 then (segs[i]?).map trySorted
        else segs[i]?) ∧
      (correctLoop trySorted tf n segs).2.Pairwise (fun a b => a > b) := by
  intro n
  induction n with
  | zero =>
    intro segs _
    simp [correctLoop]
  | succ n ih =>
    intro segs hn
    have hlt : n < segs.length := by omega
    have hget : segs[n]? = some segs[n] := List.getElem?_eq_getElem hlt
    by_cases hsorted : segs[n].DataState = .SORTED
    · -- the loop breaks at index n
      have hloop : correctLoop trySorted tf (n + 1) segs = (segs, []) := by
        simp [correctLoop, hget, hsorted]
      rw [hloop]
      refine ⟨rfl, ?_, by simp, List.Pairwise.nil⟩
      intro i
      simp only [List.not_mem_nil, false_iff, not_and]
      intro hi _ hall
      exact hall n segs[n] (by omega) (by omega) hget hsorted
    · cases hfile : mapGet tf.sortedfiles segs[n].AsCommonID with
      | some file =>
        -- the segment at index n is promoted
        have hloop : correctLoop trySorted tf (n + 1) segs =
            ((correctLoop trySorted tf n (segs.set n (trySorted segs[n]))).1,
              n :: (correctLoop trySorted tf n (segs.set n (trySorted segs[n]))).2) := by
          simp [correctLoop, hget, hsorted, hfile]
        obtain ⟨hlen, hmem, hsegs, hpair⟩ := ih (segs.set n (trySorted segs[n]))
          (by rw [List.length_set]; omega)
        have hother : ∀ j, j ≠ n → (segs.set n (trySorted segs[n]))[j]? = segs[j]? := by
          intro j hj
          rw [List.getElem?_set_ne (fun h => hj h.symm)]
        have hmem2 : ∀ i, i ∈ (correctLoop trySorted tf n (segs.set n (trySorted segs[n]))).2 ↔
            i < n ∧ (∃ seg, segs[i]? = some seg ∧
              (mapGet tf.sortedfiles seg.AsCommonID).isSome = true) ∧
            ∀ j seg1, i ≤ j → j < n → segs[j]? = some seg1 → seg1.DataState ≠ .SORTED := by
          intro i
          rw [hmem i]
          constructor
          · rintro ⟨hi, ⟨seg, hseg, hf⟩, hall⟩
            refine ⟨hi, ⟨seg, by rw [← hother i (by omega)]; exact hseg, hf⟩, ?_⟩
            intro j seg1 hij hj hseg1
            exact hall j seg1 hij hj (by rw [hother j (by omega)]; exact hseg1)
          · rintro ⟨hi, ⟨seg, hseg, hf⟩, hall⟩
            refine ⟨hi, ⟨seg, by rw [hother i (by omega)]; exact hseg, hf⟩, ?_⟩
            intro j seg1 hij hj hseg1
            exact hall j seg1 hij hj (by rw [← hother j (by omega)]; exact hseg1)
        have hnotin : n ∉ (correctLoop trySorted tf n (segs.set n (trySorted segs[n]))).2 :=
          fun h => absurd ((hmem2 n).mp h).1 (by omega)
        rw [hloop]
        refine ⟨by rw [hlen, List.length_set], ?_, ?_, ?_⟩
        · intro i
          simp only [List.mem_cons, hmem2 i]
          constructor
          · rintro (hi | ⟨hi, hf, hall⟩)
            · subst hi
              refine ⟨by omega, ⟨segs[i], hget, by simp [hfile]⟩, ?_⟩
              intro j seg1 hij hj hseg1
              have hji : j = i := by omega
              subst hji
              rw [hget] at hseg1
              simp only [Option.some.injEq] at hseg1
              rw [← hseg1]; exact hsorted
            · refine ⟨by omega, hf, ?_⟩
              intro j seg1 hij hj hseg1
              by_cases hjn : j = n
              · subst hjn
                rw [hget] at hseg1
                simp only [Option.some.injEq] at hseg1
                rw [← hseg1]; exact hsorted
              · exact hall j seg1 hij (by omega) hseg1
          · rintro ⟨hi, hf, hall⟩
            by_cases hin : i = n
            · exact Or.inl hin
            · exact Or.inr ⟨by omega, hf, fun j seg1 hij hj => hall j seg1 hij (by omega)⟩
        · intro i
          rw [hsegs i]
          by_cases hin : i = n
          · subst hin
            simp [hnotin, hget, List.getElem?_set_self (by omega : i < segs.length)]
          · simp only [List.mem_cons, hin, false_or, hother i hin]
        · refine List.pairwise_cons.mpr ⟨?_, hpair⟩
          intro a ha
          exact ((hmem2 a).mp ha).1
      | none =>
        -- nothing happens at index n
        have hloop : correctLoop trySorted tf (n + 1) segs = correctLoop trySorted tf n segs := by
          simp [correctLoop, hget, hsorted, hfile]
        obtain ⟨hlen, hmem, hsegs, hpair⟩ := ih segs (by omega)
        rw [hloop]
        refine ⟨hlen, ?_, hsegs, hpair⟩
        intro i
        rw [hmem i]
        constructor
        · rintro ⟨hi, hf, hall⟩
          refine ⟨by omega, hf, ?_⟩
          intro j seg1 hij hj hseg1
          by_cases hjn : j = n
          · subst hjn
            rw [hget] at hseg1
            simp only [Option.some.injEq] at hseg1
            rw [← hseg1]; exact hsorted
          · exact hall j seg1 hij (by omega) hseg1
        · rintro ⟨hi, ⟨seg, hseg, hf⟩, hall⟩
          have hin : i ≠ n := by
            intro h
            subst h
            rw [hget] at hseg
            simp only [Option.some.injEq] at hseg
            rw [← hseg, hfile] at hf
            simp at hf
          exact ⟨by omega, ⟨seg, hseg, hf⟩, fun j seg1 hij hj => hall j seg1 hij (by omega)⟩

/-- C21: if the table has no data files, `correctTable` does nothing; if it is
deleted, its data files are appended to the deferred cleanables and no segment
is promoted; otherwise the handle is unchanged and `TrySorted` is called, from
the newest segment downwards and at most once each, on exactly the segments
that have a sorted-segment file with their id and that are, together with
every newer segment, not marked SORTED, so the walk stops at the newest SORTED
segment; every other segment is left as it was. -/
theorem correctTable_spec (trySorted : Segment → Segment) (h : metaHandle) (meta : Table) :
    (mapGet h.files meta.ID = none →
        correctTable trySorted h meta = { h := h, meta := meta, promoted := [] }) ∧
      (∀ tf, mapGet h.files meta.ID = some tf → meta.deleted = true →
        correctTable trySorted h meta =
          { h := { h with cleanables := h.cleanables ++ [tf] }, meta := meta, promoted := [] }) ∧
      (∀ tf, mapGet h.files meta.ID = some tf → meta.deleted = false →
        (correctTable trySorted h meta).h = h ∧
        (correctTable trySorted h meta).meta.Segments.length = meta.Segments.length ∧
        (∀ i, i ∈ (correctTable trySorted h meta).promoted ↔
          (∃ seg, meta.Segments[i]? = some seg ∧
            (mapGet tf.sortedfiles seg.AsCommonID).isSome = true) ∧
          ∀ j seg1, i ≤ j → meta.Segments[j]? = some seg1 → seg1.DataState ≠ .SORTED) ∧
        (∀ i, (correctTable trySorted h meta).meta.Segments[i]? =
          if i ∈ (correctTable trySorted h meta).promoted
          then (meta.Segments[i]?).map trySorted else meta.Segments[i]?) ∧
        (correctTable trySorted h meta).promoted.Pairwise (fun a b => a > b)) := by
  refine ⟨?_, ?_, ?_⟩
  · intro hnone
    simp [correctTable, hnone]
  · intro tf hsome hdel
    simp [correctTable, hsome, hdel, addCleanable]
  · intro tf hsome hdel
    obtain ⟨hlen, hmem, hsegs, hpair⟩ :=
      correctLoop_spec trySorted tf meta.Segments.length meta.Segments (Nat.le_refl _)
    have hct : correctTable trySorted h meta =
        { h := h
          meta := { meta with
            Segments := (correctLoop trySorted tf meta.Segments.length meta.Segments).1 }
          promoted := (correctLoop trySorted tf meta.Segments.length meta.Segments).2 } := by
      simp [correctTable, hsome, hdel]
    rw [hct]
    refine ⟨rfl, hlen, ?_, hsegs, hpair⟩
    intro i
    rw [hmem i]
    constructor
    · rintro ⟨_, hf, hall⟩
      refine ⟨hf, ?_⟩
      intro j seg1 hij hseg1
      have hj : j < meta.Segments.length := by
        by_contra hcon
        rw [List.getElem?_eq_none (by omega)] at hseg1
        cases hseg1
      exact hall j seg1 hij hj hseg1
    · rintro ⟨⟨seg, hseg, hf⟩, hall⟩
      have hi : i < meta.Segments.length := by
        by_contra hcon
        rw [List.getElem?_eq_none (by omega)] at hseg
        cases hseg
      exact ⟨hi, ⟨seg, hseg, hf⟩, fun j seg1 hij _ => hall j seg1 hij⟩

theorem correctTable_spec_witness :
    (correctTable exTrySorted exFilesHandle exTable).promoted = [4] ∧
      (correctTable exTrySorted exFilesHandle exTable).h = exFilesHandle ∧
      (correctTable exTrySorted exFilesHandle exTable).meta.Segments.length =
        exTable.Segments.length ∧
      (correctTable exTrySorted exHandle exTable =
        { h := exHandle, meta := exTable, promoted := [] }) :=
  ⟨by decide,
    ((correctTable_spec exTrySorted exFilesHandle exTable).2.2 exTableDataFiles rfl rfl).1,
    ((correctTable_spec exTrySorted exFilesHandle exTable).2.2 exTableDataFiles rfl rfl).2.1,
    (correctTable_spec exTrySorted exHandle exTable).1 rfl⟩

/-! ## The handle after a cleanup -/

/-- C24: on a handle without a `nil` chain, `Cleanup` leaves the table map, the
info list, the deferred cleanables and the data-file index empty and every
other field, `others` included, as it was; a second `Cleanup` therefore gives
to `cleanupFile` exactly the entries of `others` again and runs no cleanable.
`CleanupWithCtx` changes no field of the handle, so the removed entries stay in
the lists and a repeated call with the same `maxVer` issues the same removals. -/
theorem cleanup_frame (h : metaHandle) (hne : ChainsNonNil h) (maxVer : Int) :
    (Cleanup h).h = { h with tables := [], infos := [], cleanables := [], files := [] } ∧
      (Cleanup h).h.others = h.others ∧
      (Cleanup (Cleanup h).h).removed = h.others ∧
      (Cleanup (Cleanup h).h).cleaned = [] ∧
      (Cleanup (Cleanup h).h).panic = none ∧
      (CleanupWithCtx h maxVer).h = h ∧
      (CleanupWithCtx (CleanupWithCtx h maxVer).h maxVer).removed =
        (CleanupWithCtx h maxVer).removed ∧
      (CleanupWithCtx (CleanupWithCtx h maxVer).h maxVer).panic =
        (CleanupWithCtx h maxVer).panic := by
  have h1 := Cleanup_of_nonNil h hne
  have hne2 : ChainsNonNil
      { h with tables := [], infos := [], cleanables := [], files := [] } := by
    intro p hp; simp at hp
  have h2 := Cleanup_of_nonNil _ hne2
  have hctx : (CleanupWithCtx h maxVer).h = h := by
    by_cases hle : maxVer ≤ 1 <;> simp [CleanupWithCtx, hle]
  refine ⟨by rw [h1], by rw [h1], ?_, ?_, ?_, hctx, by rw [hctx], by rw [hctx]⟩
  · rw [h1]; simp only; rw [h2]; simp [cleanupTables, cleanupInfos]
  · rw [h1]; simp only; rw [h2]
  · rw [h1]; simp only; rw [h2]

theorem cleanup_frame_witness :
    (Cleanup exKeptHandle).h =
        { exKeptHandle with tables := [], infos := [], cleanables := [], files := [] } ∧
      (Cleanup exKeptHandle).h.others = exKeptHandle.others ∧
      (Cleanup (Cleanup exKeptHandle).h).removed = exKeptHandle.others ∧
      (Cleanup (Cleanup exKeptHandle).h).cleaned = [] ∧
      (Cleanup (Cleanup exKeptHandle).h).panic = none ∧
      (CleanupWithCtx exKeptHandle 2).h = exKeptHandle ∧
      (CleanupWithCtx (CleanupWithCtx exKeptHandle 2).h 2).removed =
        (CleanupWithCtx exKeptHandle 2).removed ∧
      (CleanupWithCtx (CleanupWithCtx exKeptHandle 2).h 2).panic =
        (CleanupWithCtx exKeptHandle 2).panic :=
  cleanup_frame exKeptHandle (by unfold ChainsNonNil; decide) 2

end Replay

namespace SumAgg

theorem wrapInt64_add (a b : Int) : wrapInt64 (wrapInt64 a + wrapInt64 b) = wrapInt64 (a + b) := by
  unfold wrapInt64
  omega

theorem wrapInt64_left (a b : Int) : wrapInt64 (wrapInt64 a + b) = wrapInt64 (a + b) := by
  unfold wrapInt64
  omega

theorem wrapInt64_eq_zero (z : Int) (hlo : -9223372036854775808 ≤ z)
    (hhi : z < 9223372036854775808) : wrapInt64 z = 0 ↔ z = 0 := by
  unfold wrapInt64
  omega

theorem filter_not_length (s : Finset Nat) (sels : List Nat) :
    ((sels.filter fun i => i ∉ s).length : Int) =
      (sels.length : Int) - ((sels.filter fun i => i ∈ s).length : Int) := by
  induction sels with
  | nil => simp
  | cons x xs ih =>
    by_cases hx : x ∈ s
    · simp only [List.filter_cons, hx, not_true_eq_false, decide_False, decide_True,
        Bool.false_eq_true, if_false, if_true, List.length_cons]
      push_cast
      omega
    · simp only [List.filter_cons, hx, not_false_eq_true, decide_False, decide_True,
        Bool.false_eq_true, if_false, if_true, List.length_cons]
      push_cast
      omega

/-- One `Fill`: the counter moves by the counted rows (modulo 2^64) and the
sum by the contribution of the vector. -/
theorem Fill_spec {F32 F : Type} (K : Kernels F32 F) (a a1 : floatSum F) (sels : List Nat)
    (vec : Vector F32 F) (hok : a.Fill K sels vec = .ok a1) :
    a1.cnt = wrapInt64 (a.cnt + countedRows sels vec) ∧
      a1.sum = (match contribution K sels vec with
        | some x => K.add a.sum x
        | none => a.sum) := by
  unfold floatSum.Fill at hok
  dsimp only at hok
  cases sels with
  | nil =>
    simp only [List.length_nil, Int.ofNat_zero, Nat.cast_zero, lt_self_iff_false, gt_iff_lt,
      if_false] at hok
    cases hs : sumDense K a.sum vec with
    | error p => rw [hs] at hok; cases hok
    | ok s =>
      rw [hs] at hok
      simp only [Except.ok.injEq] at hok
      subst hok
      refine ⟨?_, ?_⟩
      · simp only [countedRows, ne_eq, not_true_eq_false, if_false, Nulls.Length]
        unfold wrapInt64
        omega
      · unfold sumDense at hs
        unfold contribution
        rcases vec with ⟨oid, col, len, nsp⟩
        cases oid <;> cases col <;> simp at hs <;> simp [← hs]
  | cons x xs =>
    have hpos : ((x :: xs).length : Int) > 0 := by
      simp only [List.length_cons]; push_cast; omega
    simp only [hpos, if_true] at hok
    cases hs : sumSels K a.sum (x :: xs) vec with
    | error p => rw [hs] at hok; cases hok
    | ok s =>
      rw [hs] at hok
      simp only [Except.ok.injEq] at hok
      subst hok
      refine ⟨?_, ?_⟩
      · have hf := filter_not_length vec.Nsp.Np (x :: xs)
        simp only [countedRows, ne_eq, not_false_eq_true, if_true, hf, Nulls.FilterCount,
          reduceCtorEq]
        unfold wrapInt64
        omega
      · unfold sumSels at hs
        unfold contribution
        rcases vec with ⟨oid, col, len, nsp⟩
        cases oid <;> cases col <;> simp at hs <;> simp [← hs]

theorem fillAll_spec {F32 F : Type} (K : Kernels F32 F) :
    ∀ (fills : List (List Nat × Vector F32 F)) (a a1 : floatSum F) (c : Int),
      fillAll K a fills = .ok a1 → a.cnt = wrapInt64 c →
        a1.cnt = wrapInt64 (c + totalRows fills) ∧ a1.sum = accumulated K a.sum fills := by
  intro fills
  induction fills with
  | nil =>
    intro a a1 c hok hc
    simp only [fillAll, Except.ok.injEq] at hok
    subst hok
    simp [totalRows, accumulated, hc]
  | cons p rest ih =>
    intro a a1 c hok hc
    rcases p with ⟨sels, vec⟩
    simp only [fillAll] at hok
    cases hf : a.Fill K sels vec with
    | error q => rw [hf] at hok; cases hok
    | ok a2 =>
      rw [hf] at hok
      obtain ⟨hcnt, hsum⟩ := Fill_spec K a a2 sels vec hf
      have hc2 : a2.cnt = wrapInt64 (c + countedRows sels vec) := by
        rw [hcnt, hc, wrapInt64_left]
      obtain ⟨h1, h2⟩ := ih a2 a1 (c + countedRows sels vec) hok hc2
      refine ⟨?_, ?_⟩
      · rw [h1]
        simp only [totalRows, List.map_cons, List.sum_cons]
        congr 1
        ring
      · rw [h2, hsum]
        simp [accumulated]

theorem wrapInt64_eq_zero_iff_mod (z : Int) :
    wrapInt64 z = 0 ↔ z % 18446744073709551616 = 0 := by
  unfold wrapInt64
  omega

/-- A `Fill` on a vector whose payload has the announced type returns. -/
theorem Fill_returns {F32 F : Type} (K : Kernels F32 F) (a : floatSum F) (sels : List Nat)
    (vec : Vector F32 F) (ht : vec.typed = true) : ∃ a1, a.Fill K sels vec = .ok a1 := by
  rcases vec with ⟨oid, col, len, nsp⟩
  unfold floatSum.Fill
  dsimp only
  split <;> cases oid <;> cases col <;> simp [Vector.typed] at ht <;>
    simp [sumSels, sumDense]

/-- A sequence of `Fill` calls on vectors whose payloads have the announced
types returns. -/
theorem fillAll_returns {F32 F : Type} (K : Kernels F32 F) :
    ∀ (fills : List (List Nat × Vector F32 F)) (a : floatSum F),
      (∀ p ∈ fills, p.2.typed = true) → ∃ a1, fillAll K a fills = .ok a1 := by
  intro fills
  induction fills with
  | nil => intro a _; exact ⟨a, rfl⟩
  | cons p rest ih =>
    intro a ht
    rcases p with ⟨sels, vec⟩
    obtain ⟨a2, h2⟩ := Fill_returns K a sels vec (ht (sels, vec) (List.mem_cons_self _ _))
    obtain ⟨a1, h1⟩ := ih a2 (fun q hq => ht q (List.mem_cons_of_mem _ hq))
    exact ⟨a1, by simp only [fillAll, h2, h1]⟩

theorem totalRows_replicate {F32 F : Type} (n : Nat) (sels : List Nat) (vec : Vector F32 F) :
    totalRows (List.replicate n (sels, vec)) = (n : Int) * countedRows sels vec := by
  simp [totalRows, List.map_replicate, List.sum_replicate]

/-- What `Eval` returns after a sequence of `Fill` calls on an aggregator that
starts with a zero counter and a zero sum: null exactly if the total of the
counted rows is zero modulo 2^64, the accumulated sum otherwise. -/
theorem Eval_after_fills {F32 F : Type} (K : Kernels F32 F) (a0 a : floatSum F)
    (fills : List (List Nat × Vector F32 F)) (hc : a0.cnt = 0) (hs : a0.sum = K.zero)
    (hrun : fillAll K a0 fills = .ok a) :
    (a.Eval = none ↔ totalRows fills % 18446744073709551616 = 0) ∧
      (totalRows fills % 18446744073709551616 ≠ 0 →
        a.Eval = some (accumulated K K.zero fills)) := by
  obtain ⟨hcnt, hsum⟩ := fillAll_spec K fills a0 a 0 hrun (by rw [hc]; rfl)
  rw [zero_add] at hcnt
  rw [hs] at hsum
  have hz : a.cnt = 0 ↔ totalRows fills % 18446744073709551616 = 0 := by
    rw [hcnt]; exact wrapInt64_eq_zero_iff_mod _
  constructor
  · unfold floatSum.Eval
    by_cases hc0 : a.cnt = 0
    · simp [hc0, hz.mp hc0]
    · have hne : ¬ totalRows fills % 18446744073709551616 = 0 := fun h => hc0 (hz.mpr h)
      simp [hc0, hne]
  · intro hne
    have hc0 : a.cnt ≠ 0 := fun h => hne (hz.mp h)
    simp [floatSum.Eval, hc0, hsum]

/-- C19 (counterexample): on a fresh aggregator, 2^32 dense `Fill` calls on a
vector of 2^32 rows without nulls all return; 2^64 non-null rows have been
filled, the 64-bit counter has wrapped around to zero and `Eval` returns
null.  Every single call is an ordinary one, on a vector whose length fits a
Go `int`; only the number of calls takes the total to 2^64. -/
theorem counter_wraps_counterexample :
    ∃ a, fillAll exKernels (NewFloat exKernels .T_float64) exWrapFills = .ok a ∧
      totalRows exWrapFills = 18446744073709551616 ∧ a.Eval = none ∧
      ¬ (a.Eval = none ↔ totalRows exWrapFills = 0) := by
  obtain ⟨a, ha⟩ := fillAll_returns exKernels exWrapFills (NewFloat exKernels .T_float64)
    (by
      intro p hp
      unfold exWrapFills at hp
      rw [List.eq_of_mem_replicate hp]
      rfl)
  have hrows : countedRows [] exBigVector = 4294967296 := rfl
  have htot : totalRows exWrapFills = 18446744073709551616 := by
    unfold exWrapFills
    rw [totalRows_replicate, hrows]
    rfl
  have hnone : a.Eval = none :=
    (Eval_after_fills exKernels _ a exWrapFills rfl rfl ha).1.mpr (by rw [htot]; rfl)
  refine ⟨a, ha, htot, hnone, ?_⟩
  intro h
  have := h.mp hnone
  rw [htot] at this
  exact absurd this (by decide)

/-- C19 (amended): start from an aggregator that is fresh (`NewFloat` or
`Dup`) or has just been `Reset`, and let a sequence of `Fill` calls return.
`Eval` returns null exactly if the total number of non-null rows filled is
zero modulo 2^64, the counter being a 64-bit integer that wraps around, and
otherwise it returns the accumulated sum; a `Fill` counts the selected rows
that are not null when the selection is non-empty and the vector length minus
its null count when it is empty.  So as long as the total is below 2^64 in
absolute value, `Eval` returns null exactly if the total is zero. -/
theorem Eval_null_iff_mod {F32 F : Type} (K : Kernels F32 F) (a0 a : floatSum F)
    (fills : List (List Nat × Vector F32 F))
    (hfresh : (∃ typ, a0 = NewFloat K typ) ∨ (∃ b : floatSum F, a0 = b.Dup K) ∨
      ∃ b : floatSum F, a0 = b.Reset K)
    (hrun : fillAll K a0 fills = .ok a) :
    (a.Eval = none ↔ totalRows fills % 18446744073709551616 = 0) ∧
      (totalRows fills % 18446744073709551616 ≠ 0 →
        a.Eval = some (accumulated K K.zero fills)) ∧
      (-18446744073709551616 < totalRows fills → totalRows fills < 18446744073709551616 →
        (a.Eval = none ↔ totalRows fills = 0) ∧
          (totalRows fills ≠ 0 → a.Eval = some (accumulated K K.zero fills))) := by
  have h0 : a0.cnt = 0 ∧ a0.sum = K.zero := by
    rcases hfresh with ⟨typ, rfl⟩ | ⟨b, rfl⟩ | ⟨b, rfl⟩ <;> exact ⟨rfl, rfl⟩
  obtain ⟨hiff, hsum⟩ := Eval_after_fills K a0 a fills h0.1 h0.2 hrun
  refine ⟨hiff, hsum, ?_⟩
  intro hlo hhi
  have hmod : totalRows fills % 18446744073709551616 = 0 ↔ totalRows fills = 0 := by
    omega
  exact ⟨hiff.trans hmod, fun hne => hsum (fun h => hne (hmod.mp h))⟩

theorem Eval_null_iff_mod_witness :
    fillAll exKernels (NewFloat exKernels .T_float64) exFills = .ok ⟨.T_float64, 3, 17⟩ ∧
      totalRows exFills = 3 ∧
      ((⟨.T_float64, 3, 17⟩ : floatSum Int).Eval = none ↔
        totalRows exFills % 18446744073709551616 = 0) ∧
      (⟨.T_float64, 3, 17⟩ : floatSum Int).Eval =
        some (accumulated exKernels exKernels.zero exFills) ∧
      ((⟨.T_float64, 3, 17⟩ : floatSum Int).Eval = none ↔ totalRows exFills = 0) :=
  have h := Eval_null_iff_mod exKernels (NewFloat exKernels .T_float64) ⟨.T_float64, 3, 17⟩
    exFills (Or.inl ⟨.T_float64, rfl⟩) rfl
  ⟨rfl, by decide, h.1, h.2.1 (by decide), (h.2.2 (by decide) (by decide)).1⟩

end SumAgg

namespace Iface

/-- C20: `AtomicCASState(addr, UNLOAD, LOADING)` returns true exactly if the
stored state was UNLOAD, and then the stored state becomes LOADING; when it
returns false the stored state is unchanged.  Hence a `PrepareLoad` that
leaves a node in LOADING which was not in LOADING before found it in UNLOAD,
and of two successive `PrepareLoad` attempts on an UNLOAD node exactly the
first returns true. -/
theorem AtomicCASState_load (cell : NodeState) :
    ((AtomicCASState cell NODE_UNLOAD NODE_LOADING).1 = true ↔ cell = NODE_UNLOAD) ∧
      ((AtomicCASState cell NODE_UNLOAD NODE_LOADING).1 = true →
        (AtomicCASState cell NODE_UNLOAD NODE_LOADING).2 = NODE_LOADING) ∧
      ((AtomicCASState cell NODE_UNLOAD NODE_LOADING).1 = false →
        (AtomicCASState cell NODE_UNLOAD NODE_LOADING).2 = cell) ∧
      (cell ≠ NODE_LOADING → (PrepareLoad cell).2 = NODE_LOADING → cell = NODE_UNLOAD) ∧
      (PrepareLoad NODE_UNLOAD).1 = true ∧
      (PrepareLoad (PrepareLoad NODE_UNLOAD).2).1 = false := by
  refine ⟨?_, ?_, ?_, ?_, by decide, by decide⟩
  · by_cases h : cell = NODE_UNLOAD <;> simp [AtomicCASState, h]
  · by_cases h : cell = NODE_UNLOAD <;> simp [AtomicCASState, h]
  · by_cases h : cell = NODE_UNLOAD <;> simp [AtomicCASState, h]
  · intro hne hload
    by_cases h : cell = NODE_UNLOAD
    · exact h
    · simp only [PrepareLoad, AtomicCASState, h, if_false] at hload
      exact absurd hload hne

theorem AtomicCASState_load_witness :
    ((AtomicCASState NODE_LOADED NODE_UNLOAD NODE_LOADING).1 = true ↔
        NODE_LOADED = NODE_UNLOAD) ∧
      ((AtomicCASState NODE_LOADED NODE_UNLOAD NODE_LOADING).1 = true →
        (AtomicCASState NODE_LOADED NODE_UNLOAD NODE_LOADING).2 = NODE_LOADING) ∧
      ((AtomicCASState NODE_LOADED NODE_UNLOAD NODE_LOADING).1 = false →
        (AtomicCASState NODE_LOADED NODE_UNLOAD NODE_LOADING).2 = NODE_LOADED) ∧
      (NODE_LOADED ≠ NODE_LOADING → (PrepareLoad NODE_LOADED).2 = NODE_LOADING →
        NODE_LOADED = NODE_UNLOAD) ∧
      (PrepareLoad NODE_UNLOAD).1 = true ∧
      (PrepareLoad (PrepareLoad NODE_UNLOAD).2).1 = false :=
  AtomicCASState_load NODE_LOADED

end Iface
